import Mathlib

/-!
# Feature-based image metamorphosis: a shallow embedding of `morph.cpp`

The embedding follows `src/Metamorphosis/morph.cpp`, the feature loader of
`src/Metamorphosis/parseConfig.cpp` and the parts of `libst` they use
(`STPoint2`, `STVector2`, `STColor4ub`, `STImage`).

The functions of `morph.cpp` are embedded twice.

* Over an exact linearly ordered field `F` with a floor function (`ℚ` for
  evaluation, `ℝ` where square roots and powers are needed).  Rounding is not
  represented: this embedding carries the properties of the real-valued
  formulas, and the statements that are made "in exact arithmetic".
* Over machine floats (`FloatOps`, namespace `Machine`): the operations on
  `float` are the fields of a structure of which nothing is assumed, so that a
  theorem proved there holds of the program whatever the rounding, the
  infinities and the NaNs do.  `binary32` is the instance in which every
  operation is rounded to IEEE 754 binary32 (round to nearest, ties to even);
  it is used to evaluate the program on concrete inputs.

Conventions of the embedding over an exact field.

* A float division whose divisor is zero produces an IEEE infinity or NaN,
  which exact arithmetic cannot represent; the embedding reports it as `none`
  (see `fdiv`), and `none` propagates to the result: `none` there only says
  that the run leaves exact arithmetic.  What the program does then is told
  by the embedding over machine floats.
* `sqrtf` and `powf` come from the C library and are parameters; `powf` is
  taken to be total.
* An index into a `std::vector` outside its range is a failure (`none`).

Conventions of the embedding over machine floats.

* Every arithmetic operation is total.  A run is `none` only when an
  assertion of `GetPixel` / `SetPixel` fails, the `STImage` constructor throws,
  or a feature list is read outside its range.

Conventions of both.

* `int` is `Int`; an `unsigned char` colour component is a `Nat` below 256,
  and the conversion from `float` truncates toward zero and keeps the low
  eight bits (`% 256`).
* The assertions of `STImage::GetPixel` / `SetPixel` and the exception of the
  `STImage` constructor are failures (`none`).
* Every successful `GetPixel` on an input image is recorded in a read log, a
  list of the coordinates read, in program order.
* `STImage::Save` and the loading of an image file are parameters; a feature
  file is the list of the records its lines are classified into.
* Of `main` the part from the call of `loadLineEditorFile` to the return of
  `GenerateMorphFrames` is embedded; the window system is not.
-/

namespace Metamorphosis

/-! ## libst value types -/

/-- The 2-vector of `STVector2.h`. -/
structure STVector2 (F : Type) where
  x : F
  y : F
deriving DecidableEq, Repr

/-- The 2D point of `STPoint2.h`. -/
structure STPoint2 (F : Type) where
  x : F
  y : F
deriving DecidableEq, Repr

/-- The colour of `STColor4ub.h`: four 8-bit components. -/
structure STColor4ub where
  r : Nat
  g : Nat
  b : Nat
  a : Nat
deriving DecidableEq, Repr

/-- The feature of `morph.cpp`: a directed segment from `P` to `Q`. -/
structure Feature (F : Type) where
  P : STPoint2 F
  Q : STPoint2 F
deriving DecidableEq, Repr

/-- The image of `STImage.h`: `mPixels` is row-major, bottom row first. -/
structure STImage where
  mHeight : Int
  mWidth : Int
  mPixels : List STColor4ub
deriving DecidableEq, Repr

/-- The coordinates of the successful `GetPixel` calls, in program order. -/
abbrev ReadLog := List (Int × Int)

section Arithmetic

variable {F : Type} [LinearOrderedField F] [FloorRing F]

/-- Float division; `none` when the divisor is zero. -/
def fdiv (x y : F) : Option F :=
  if y = 0 then none else some (x / y)

/-- The C function `floorf`, with a float result. -/
def floorf (z : F) : F := ((⌊z⌋ : Int) : F)

/-- The C function `ceilf`, with a float result. -/
def ceilf (z : F) : F := ((⌈z⌉ : Int) : F)

/-- The conversion `float -> int`: truncation toward zero. -/
def truncf (z : F) : Int := if 0 ≤ z then ⌊z⌋ else ⌈z⌉

/-- The conversion `float -> unsigned char`: truncation, low eight bits. -/
def toComponent (z : F) : Nat := (truncf z % 256).toNat

/-- The member `STVector2::LengthSq`. -/
def STVector2.LengthSq (v : STVector2 F) : F := v.x * v.x + v.y * v.y

/-- The member `STVector2::Length`. -/
def STVector2.Length (sqrtf : F → F) (v : STVector2 F) : F := sqrtf v.LengthSq

/-- The static member `STVector2::Dot`. -/
def STVector2.Dot (left right : STVector2 F) : F :=
  left.x * right.x + left.y * right.y

/-- The operator `STVector2 * float`. -/
def STVector2.mulS (left : STVector2 F) (right : F) : STVector2 F :=
  ⟨left.x * right, left.y * right⟩

/-- The operator `float * STVector2`. -/
def STVector2.smul (left : F) (right : STVector2 F) : STVector2 F :=
  ⟨right.x * left, right.y * left⟩

/-- The operator `STVector2 / float`; `none` when the divisor is zero. -/
def STVector2.divS (left : STVector2 F) (right : F) : Option (STVector2 F) :=
  match fdiv left.x right, fdiv left.y right with
  | some x, some y => some ⟨x, y⟩
  | _, _ => none

/-- The operator `STVector2 += STVector2`, as a function. -/
def STVector2.add (left right : STVector2 F) : STVector2 F :=
  ⟨left.x + right.x, left.y + right.y⟩

/-- The operator `STPoint2 - STPoint2`. -/
def STPoint2.sub (left right : STPoint2 F) : STVector2 F :=
  ⟨left.x - right.x, left.y - right.y⟩

/-- The operator `STPoint2 + STVector2`. -/
def STPoint2.addV (left : STPoint2 F) (right : STVector2 F) : STPoint2 F :=
  ⟨left.x + right.x, left.y + right.y⟩

/-- The static member `STPoint2::Dist`. -/
def STPoint2.Dist (sqrtf : F → F) (left right : STPoint2 F) : F :=
  (right.sub left).Length sqrtf

end Arithmetic

/-! ## STImage -/

/-- The constructor `STImage(int width, int height, Pixel color)`;
`Initialize` throws when a dimension is not positive. -/
def STImage.create (width height : Int) (color : STColor4ub) : Option STImage :=
  if width ≤ 0 then none
  else if height ≤ 0 then none
  else some ⟨height, width, List.replicate (width * height).toNat color⟩

/-- The pixel every `new STImage(w, h)` is filled with: `Pixel(0,0,0,0)`. -/
def STImage.defaultColor : STColor4ub := ⟨0, 0, 0, 0⟩

/-- The member `STImage::GetPixel`; a failed assertion is `none`. -/
def STImage.GetPixel (img : STImage) (x y : Int) : Option STColor4ub :=
  if 0 ≤ x ∧ x < img.mWidth ∧ 0 ≤ y ∧ y < img.mHeight then
    img.mPixels[(y * img.mWidth + x).toNat]?
  else none

/-- The member `STImage::SetPixel`; a failed assertion is `none`. -/
def STImage.SetPixel (img : STImage) (x y : Int) (value : STColor4ub) : Option STImage :=
  if 0 ≤ x ∧ x < img.mWidth ∧ 0 ≤ y ∧ y < img.mHeight then
    some { img with mPixels := img.mPixels.set (y * img.mWidth + x).toNat value }
  else none

/-- A well-formed image: positive dimensions, `mWidth * mHeight` pixels, and
every component an 8-bit value. -/
def STImage.WF (img : STImage) : Prop :=
  0 < img.mWidth ∧ 0 < img.mHeight ∧
  (img.mPixels.length : Int) = img.mWidth * img.mHeight ∧
  ∀ c ∈ img.mPixels, c.r < 256 ∧ c.g < 256 ∧ c.b < 256 ∧ c.a < 256

instance (img : STImage) : Decidable img.WF := by
  unfold STImage.WF; infer_instance

/-- The components of a colour are 8-bit values. -/
def STColor4ub.Bounded (c : STColor4ub) : Prop :=
  c.r < 256 ∧ c.g < 256 ∧ c.b < 256 ∧ c.a < 256

/-- The image has width `w`, height `h` and `w * h` pixels. -/
def STImage.Sized (img : STImage) (w h : Int) : Prop :=
  img.mWidth = w ∧ img.mHeight = h ∧ (img.mPixels.length : Int) = w * h

/-- A read log all of whose coordinates lie inside a `w` by `h` image. -/
def ReadLog.Within (log : ReadLog) (w h : Int) : Prop :=
  ∀ p ∈ log, 0 ≤ p.1 ∧ p.1 < w ∧ 0 ≤ p.2 ∧ p.2 < h

/-- The nested loops `for x in [0, w) for y in [0, h)` of `BlendImages` and
`FieldMorph`, threading a state through the body; a failing body aborts. -/
def forXY {σ : Type} (w h : Int) (body : Int → Int → σ → Option σ) (s : σ) : Option σ :=
  (List.range w.toNat).foldlM
    (fun st (x : Nat) =>
      (List.range h.toNat).foldlM (fun st (y : Nat) => body (x : Int) (y : Int) st) st) s

section Morph

variable {F : Type} [LinearOrderedField F] [FloorRing F]

/-- The function `Lerp` of `morph.cpp`. -/
def Lerp (c1 c2 t : F) : F := c1 + t * (c2 - c1)

/-- The function `colorLerp` of `morph.cpp`: the result is built by the
three-component constructor, whose alpha defaults to 255. -/
def colorLerp (c1 c2 : STColor4ub) (t : F) : STColor4ub :=
  let r := Lerp (c1.r : F) (c2.r : F) t
  let g := Lerp (c1.g : F) (c2.g : F) t
  let b := Lerp (c1.b : F) (c2.b : F) t
  ⟨toComponent r, toComponent g, toComponent b, 255⟩

/-- One of the four "edge case" statements of `biLerp`: the colour of the
corner `v` and the read it makes, if any. -/
def biLerp.corner (v : STPoint2 F) (image : STImage) : Option (STColor4ub × ReadLog) :=
  if v.x ≥ (image.mWidth : F) ∨ v.y ≥ (image.mHeight : F) then
    some (⟨0, 0, 0, 255⟩, [])
  else
    match image.GetPixel (truncf v.x) (truncf v.y) with
    | some c => some (c, [(truncf v.x, truncf v.y)])
    | none => none

/-- The function `biLerp` of `morph.cpp`, with the reads it makes. -/
def biLerp (X_prime : STPoint2 F) (image : STImage) : Option (STColor4ub × ReadLog) :=
  let v0 : STPoint2 F := ⟨floorf X_prime.x, floorf X_prime.y⟩
  let v1 : STPoint2 F := ⟨ceilf X_prime.x, floorf X_prime.y⟩
  let v2 : STPoint2 F := ⟨floorf X_prime.x, ceilf X_prime.y⟩
  let v3 : STPoint2 F := ⟨ceilf X_prime.x, ceilf X_prime.y⟩
  match biLerp.corner v0 image, biLerp.corner v1 image,
        biLerp.corner v2 image, biLerp.corner v3 image with
  | some (v0C, l0), some (v1C, l1), some (v2C, l2), some (v3C, l3) =>
    let s := X_prime.x - v0.x
    let t := X_prime.y - v0.y
    let v01C := colorLerp v0C v1C s
    let v23C := colorLerp v2C v3C s
    let v := colorLerp v01C v23C t
    some (v, l0 ++ l1 ++ l2 ++ l3)
  | _, _, _, _ => none

/-- The body of the pixel loop of `BlendImages`.  The state is the result
image and the read logs of `image1` and `image2`. -/
def BlendImages.body (image1 image2 : STImage) (t : F) (x y : Int)
    (st : STImage × ReadLog × ReadLog) : Option (STImage × ReadLog × ReadLog) :=
  match image1.GetPixel x y, image2.GetPixel x y with
  | some p1, some p2 =>
    let resultPixel := colorLerp p1 p2 t
    match st.1.SetPixel x y resultPixel with
    | some result => some (result, st.2.1 ++ [(x, y)], st.2.2 ++ [(x, y)])
    | none => none
  | _, _ => none

/-- The function `BlendImages` of `morph.cpp`, with the read logs of its two
inputs. -/
def BlendImages.traced (image1 image2 : STImage) (t : F) :
    Option (STImage × ReadLog × ReadLog) :=
  let minWidth := min image1.mWidth image2.mWidth
  let minHeight := min image1.mHeight image2.mHeight
  match STImage.create minWidth minHeight STImage.defaultColor with
  | some result => forXY minWidth minHeight (BlendImages.body image1 image2 t) (result, [], [])
  | none => none

/-- The function `BlendImages` of `morph.cpp`. -/
def BlendImages (image1 image2 : STImage) (t : F) : Option STImage :=
  (BlendImages.traced image1 image2 t).map (fun st => st.1)

/-- The distance `dist` chosen by the three cases of `FieldMorph`; `abs(v)` is
the absolute value of the float `v`. -/
def FieldMorph.dist (sqrtf : F → F) (u v : F) (Pi Qi X : STPoint2 F) : F :=
  if u < 0 then STPoint2.Dist sqrtf Pi X
  else if u > 1 then STPoint2.Dist sqrtf Qi X
  else |v|

/-- The weight `powf(powf(PiQi.Length(), p) / (a + dist), b)` of `FieldMorph`. -/
def FieldMorph.weight (powf : F → F → F) (len p a dist b : F) : Option F :=
  match fdiv (powf len p) (a + dist) with
  | some q => some (powf q b)
  | none => none

/-- The body of the loop over features of `FieldMorph` for the feature pair
`(sf, tf) = (sourceFeatures[i], targetFeatures[i])`: the displacement `Di`
and the weight. -/
def FieldMorph.feature (sqrtf : F → F) (powf : F → F → F) (X : STPoint2 F)
    (sf tf : Feature F) (t a b p : F) : Option (STVector2 F × F) :=
  let Pi_x := Lerp sf.P.x tf.P.x t
  let Pi_y := Lerp sf.P.y tf.P.y t
  let Qi_x := Lerp sf.Q.x tf.Q.x t
  let Qi_y := Lerp sf.Q.y tf.Q.y t
  let Pi : STPoint2 F := ⟨Pi_x, Pi_y⟩
  let Qi : STPoint2 F := ⟨Qi_x, Qi_y⟩
  let PiQi := Qi.sub Pi
  let PiX := X.sub Pi
  let perpPiQi : STVector2 F := ⟨-PiQi.y, PiQi.x⟩
  match fdiv (STVector2.Dot PiX PiQi) PiQi.LengthSq,
        fdiv (STVector2.Dot PiX perpPiQi) (PiQi.Length sqrtf) with
  | some u, some v =>
    let Pi_prime := sf.P
    let Qi_prime := sf.Q
    let PiQi_prime := Qi_prime.sub Pi_prime
    let perpPiQi_prime : STVector2 F := ⟨-PiQi_prime.y, PiQi_prime.x⟩
    match (STVector2.smul v perpPiQi_prime).divS (PiQi_prime.Length sqrtf) with
    | some w =>
      let Xi_prime := (Pi_prime.addV (STVector2.smul u PiQi_prime)).addV w
      let Di := Xi_prime.sub X
      let dist := FieldMorph.dist sqrtf u v Pi Qi X
      match FieldMorph.weight powf (PiQi.Length sqrtf) p a dist b with
      | some weight => some (Di, weight)
      | none => none
    | none => none
  | _, _ => none

/-- The interpolated segment `(Pi, Qi)` of the feature pair `(sf, tf)`: the
four calls of `Lerp` at the head of the loop body of `FieldMorph` and the two
points built from them. -/
def FieldMorph.interpolated (sf tf : Feature F) (t : F) : Feature F :=
  let Pi_x := Lerp sf.P.x tf.P.x t
  let Pi_y := Lerp sf.P.y tf.P.y t
  let Qi_x := Lerp sf.Q.x tf.Q.x t
  let Qi_y := Lerp sf.Q.y tf.Q.y t
  ⟨⟨Pi_x, Pi_y⟩, ⟨Qi_x, Qi_y⟩⟩

/-- The loop body of `FieldMorph` from `PiQi` on: the displacement `Di` and
the weight computed from the interpolated segment `seg = (Pi, Qi)` and the
feature `sf = sourceFeatures[i]`. -/
def FieldMorph.displace (sqrtf : F → F) (powf : F → F → F) (X : STPoint2 F)
    (seg sf : Feature F) (a b p : F) : Option (STVector2 F × F) :=
  let Pi := seg.P
  let Qi := seg.Q
  let PiQi := Qi.sub Pi
  let PiX := X.sub Pi
  let perpPiQi : STVector2 F := ⟨-PiQi.y, PiQi.x⟩
  match fdiv (STVector2.Dot PiX PiQi) PiQi.LengthSq,
        fdiv (STVector2.Dot PiX perpPiQi) (PiQi.Length sqrtf) with
  | some u, some v =>
    let Pi_prime := sf.P
    let Qi_prime := sf.Q
    let PiQi_prime := Qi_prime.sub Pi_prime
    let perpPiQi_prime : STVector2 F := ⟨-PiQi_prime.y, PiQi_prime.x⟩
    match (STVector2.smul v perpPiQi_prime).divS (PiQi_prime.Length sqrtf) with
    | some w =>
      let Xi_prime := (Pi_prime.addV (STVector2.smul u PiQi_prime)).addV w
      let Di := Xi_prime.sub X
      let dist := FieldMorph.dist sqrtf u v Pi Qi X
      match FieldMorph.weight powf (PiQi.Length sqrtf) p a dist b with
      | some weight => some (Di, weight)
      | none => none
    | none => none
  | _, _ => none

/-- One iteration `i` of the loop over features of `FieldMorph`, updating
`(dSum, weightSum)`; an index outside `sourceFeatures` is a failure. -/
def FieldMorph.accum (sqrtf : F → F) (powf : F → F → F) (X : STPoint2 F)
    (sourceFeatures targetFeatures : List (Feature F)) (t a b p : F)
    (acc : STVector2 F × F) (i : Nat) : Option (STVector2 F × F) :=
  match sourceFeatures[i]?, targetFeatures[i]? with
  | some sf, some tf =>
    match FieldMorph.feature sqrtf powf X sf tf t a b p with
    | some (Di, weight) => some (acc.1.add (Di.mulS weight), acc.2 + weight)
    | none => none
  | _, _ => none

/-- The point `X_prime` at which `FieldMorph` samples `image` for the output
pixel `(x, y)`. -/
def FieldMorph.samplePoint (sqrtf : F → F) (powf : F → F → F)
    (sourceFeatures targetFeatures : List (Feature F)) (t a b p : F) (x y : Int) :
    Option (STPoint2 F) :=
  let X : STPoint2 F := ⟨(x : F), (y : F)⟩
  match (List.range targetFeatures.length).foldlM
      (FieldMorph.accum sqrtf powf X sourceFeatures targetFeatures t a b p) (⟨0, 0⟩, 0) with
  | some (dSum, weightSum) =>
    match dSum.divS weightSum with
    | some d => some (X.addV d)
    | none => none
  | none => none

/-- The test `X_prime.x < 0 || X_prime.x >= width || X_prime.y < 0 ||
X_prime.y >= height` of `FieldMorph`. -/
def FieldMorph.outside (image : STImage) (X_prime : STPoint2 F) : Prop :=
  X_prime.x < 0 ∨ X_prime.x ≥ (image.mWidth : F)
    ∨ X_prime.y < 0 ∨ X_prime.y ≥ (image.mHeight : F)

instance (image : STImage) (X_prime : STPoint2 F) :
    Decidable (FieldMorph.outside image X_prime) := by
  unfold FieldMorph.outside; infer_instance

/-- The body of the pixel loop of `FieldMorph`.  The state is the result image
and the read log of `image`. -/
def FieldMorph.body (sqrtf : F → F) (powf : F → F → F) (image : STImage)
    (sourceFeatures targetFeatures : List (Feature F)) (t a b p : F) (x y : Int)
    (st : STImage × ReadLog) : Option (STImage × ReadLog) :=
  match FieldMorph.samplePoint sqrtf powf sourceFeatures targetFeatures t a b p x y with
  | some X_prime =>
    if FieldMorph.outside image X_prime then
      some st
    else
      match biLerp X_prime image with
      | some (X_prime_color, reads) =>
        match st.1.SetPixel x y X_prime_color with
        | some result => some (result, st.2 ++ reads)
        | none => none
      | none => none
  | none => none

/-- The function `FieldMorph` of `morph.cpp`, with the read log of `image`. -/
def FieldMorph.traced (sqrtf : F → F) (powf : F → F → F) (image : STImage)
    (sourceFeatures targetFeatures : List (Feature F)) (t a b p : F) :
    Option (STImage × ReadLog) :=
  match STImage.create image.mWidth image.mHeight STImage.defaultColor with
  | some result =>
    forXY result.mWidth result.mHeight
      (FieldMorph.body sqrtf powf image sourceFeatures targetFeatures t a b p) (result, [])
  | none => none

/-- The function `FieldMorph` of `morph.cpp`. -/
def FieldMorph (sqrtf : F → F) (powf : F → F → F) (image : STImage)
    (sourceFeatures targetFeatures : List (Feature F)) (t a b p : F) : Option STImage :=
  (FieldMorph.traced sqrtf powf image sourceFeatures targetFeatures t a b p).map
    (fun st => st.1)

/-- The function `MorphImages` of `morph.cpp`. -/
def MorphImages (sqrtf : F → F) (powf : F → F → F)
    (sourceImage : STImage) (sourceFeatures : List (Feature F))
    (targetImage : STImage) (targetFeatures : List (Feature F)) (t a b p : F) :
    Option STImage :=
  match FieldMorph sqrtf powf sourceImage sourceFeatures targetFeatures t a b p with
  | some image1 =>
    match FieldMorph sqrtf powf targetImage targetFeatures sourceFeatures (1 - t) a b p with
    | some image2 => BlendImages image1 image2 t
    | none => none
  | none => none

/-- The constant `kFrames` of `morph.cpp`. -/
def kFrames : Nat := 30

/-- The expression `powf(t, 2.f)*(3-2*t)` of `GenerateMorphFrames`. -/
def GenerateMorphFrames.ease (powf : F → F → F) (t : F) : F :=
  powf t 2 * (3 - 2 * t)

/-- The text `std::setw(3) << std::setfill('0') << i` for `i >= 0`: the
decimal digits of `i`, padded on the left with `0` to three characters. -/
def GenerateMorphFrames.setw3 (i : Nat) : String :=
  String.mk (List.replicate (3 - (toString i).length) '0') ++ toString i

/-- The file name `"frame" << setw(3) << setfill('0') << i << ".png"`. -/
def GenerateMorphFrames.frameName (i : Nat) : String :=
  "frame" ++ GenerateMorphFrames.setw3 i ++ ".png"

/-- One iteration of `GenerateMorphFrames`, as it is observed from outside:
the parameter passed to `MorphImages`, the image it returned, the name passed
to `Save` and the status `Save` returned. -/
structure Frame (F : Type) where
  name : String
  ease_t : F
  image : STImage
  status : Int

/-- The body of the loop of `GenerateMorphFrames` for the frame `i`.  The
state is the running value `t` and the frames produced so far; `Save` is
`STImage::Save`, whose status the loop does not look at. -/
def GenerateMorphFrames.body (sqrtf : F → F) (powf : F → F → F)
    (Save : STImage → String → Int)
    (sourceImage : STImage) (sourceFeatures : List (Feature F))
    (targetImage : STImage) (targetFeatures : List (Feature F)) (a b p : F)
    (st : F × List (Frame F)) (i : Nat) : Option (F × List (Frame F)) :=
  let t := st.1
  let ease_t := GenerateMorphFrames.ease powf t
  match MorphImages sqrtf powf sourceImage sourceFeatures targetImage targetFeatures
      ease_t a b p with
  | some result =>
    let t := t + 1 / 30
    let name := GenerateMorphFrames.frameName i
    some (t, st.2 ++ [⟨name, ease_t, result, Save result name⟩])
  | none => none

/-- The function `GenerateMorphFrames` of `morph.cpp`: the frames of the
iterations `i = 0 .. kFrames`, in order. -/
def GenerateMorphFrames (sqrtf : F → F) (powf : F → F → F)
    (Save : STImage → String → Int)
    (sourceImage : STImage) (sourceFeatures : List (Feature F))
    (targetImage : STImage) (targetFeatures : List (Feature F)) (a b p : F) :
    Option (List (Frame F)) :=
  ((List.range (kFrames + 1)).foldlM
    (GenerateMorphFrames.body sqrtf powf Save sourceImage sourceFeatures
      targetImage targetFeatures a b p) (0, [])).map (fun st => st.2)

end Morph

/-! ## The embedding over machine floats

The same functions of `morph.cpp` once more, this time over an arbitrary type
`Fl` of `float` values whose operations are the fields of `FloatOps`: nothing
is assumed of them, so what is proved here holds of the program whatever the
rounding, the infinities and the NaNs do.  Every operation is total; a run is
`none` only when an assertion of `GetPixel` / `SetPixel` fails, the `STImage`
constructor throws, or a feature list is read outside its range (undefined
behaviour, of which nothing is said). -/

/-- The operations on `float` that `morph.cpp` uses. -/
structure FloatOps (Fl : Type) where
  /-- The conversion of an `int` (or an `unsigned char`) to `float`. -/
  ofInt : Int → Fl
  /-- The operator `+`. -/
  add : Fl → Fl → Fl
  /-- The operator `-`. -/
  sub : Fl → Fl → Fl
  /-- The operator `*`. -/
  mul : Fl → Fl → Fl
  /-- The operator `/`. -/
  div : Fl → Fl → Fl
  /-- The unary operator `-`. -/
  neg : Fl → Fl
  /-- The operator `<`. -/
  lt : Fl → Fl → Bool
  /-- The operator `>`. -/
  gt : Fl → Fl → Bool
  /-- The operator `>=`. -/
  ge : Fl → Fl → Bool
  /-- The function `abs` on a `float`. -/
  abs : Fl → Fl
  /-- The function `sqrtf`. -/
  sqrtf : Fl → Fl
  /-- The function `powf`. -/
  powf : Fl → Fl → Fl
  /-- The function `floorf`. -/
  floorf : Fl → Fl
  /-- The function `ceilf`. -/
  ceilf : Fl → Fl
  /-- The conversion of a `float` to `int` (the arguments of `GetPixel`). -/
  toInt : Fl → Int
  /-- The conversion of a `float` to `unsigned char` (the arguments of the
  constructor `STColor4ub(r, g, b)`). -/
  toComponent : Fl → Nat

namespace Machine

variable {Fl : Type}

/-- The member `STVector2::LengthSq`: `x * x + y * y`. -/
def LengthSq (ops : FloatOps Fl) (v : STVector2 Fl) : Fl :=
  ops.add (ops.mul v.x v.x) (ops.mul v.y v.y)

/-- The member `STVector2::Length`: `sqrtf(LengthSq())`. -/
def Length (ops : FloatOps Fl) (v : STVector2 Fl) : Fl := ops.sqrtf (LengthSq ops v)

/-- The static member `STVector2::Dot`. -/
def Dot (ops : FloatOps Fl) (left right : STVector2 Fl) : Fl :=
  ops.add (ops.mul left.x right.x) (ops.mul left.y right.y)

/-- The operators `STVector2 * float` and `float * STVector2`: both multiply
each component of the vector by the float, the vector on the left. -/
def mulS (ops : FloatOps Fl) (left : STVector2 Fl) (right : Fl) : STVector2 Fl :=
  ⟨ops.mul left.x right, ops.mul left.y right⟩

/-- The operator `STVector2 / float`. -/
def divS (ops : FloatOps Fl) (left : STVector2 Fl) (right : Fl) : STVector2 Fl :=
  ⟨ops.div left.x right, ops.div left.y right⟩

/-- The operator `STVector2 += STVector2`. -/
def addVV (ops : FloatOps Fl) (left right : STVector2 Fl) : STVector2 Fl :=
  ⟨ops.add left.x right.x, ops.add left.y right.y⟩

/-- The operator `STPoint2 - STPoint2`. -/
def subPP (ops : FloatOps Fl) (left right : STPoint2 Fl) : STVector2 Fl :=
  ⟨ops.sub left.x right.x, ops.sub left.y right.y⟩

/-- The operator `STPoint2 + STVector2`. -/
def addPV (ops : FloatOps Fl) (left : STPoint2 Fl) (right : STVector2 Fl) : STPoint2 Fl :=
  ⟨ops.add left.x right.x, ops.add left.y right.y⟩

/-- The static member `STPoint2::Dist`: `(right - left).Length()`. -/
def Dist (ops : FloatOps Fl) (left right : STPoint2 Fl) : Fl :=
  Length ops (subPP ops right left)

/-- The function `Lerp` of `morph.cpp`: `c1 + t * (c2 - c1)`. -/
def Lerp (ops : FloatOps Fl) (c1 c2 t : Fl) : Fl := ops.add c1 (ops.mul t (ops.sub c2 c1))

/-- The function `colorLerp` of `morph.cpp`: the components are converted to
`float`, interpolated, and converted back by the three-component constructor,
whose alpha defaults to 255. -/
def colorLerp (ops : FloatOps Fl) (c1 c2 : STColor4ub) (t : Fl) : STColor4ub :=
  let r := Lerp ops (ops.ofInt c1.r) (ops.ofInt c2.r) t
  let g := Lerp ops (ops.ofInt c1.g) (ops.ofInt c2.g) t
  let b := Lerp ops (ops.ofInt c1.b) (ops.ofInt c2.b) t
  ⟨ops.toComponent r, ops.toComponent g, ops.toComponent b, 255⟩

/-- One of the four "edge case" statements of `biLerp`: the colour of the
corner `v` and the read it makes, if any. -/
def biLerp.corner (ops : FloatOps Fl) (v : STPoint2 Fl) (image : STImage) :
    Option (STColor4ub × ReadLog) :=
  if ops.ge v.x (ops.ofInt image.mWidth) = true ∨ ops.ge v.y (ops.ofInt image.mHeight) = true
  then some (⟨0, 0, 0, 255⟩, [])
  else
    match image.GetPixel (ops.toInt v.x) (ops.toInt v.y) with
    | some c => some (c, [(ops.toInt v.x, ops.toInt v.y)])
    | none => none

/-- The function `biLerp` of `morph.cpp`, with the reads it makes. -/
def biLerp (ops : FloatOps Fl) (X_prime : STPoint2 Fl) (image : STImage) :
    Option (STColor4ub × ReadLog) :=
  let v0 : STPoint2 Fl := ⟨ops.floorf X_prime.x, ops.floorf X_prime.y⟩
  let v1 : STPoint2 Fl := ⟨ops.ceilf X_prime.x, ops.floorf X_prime.y⟩
  let v2 : STPoint2 Fl := ⟨ops.floorf X_prime.x, ops.ceilf X_prime.y⟩
  let v3 : STPoint2 Fl := ⟨ops.ceilf X_prime.x, ops.ceilf X_prime.y⟩
  match biLerp.corner ops v0 image, biLerp.corner ops v1 image,
        biLerp.corner ops v2 image, biLerp.corner ops v3 image with
  | some (v0C, l0), some (v1C, l1), some (v2C, l2), some (v3C, l3) =>
    let s := ops.sub X_prime.x v0.x
    let t := ops.sub X_prime.y v0.y
    let v01C := colorLerp ops v0C v1C s
    let v23C := colorLerp ops v2C v3C s
    let v := colorLerp ops v01C v23C t
    some (v, l0 ++ l1 ++ l2 ++ l3)
  | _, _, _, _ => none

/-- The body of the pixel loop of `BlendImages`.  The state is the result
image and the read logs of `image1` and `image2`. -/
def BlendImages.body (ops : FloatOps Fl) (image1 image2 : STImage) (t : Fl) (x y : Int)
    (st : STImage × ReadLog × ReadLog) : Option (STImage × ReadLog × ReadLog) :=
  match image1.GetPixel x y, image2.GetPixel x y with
  | some p1, some p2 =>
    let resultPixel := colorLerp ops p1 p2 t
    match st.1.SetPixel x y resultPixel with
    | some result => some (result, st.2.1 ++ [(x, y)], st.2.2 ++ [(x, y)])
    | none => none
  | _, _ => none

/-- The function `BlendImages` of `morph.cpp`, with the read logs of its two
inputs. -/
def BlendImages.traced (ops : FloatOps Fl) (image1 image2 : STImage) (t : Fl) :
    Option (STImage × ReadLog × ReadLog) :=
  let minWidth := min image1.mWidth image2.mWidth
  let minHeight := min image1.mHeight image2.mHeight
  match STImage.create minWidth minHeight STImage.defaultColor with
  | some result =>
    forXY minWidth minHeight (BlendImages.body ops image1 image2 t) (result, [], [])
  | none => none

/-- The function `BlendImages` of `morph.cpp`. -/
def BlendImages (ops : FloatOps Fl) (image1 image2 : STImage) (t : Fl) : Option STImage :=
  (BlendImages.traced ops image1 image2 t).map (fun st => st.1)

/-- The body of the loop over features of `FieldMorph` for the feature pair
`(sf, tf) = (sourceFeatures[i], targetFeatures[i])`: the displacement `Di`
and the weight. -/
def FieldMorph.feature (ops : FloatOps Fl) (X : STPoint2 Fl) (sf tf : Feature Fl)
    (t a b p : Fl) : STVector2 Fl × Fl :=
  let Pi_x := Lerp ops sf.P.x tf.P.x t
  let Pi_y := Lerp ops sf.P.y tf.P.y t
  let Qi_x := Lerp ops sf.Q.x tf.Q.x t
  let Qi_y := Lerp ops sf.Q.y tf.Q.y t
  let Pi : STPoint2 Fl := ⟨Pi_x, Pi_y⟩
  let Qi : STPoint2 Fl := ⟨Qi_x, Qi_y⟩
  let PiQi := subPP ops Qi Pi
  let PiX := subPP ops X Pi
  let perpPiQi : STVector2 Fl := ⟨ops.neg PiQi.y, PiQi.x⟩
  let u := ops.div (Dot ops PiX PiQi) (LengthSq ops PiQi)
  let v := ops.div (Dot ops PiX perpPiQi) (Length ops PiQi)
  let Pi_prime := sf.P
  let Qi_prime := sf.Q
  let PiQi_prime := subPP ops Qi_prime Pi_prime
  let perpPiQi_prime : STVector2 Fl := ⟨ops.neg PiQi_prime.y, PiQi_prime.x⟩
  let Xi_prime := addPV ops (addPV ops Pi_prime (mulS ops PiQi_prime u))
    (divS ops (mulS ops perpPiQi_prime v) (Length ops PiQi_prime))
  let Di := subPP ops Xi_prime X
  let dist :=
    if ops.lt u (ops.ofInt 0) = true then Dist ops Pi X
    else if ops.gt u (ops.ofInt 1) = true then Dist ops Qi X
    else ops.abs v
  let weight := ops.powf (ops.div (ops.powf (Length ops PiQi) p) (ops.add a dist)) b
  (Di, weight)

/-- One iteration `i` of the loop over features of `FieldMorph`:
`dSum += Di * weight; weightSum += weight`.  It is `none` exactly when `i` is
outside one of the two lists. -/
def FieldMorph.accum (ops : FloatOps Fl) (X : STPoint2 Fl)
    (sourceFeatures targetFeatures : List (Feature Fl)) (t a b p : Fl)
    (acc : STVector2 Fl × Fl) (i : Nat) : Option (STVector2 Fl × Fl) :=
  match sourceFeatures[i]?, targetFeatures[i]? with
  | some sf, some tf =>
    let r := FieldMorph.feature ops X sf tf t a b p
    some (addVV ops acc.1 (mulS ops r.1 r.2), ops.add acc.2 r.2)
  | _, _ => none

/-- The loop `for (int i = 0; i < targetFeatures.size(); i++)` of
`FieldMorph` for the output pixel `X`, from `dSum = (0, 0)` and
`weightSum = 0`: the final `(dSum, weightSum)`. -/
def FieldMorph.features (ops : FloatOps Fl) (X : STPoint2 Fl)
    (sourceFeatures targetFeatures : List (Feature Fl)) (t a b p : Fl) :
    Option (STVector2 Fl × Fl) :=
  (List.range targetFeatures.length).foldlM
    (FieldMorph.accum ops X sourceFeatures targetFeatures t a b p)
    (⟨ops.ofInt 0, ops.ofInt 0⟩, ops.ofInt 0)

/-- The point `X_prime = X + dSum / weightSum` at which `FieldMorph` samples
`image` for the output pixel `(x, y)`. -/
def FieldMorph.samplePoint (ops : FloatOps Fl)
    (sourceFeatures targetFeatures : List (Feature Fl)) (t a b p : Fl) (x y : Int) :
    Option (STPoint2 Fl) :=
  let X : STPoint2 Fl := ⟨ops.ofInt x, ops.ofInt y⟩
  match FieldMorph.features ops X sourceFeatures targetFeatures t a b p with
  | some (dSum, weightSum) => some (addPV ops X (divS ops dSum weightSum))
  | none => none

/-- The test `X_prime.x < 0 || X_prime.x >= width || X_prime.y < 0 ||
X_prime.y >= height` of `FieldMorph`. -/
def FieldMorph.outside (ops : FloatOps Fl) (image : STImage) (X_prime : STPoint2 Fl) : Bool :=
  ops.lt X_prime.x (ops.ofInt 0) || ops.ge X_prime.x (ops.ofInt image.mWidth)
    || ops.lt X_prime.y (ops.ofInt 0) || ops.ge X_prime.y (ops.ofInt image.mHeight)

/-- The body of the pixel loop of `FieldMorph`.  The state is the result image
and the read log of `image`. -/
def FieldMorph.body (ops : FloatOps Fl) (image : STImage)
    (sourceFeatures targetFeatures : List (Feature Fl)) (t a b p : Fl) (x y : Int)
    (st : STImage × ReadLog) : Option (STImage × ReadLog) :=
  match FieldMorph.samplePoint ops sourceFeatures targetFeatures t a b p x y with
  | some X_prime =>
    if FieldMorph.outside ops image X_prime = true then
      some st
    else
      match biLerp ops X_prime image with
      | some (X_prime_color, reads) =>
        match st.1.SetPixel x y X_prime_color with
        | some result => some (result, st.2 ++ reads)
        | none => none
      | none => none
  | none => none

/-- The function `FieldMorph` of `morph.cpp`, with the read log of `image`. -/
def FieldMorph.traced (ops : FloatOps Fl) (image : STImage)
    (sourceFeatures targetFeatures : List (Feature Fl)) (t a b p : Fl) :
    Option (STImage × ReadLog) :=
  match STImage.create image.mWidth image.mHeight STImage.defaultColor with
  | some result =>
    forXY result.mWidth result.mHeight
      (FieldMorph.body ops image sourceFeatures targetFeatures t a b p) (result, [])
  | none => none

/-- The function `FieldMorph` of `morph.cpp`. -/
def FieldMorph (ops : FloatOps Fl) (image : STImage)
    (sourceFeatures targetFeatures : List (Feature Fl)) (t a b p : Fl) : Option STImage :=
  (FieldMorph.traced ops image sourceFeatures targetFeatures t a b p).map (fun st => st.1)

/-- The function `MorphImages` of `morph.cpp`. -/
def MorphImages (ops : FloatOps Fl)
    (sourceImage : STImage) (sourceFeatures : List (Feature Fl))
    (targetImage : STImage) (targetFeatures : List (Feature Fl)) (t a b p : Fl) :
    Option STImage :=
  match FieldMorph ops sourceImage sourceFeatures targetFeatures t a b p with
  | some image1 =>
    match FieldMorph ops targetImage targetFeatures sourceFeatures
        (ops.sub (ops.ofInt 1) t) a b p with
    | some image2 => BlendImages ops image1 image2 t
    | none => none
  | none => none

end Machine

/-! ## IEEE 754 binary32

The values and the operations of `float` as the hardware computes them: each
operation returns the value nearest to the exact result, ties to even.  The
finite values are rationals, so the operations can be evaluated. -/

/-- The values of an IEEE 754 binary32 `float`: NaN, the two infinities, the
two zeros and the non-zero finite values, the last as rationals. -/
inductive F32 where
  | nan
  | inf (neg : Bool)
  | zero (neg : Bool)
  | fin (q : ℚ)
deriving DecidableEq, Repr

namespace F32

/-- The power `2^k` of two. -/
def pow2 (k : Int) : ℚ :=
  if 0 ≤ k then ((2 ^ k.toNat : Nat) : ℚ) else 1 / ((2 ^ (-k).toNat : Nat) : ℚ)

/-- The number of binary digits of `n`, for `n` at most the first argument. -/
def bitLength : Nat → Nat → Nat
  | 0, _ => 0
  | fuel + 1, n => if n = 0 then 0 else bitLength fuel (n / 2) + 1

/-- The exponent `floor(log2 q)` of a positive rational. -/
def ilog2 (q : ℚ) : Int :=
  let k : Int := (bitLength q.num.natAbs q.num.natAbs : Int) - (bitLength q.den q.den : Int)
  if pow2 k ≤ q then k else k - 1

/-- The integer nearest to `m`, the even one of the two when `m` is half way. -/
def roundEven (m : ℚ) : Int :=
  let f := ⌊m⌋
  let d := m - (f : ℚ)
  if d < 1 / 2 then f
  else if 1 / 2 < d then f + 1
  else if f % 2 = 0 then f else f + 1

/-- The binary32 value nearest to the non-zero rational `q` (round to nearest,
ties to even): 24 significant bits, exponents from `-126`, subnormal below,
infinite from `2^128`; a result that rounds to zero keeps the sign of `q`. -/
def round (q : ℚ) : F32 :=
  let e := max (ilog2 |q|) (-126)
  let ulp := pow2 (e - 23)
  let r := (roundEven (q / ulp) : ℚ) * ulp
  if pow2 128 ≤ |r| then inf (decide (q < 0))
  else if r = 0 then zero (decide (q < 0))
  else fin r

/-- The binary32 value of a decimal literal such as `0.7f`. -/
def ofRat (q : ℚ) : F32 := if q = 0 then zero false else round q

/-- The conversion of an `int` to `float`. -/
def ofInt (n : Int) : F32 := if n = 0 then zero false else round n

/-- The unary minus. -/
def neg : F32 → F32
  | nan => nan
  | inf s => inf (!s)
  | zero s => zero (!s)
  | fin q => fin (-q)

/-- The sum. -/
def add : F32 → F32 → F32
  | nan, _ => nan
  | _, nan => nan
  | inf s, inf s' => if s = s' then inf s else nan
  | inf s, _ => inf s
  | _, inf s => inf s
  | zero s, zero s' => zero (s && s')
  | zero _, fin q => fin q
  | fin q, zero _ => fin q
  | fin q, fin q' => if q + q' = 0 then zero false else round (q + q')

/-- The difference. -/
def sub (a b : F32) : F32 := add a (neg b)

/-- The product. -/
def mul : F32 → F32 → F32
  | nan, _ => nan
  | _, nan => nan
  | inf s, inf s' => inf (s != s')
  | inf _, zero _ => nan
  | zero _, inf _ => nan
  | inf s, fin q => inf (s != decide (q < 0))
  | fin q, inf s => inf (decide (q < 0) != s)
  | zero s, zero s' => zero (s != s')
  | zero s, fin q => zero (s != decide (q < 0))
  | fin q, zero s => zero (decide (q < 0) != s)
  | fin q, fin q' => round (q * q')

/-- The quotient. -/
def div : F32 → F32 → F32
  | nan, _ => nan
  | _, nan => nan
  | inf _, inf _ => nan
  | inf s, zero s' => inf (s != s')
  | inf s, fin q => inf (s != decide (q < 0))
  | zero _, zero _ => nan
  | zero s, inf s' => zero (s != s')
  | zero s, fin q => zero (s != decide (q < 0))
  | fin q, inf s => zero (decide (q < 0) != s)
  | fin q, zero s => inf (decide (q < 0) != s)
  | fin q, fin q' => round (q / q')

/-- The absolute value. -/
def abs : F32 → F32
  | nan => nan
  | inf _ => inf false
  | zero _ => zero false
  | fin q => fin |q|

/-- The place of a value that is not a NaN in the order: the infinities
first, the two zeros equal. -/
def toExt : F32 → Option (Int × ℚ)
  | nan => none
  | inf s => some (if s then -1 else 1, 0)
  | zero _ => some (0, 0)
  | fin q => some (0, q)

/-- The comparison `<`, false when an operand is a NaN. -/
def lt (a b : F32) : Bool :=
  match toExt a, toExt b with
  | some x, some y => decide (x.1 < y.1 ∨ (x.1 = y.1 ∧ x.2 < y.2))
  | _, _ => false

/-- The comparison `>`. -/
def gt (a b : F32) : Bool := lt b a

/-- The comparison `>=`, false when an operand is a NaN. -/
def ge (a b : F32) : Bool :=
  match toExt a, toExt b with
  | some x, some y => decide (y.1 < x.1 ∨ (x.1 = y.1 ∧ y.2 ≤ x.2))
  | _, _ => false

/-- The function `floorf`. -/
def floorf : F32 → F32
  | fin q => if ⌊q⌋ = 0 then zero false else fin ((⌊q⌋ : Int) : ℚ)
  | z => z

/-- The function `ceilf`. -/
def ceilf : F32 → F32
  | fin q => if ⌈q⌉ = 0 then zero true else fin ((⌈q⌉ : Int) : ℚ)
  | z => z

/-- The binary digits of the integer square root of `n` below position `i`,
from the digits `r` above it. -/
def isqrtAux (n : Nat) : Nat → Nat → Nat
  | 0, r => r
  | i + 1, r => if (r + 2 ^ i) * (r + 2 ^ i) ≤ n then isqrtAux n i (r + 2 ^ i) else isqrtAux n i r

/-- The integer square root `floor(sqrt n)` of `n < 2^64`. -/
def isqrt (n : Nat) : Nat := isqrtAux n 32 0

/-- The correctly rounded square root of a positive rational: the integer
square root of `q * 4^k` carries 32 bits, and a remainder is kept as one more
bit below them. -/
def sqrtRound (q : ℚ) : F32 :=
  let k : Int := 31 - ilog2 q / 2
  let s : Nat := isqrt ⌊q * pow2 (2 * k)⌋.toNat
  if ((s * s : Nat) : ℚ) = q * pow2 (2 * k) then round ((s : ℚ) / pow2 k)
  else round (((2 * s + 1 : Nat) : ℚ) / pow2 (k + 1))

/-- The function `sqrtf`. -/
def sqrtf : F32 → F32
  | nan => nan
  | inf s => if s then nan else inf false
  | zero s => zero s
  | fin q => if q < 0 then nan else sqrtRound q

/-- The conversion to `int`: truncation; outside the range of `int`, and for
an infinity or a NaN, the conversion is undefined in C++ and the value here is
the one the x86-64 conversion instruction gives, `-2^31`. -/
def toInt : F32 → Int
  | fin q =>
    let n : Int := if 0 ≤ q then ⌊q⌋ else ⌈q⌉
    if -2147483648 ≤ n ∧ n < 2147483648 then n else -2147483648
  | zero _ => 0
  | _ => -2147483648

/-- The conversion to `unsigned char`: the low eight bits of the conversion to
`int` (outside `0 .. 255` the conversion is undefined in C++). -/
def toComponent (z : F32) : Nat := (toInt z % 256).toNat

/-- The function `powf` at an exponent that is a natural number: the exponent
zero gives 1 for every base, a NaN included, and an exponent `n > 0` gives the
`n`-th power of the base, correctly rounded.  At every other exponent the
value here is a NaN; no example has such an exponent. -/
def powfNat : F32 → F32 → F32
  | _, zero _ => fin 1
  | x, fin e =>
    if e.den = 1 ∧ 0 < e.num then
      match x with
      | nan => nan
      | inf s => inf (s && decide (e.num % 2 = 1))
      | zero s => zero (s && decide (e.num % 2 = 1))
      | fin q => round (q ^ e.num.toNat)
    else nan
  | _, _ => nan

end F32

/-- The `float` arithmetic of a build in which every operation is rounded to
binary32 on its own (x86-64 with SSE arithmetic, no fused multiply-add); the C
library function `powf` is a parameter. -/
def binary32 (powf : F32 → F32 → F32) : FloatOps F32 where
  ofInt := F32.ofInt
  add := F32.add
  sub := F32.sub
  mul := F32.mul
  div := F32.div
  neg := F32.neg
  lt := F32.lt
  gt := F32.gt
  ge := F32.ge
  abs := F32.abs
  sqrtf := F32.sqrtf
  powf := powf
  floorf := F32.floorf
  ceilf := F32.ceilf
  toInt := F32.toInt
  toComponent := F32.toComponent

/-! ## Loading the features (`parseConfig.cpp`, `AddFeatureCallback`)

A feature file is read line by line.  The embedding starts from the records
the lines are classified into by their prefix (`background1`, `background2`,
`line`); the text of a `line` record is already the four floats extracted by
`operator>>`.  Loading an image file is a parameter. -/

/-- The enumeration `ImageChoice` of `parseConfig.h`. -/
inductive ImageChoice where
  | IMAGE_1
  | IMAGE_2
  | BOTH_IMAGES
deriving DecidableEq, Repr

/-- A line of a feature file, classified as `loadLineEditorFile` does. -/
inductive Record (F : Type) where
  | background1 (fname : String)
  | background2 (fname : String)
  | line (p1x p1y p2x p2y : F)
  | other
deriving DecidableEq, Repr

/-- The globals `gSourceFeatures` and `gTargetFeatures` of `morph.cpp`. -/
structure Globals (F : Type) where
  gSourceFeatures : List (Feature F)
  gTargetFeatures : List (Feature F)
deriving DecidableEq, Repr

/-- The function `AddFeatureCallback` of `morph.cpp`. -/
def AddFeatureCallback {F : Type} (p q : STPoint2 F) (image : ImageChoice)
    (g : Globals F) : Globals F :=
  let g1 : Globals F :=
    if image = ImageChoice.IMAGE_1 ∨ image = ImageChoice.BOTH_IMAGES then
      { g with gSourceFeatures := g.gSourceFeatures ++ [⟨p, q⟩] }
    else g
  if image = ImageChoice.IMAGE_2 ∨ image = ImageChoice.BOTH_IMAGES then
    { g1 with gTargetFeatures := g1.gTargetFeatures ++ [⟨p, q⟩] }
  else g1

/-- The state of `loadLineEditorFile`: the local `imageChoice`, the two image
out-parameters and the state the callback acts on. -/
structure LoadState (G : Type) where
  imageChoice : ImageChoice
  im1out : Option STImage
  im2out : Option STImage
  globals : G

/-- The body of the loop of `loadLineEditorFile` for one record;
`new STImage(fname)` is `loadImage`, whose exception is `none`. -/
def loadLineEditorFile.step {F G : Type}
    (drawLineCallback : STPoint2 F → STPoint2 F → ImageChoice → G → G)
    (loadImage : String → Option STImage) (st : LoadState G) (r : Record F) :
    Option (LoadState G) :=
  match r with
  | Record.background1 fname =>
    match loadImage fname with
    | some im => some { st with im1out := some im, imageChoice := ImageChoice.IMAGE_1 }
    | none => none
  | Record.background2 fname =>
    match loadImage fname with
    | some im => some { st with im2out := some im, imageChoice := ImageChoice.IMAGE_2 }
    | none => none
  | Record.line p1x p1y p2x p2y =>
    some { st with
      globals := drawLineCallback ⟨p1x, p1y⟩ ⟨p2x, p2y⟩ st.imageChoice st.globals }
  | Record.other => some st

/-- The function `loadLineEditorFile` of `parseConfig.cpp` on the records of
the file, from the images and the callback state it is entered with. -/
def loadLineEditorFile {F G : Type}
    (drawLineCallback : STPoint2 F → STPoint2 F → ImageChoice → G → G)
    (loadImage : String → Option STImage) (records : List (Record F))
    (im1 im2 : Option STImage) (globals : G) : Option (LoadState G) :=
  records.foldlM (loadLineEditorFile.step drawLineCallback loadImage)
    ⟨ImageChoice.BOTH_IMAGES, im1, im2, globals⟩

/-- What `main` of `morph.cpp` has done when `GenerateMorphFrames` is left: the
two feature lists `GenerateMorphFrames` was called with, and the frames it
produced (`none` when the call does not return normally). -/
structure MainRun (F : Type) where
  sourceFeatures : List (Feature F)
  targetFeatures : List (Feature F)
  frames : Option (List (Frame F))

/-- The function `main` of `morph.cpp` from the call of `loadLineEditorFile`
to the return of `GenerateMorphFrames`.  The images of `parseConfigFile` are
deleted before, so both image pointers enter the loader dangling (`none`) and
the feature globals are empty; `a = 0.5f`, `b = 1.0f`, and `p = 0.2f` is the
float `13421773 / 2^26`.  The result is `none` when the loader throws, which
ends the run before `GenerateMorphFrames` is called. -/
def main {F : Type} [LinearOrderedField F] [FloorRing F] (sqrtf : F → F) (powf : F → F → F)
    (Save : STImage → String → Int) (loadImage : String → Option STImage)
    (records : List (Record F)) : Option (MainRun F) :=
  match loadLineEditorFile AddFeatureCallback loadImage records none none
      (⟨[], []⟩ : Globals F) with
  | some st =>
    some ⟨st.globals.gSourceFeatures, st.globals.gTargetFeatures,
      match st.im1out, st.im2out with
      | some sourceImage, some targetImage =>
        GenerateMorphFrames sqrtf powf Save sourceImage st.globals.gSourceFeatures
          targetImage st.globals.gTargetFeatures (1 / 2) 1 (13421773 / 67108864)
      | _, _ => none⟩
  | none => none

/-! ## Loading the features in the words of the specification -/

namespace Spec

/-- Whether a record is a background record. -/
def isBackground {F : Type} : Record F → Bool
  | Record.background1 _ => true
  | Record.background2 _ => true
  | _ => false

/-- The images the lines after the records `pre` apply to: the image of the
most recent background record of `pre`, both images if `pre` has none. -/
def choiceAfter {F : Type} (pre : List (Record F)) : ImageChoice :=
  match pre.reverse.find? isBackground with
  | some (Record.background1 _) => ImageChoice.IMAGE_1
  | some (Record.background2 _) => ImageChoice.IMAGE_2
  | _ => ImageChoice.BOTH_IMAGES

/-- The feature `P = (x1, y1)`, `Q = (x2, y2)` of the record at position `i`
of the file, if that record is a line record and the images it applies to
satisfy `sel`. -/
def featureAt {F : Type} (sel : ImageChoice → Bool) (records : List (Record F)) (i : Nat) :
    Option (Feature F) :=
  match records[i]? with
  | some (Record.line x1 y1 x2 y2) =>
    if sel (choiceAfter (records.take i)) then some ⟨⟨x1, y1⟩, ⟨x2, y2⟩⟩ else none
  | _ => none

/-- The source list: in file order, the features of the line records whose
most recent background record is `background1` or that follow no background
record. -/
def sourceFeatures {F : Type} (records : List (Record F)) : List (Feature F) :=
  (List.range records.length).filterMap
    (featureAt (fun c => decide (c = ImageChoice.IMAGE_1 ∨ c = ImageChoice.BOTH_IMAGES))
      records)

/-- The target list: in file order, the features of the line records whose
most recent background record is `background2` or that follow no background
record. -/
def targetFeatures {F : Type} (records : List (Record F)) : List (Feature F) :=
  (List.range records.length).filterMap
    (featureAt (fun c => decide (c = ImageChoice.IMAGE_2 ∨ c = ImageChoice.BOTH_IMAGES))
      records)

end Spec

/-! ## The easing in the words of the specification -/

namespace Spec

/-- The easing transform `ease(t) = t^2 * (3 - 2t)`. -/
def ease {F : Type} [LinearOrderedField F] (t : F) : F := t ^ 2 * (3 - 2 * t)

end Spec

/-! ## The sample point in the words of the specification -/

namespace Spec

variable {F : Type} [LinearOrderedField F] [FloorRing F]

/-- The list of the values of a list of optional values, if all are defined. -/
def collect {α : Type} : List (Option α) → Option (List α)
  | [] => some []
  | none :: _ => none
  | some a :: l => (collect l).map (fun as => a :: as)

/-- The vector `perp(w) = (-w.y, w.x)`. -/
def perp (w : STVector2 F) : STVector2 F := ⟨-w.y, w.x⟩

/-- The squared norm `|w|^2`. -/
def normSq (w : STVector2 F) : F := w.x ^ 2 + w.y ^ 2

/-- The dot product. -/
def dot (v w : STVector2 F) : F := v.x * w.x + v.y * w.y

/-- The difference `A - B` of two points. -/
def diff (A B : STPoint2 F) : STVector2 F := ⟨A.x - B.x, A.y - B.y⟩

/-- The norm `|w|`. -/
def norm (sqrtf : F → F) (w : STVector2 F) : F := sqrtf (normSq w)

/-- The interpolated endpoint `Lerp(source, target, t)` of a feature pair. -/
def lerpPoint (source target : STPoint2 F) (t : F) : STPoint2 F :=
  ⟨Lerp source.x target.x t, Lerp source.y target.y t⟩

/-- The coordinate `u = dot(X - Pi, Qi - Pi) / |Qi - Pi|^2`. -/
def u (X Pi Qi : STPoint2 F) : F := dot (diff X Pi) (diff Qi Pi) / normSq (diff Qi Pi)

/-- The coordinate `v = dot(X - Pi, perp(Qi - Pi)) / |Qi - Pi|`. -/
def v (sqrtf : F → F) (X Pi Qi : STPoint2 F) : F :=
  dot (diff X Pi) (perp (diff Qi Pi)) / norm sqrtf (diff Qi Pi)

/-- The point `Xi' = Pi' + u*(Qi' - Pi') + v*perp(Qi' - Pi') / |Qi' - Pi'|`. -/
def rebuild (sqrtf : F → F) (u v : F) (Pi' Qi' : STPoint2 F) : STPoint2 F :=
  ⟨Pi'.x + u * (diff Qi' Pi').x + v * (perp (diff Qi' Pi')).x / norm sqrtf (diff Qi' Pi'),
   Pi'.y + u * (diff Qi' Pi').y + v * (perp (diff Qi' Pi')).y / norm sqrtf (diff Qi' Pi')⟩

/-- The weighting distance: to `Pi` when `u < 0`, to `Qi` when `u > 1`, `|v|`
otherwise. -/
def dist (sqrtf : F → F) (X Pi Qi : STPoint2 F) : F :=
  if u X Pi Qi < 0 then norm sqrtf (diff X Pi)
  else if u X Pi Qi > 1 then norm sqrtf (diff X Qi)
  else |v sqrtf X Pi Qi|

/-- The weight `(|Qi - Pi|^p / (a + dist_i))^b`. -/
def weight (sqrtf : F → F) (powf : F → F → F) (X Pi Qi : STPoint2 F) (a b p : F) : F :=
  powf (powf (norm sqrtf (diff Qi Pi)) p / (a + dist sqrtf X Pi Qi)) b

/-- For one feature pair, the displacement `Di = Xi' - X` and the weight
`weight_i`, where `(Pi, Qi)` is the interpolated segment and `(Pi', Qi')` the
source feature; undefined when one of the divisors `|Qi - Pi|^2`, `|Qi - Pi|`,
`|Qi' - Pi'|`, `a + dist_i` is zero. -/
def term (sqrtf : F → F) (powf : F → F → F) (X : STPoint2 F) (source target : Feature F)
    (t a b p : F) : Option (STVector2 F × F) :=
  let Pi := lerpPoint source.P target.P t
  let Qi := lerpPoint source.Q target.Q t
  if normSq (diff Qi Pi) = 0 ∨ norm sqrtf (diff Qi Pi) = 0
      ∨ norm sqrtf (diff source.Q source.P) = 0 ∨ a + dist sqrtf X Pi Qi = 0 then none
  else
    some (diff (rebuild sqrtf (u X Pi Qi) (v sqrtf X Pi Qi) source.P source.Q) X,
          weight sqrtf powf X Pi Qi a b p)

/-- The sample point `X + (sum_i weight_i * Di) / (sum_i weight_i)`; undefined
when a term is undefined or the sum of the weights is zero. -/
def samplePoint (sqrtf : F → F) (powf : F → F → F)
    (sourceFeatures targetFeatures : List (Feature F)) (t a b p : F) (X : STPoint2 F) :
    Option (STPoint2 F) :=
  match collect ((List.zip sourceFeatures targetFeatures).map
      (fun q => term sqrtf powf X q.1 q.2 t a b p)) with
  | some terms =>
    let weightSum := (terms.map (fun q => q.2)).sum
    if weightSum = 0 then none
    else some ⟨X.x + (terms.map (fun q => q.2 * q.1.x)).sum / weightSum,
               X.y + (terms.map (fun q => q.2 * q.1.y)).sum / weightSum⟩
  | none => none

end Spec

/-! ## Concrete inputs -/

namespace Example

/-- A 1 by 1 image whose only pixel is fully transparent. -/
def transparent : STImage := ⟨1, 1, [⟨10, 20, 30, 0⟩]⟩

/-- A 2 by 2 opaque image; pixel `(x, y)` is entry `2 * y + x`. -/
def opaque2 : STImage :=
  ⟨2, 2, [⟨10, 20, 30, 255⟩, ⟨1, 2, 3, 255⟩, ⟨5, 6, 7, 255⟩, ⟨200, 100, 50, 255⟩]⟩

/-- A 3 by 2 opaque image. -/
def wide : STImage :=
  ⟨2, 3, [⟨1, 1, 1, 255⟩, ⟨2, 2, 2, 255⟩, ⟨3, 3, 3, 255⟩,
          ⟨4, 4, 4, 255⟩, ⟨5, 5, 5, 255⟩, ⟨6, 6, 6, 255⟩]⟩

/-- The feature from `(0, 0)` to `(1, 0)`. -/
def seg (F : Type) [LinearOrderedField F] : Feature F := ⟨⟨0, 0⟩, ⟨1, 0⟩⟩

/-- The feature from `(0, 0)` to `(0, 2)`. -/
def seg2 (F : Type) [LinearOrderedField F] : Feature F := ⟨⟨0, 0⟩, ⟨0, 2⟩⟩

/-- A 4 by 4 image filled with red `(255, 0, 0, 255)`. -/
def red4 : STImage := ⟨4, 4, List.replicate 16 ⟨255, 0, 0, 255⟩⟩

/-- A 4 by 4 image filled with blue `(0, 0, 255, 255)`. -/
def blue4 : STImage := ⟨4, 4, List.replicate 16 ⟨0, 0, 255, 255⟩⟩

/-- The feature from `(0, 0)` to `(4, 0)`. -/
def seg4 (F : Type) [LinearOrderedField F] : Feature F := ⟨⟨0, 0⟩, ⟨4, 0⟩⟩

/-- A 1 by 1 opaque image. -/
def opaque1 : STImage := ⟨1, 1, [⟨200, 100, 50, 255⟩]⟩

/-- A `Save` that always fails. -/
def saveFails (_image : STImage) (_name : String) : Int := 1

/-- A loader of image files that knows no file. -/
def noImage (_fname : String) : Option STImage := none

/-- The arithmetic of the examples: binary32 with `powf` at natural
exponents. -/
def ieee : FloatOps F32 := binary32 F32.powfNat

/-- The feature from `(x1, y1)` to `(x2, y2)` with integer coordinates, in
binary32. -/
def feature32 (x1 y1 x2 y2 : Int) : Feature F32 :=
  ⟨⟨F32.ofInt x1, F32.ofInt y1⟩, ⟨F32.ofInt x2, F32.ofInt y2⟩⟩

/-- A 2 by 1 image: a transparent pixel at `(0, 0)`, an opaque one at
`(1, 0)`. -/
def pair : STImage := ⟨1, 2, [⟨10, 20, 30, 0⟩, ⟨40, 50, 60, 255⟩]⟩

/-- A 1 by 1 transparent image with the red 0. -/
def dark : STImage := ⟨1, 1, [⟨0, 0, 0, 0⟩]⟩

/-- A 1 by 1 transparent image with the red 10. -/
def light : STImage := ⟨1, 1, [⟨10, 100, 200, 0⟩]⟩

/-- A 1 by 1 opaque image. -/
def dot1 : STImage := ⟨1, 1, [⟨10, 20, 30, 255⟩]⟩

/-- A 3 by 1 opaque image. -/
def row3 : STImage := ⟨1, 3, [⟨10, 20, 30, 255⟩, ⟨40, 50, 60, 255⟩, ⟨70, 80, 90, 255⟩]⟩

/-- A loader of image files that finds the 1 by 1 opaque image under every name. -/
def anyImage (_fname : String) : Option STImage := some opaque1

/-- The feature from `(2, 0)` to `(3, 0)`: `seg` moved by `(2, 0)`. -/
def segShift (F : Type) [LinearOrderedField F] : Feature F := ⟨⟨2, 0⟩, ⟨3, 0⟩⟩

/-- The feature from `(1, 0)` to `(0, 0)`: `seg` reversed. -/
def segRev (F : Type) [LinearOrderedField F] : Feature F := ⟨⟨1, 0⟩, ⟨0, 0⟩⟩

/-- A feature file with one line for the first image and none for the second. -/
def oneSided (F : Type) [LinearOrderedField F] : List (Record F) :=
  [Record.background1 "a.png", Record.line 0 0 1 0, Record.background2 "b.png"]

/-- A feature file with a line for both images, two lines for the first and
one for the second. -/
def sections (F : Type) [LinearOrderedField F] : List (Record F) :=
  [Record.line 0 0 1 0, Record.background1 "a.png", Record.line 0 0 0 2, Record.other,
   Record.line 1 1 2 2, Record.background2 "b.png", Record.line 0 0 4 0]

end Example

end Metamorphosis

/-! ## Loops -/

namespace Metamorphosis

/-- A fold over `0 .. N-1` whose steps succeed under an invariant indexed by
the number of completed iterations succeeds and ends in the invariant. -/
theorem foldlM_range_inv {σ : Type} (f : σ → Nat → Option σ) (I : Nat → σ → Prop)
    (N : Nat) (s0 : σ) (h0 : I 0 s0)
    (hstep : ∀ n st, n < N → I n st → ∃ st', f st n = some st' ∧ I (n + 1) st') :
    ∃ st', (List.range N).foldlM f s0 = some st' ∧ I N st' := by
  induction N with
  | zero => exact ⟨s0, by simp, h0⟩
  | succ k ih =>
    obtain ⟨st, hst, hI⟩ := ih (fun n st hn => hstep n st (Nat.lt_succ_of_lt hn))
    obtain ⟨st', hf, hI'⟩ := hstep k st (Nat.lt_succ_self k) hI
    refine ⟨st', ?_, hI'⟩
    rw [List.range_succ, List.foldlM_append, hst]
    simp [hf]

/-- A property kept by every successful step of a fold holds of its result. -/
theorem foldlM_some_inv {σ ι : Type} (f : σ → ι → Option σ) (I : σ → Prop)
    (hstep : ∀ i st st', I st → f st i = some st' → I st') :
    ∀ (l : List ι) (s0 st' : σ), I s0 → l.foldlM f s0 = some st' → I st' := by
  intro l
  induction l with
  | nil =>
    intro s0 st' h0 h
    simp at h
    exact h ▸ h0
  | cons i l ih =>
    intro s0 st' h0 h
    rw [List.foldlM_cons] at h
    cases hf : f s0 i with
    | none => simp [hf] at h
    | some s1 =>
      rw [hf] at h
      exact ih s1 st' (hstep i s0 s1 h0 hf) h

/-- A property kept by every successful run of the body holds after `forXY`. -/
theorem forXY_some_inv {σ : Type} (w h : Int) (body : Int → Int → σ → Option σ)
    (I : σ → Prop) (hbody : ∀ x y st st', I st → body x y st = some st' → I st')
    (s0 st' : σ) (h0 : I s0) (hrun : forXY w h body s0 = some st') : I st' := by
  unfold forXY at hrun
  refine foldlM_some_inv _ I ?_ _ s0 st' h0 hrun
  intro x st st1 hI hx
  exact foldlM_some_inv (fun s (y : Nat) => body (x : Int) (y : Int) s) I
    (fun y s s1 hs hy => hbody x y s s1 hs hy) _ st st1 hI hx

/-- The loop `forXY` succeeds when its body does under an invariant indexed by
the position `(x, y)` of the next iteration, with `(x, h)` identified with
`(x + 1, 0)`. -/
theorem forXY_inv {σ : Type} (w h : Nat) (body : Int → Int → σ → Option σ)
    (I : Nat → Nat → σ → Prop) (s0 : σ) (h0 : I 0 0 s0)
    (hrow : ∀ x st, I x h st → I (x + 1) 0 st)
    (hbody : ∀ x y st, x < w → y < h → I x y st →
      ∃ st', body (x : Int) (y : Int) st = some st' ∧ I x (y + 1) st') :
    ∃ st', forXY (w : Int) (h : Int) body s0 = some st' ∧ I w 0 st' := by
  unfold forXY
  simp only [Int.toNat_ofNat]
  refine foldlM_range_inv _ (fun x st => I x 0 st) w s0 h0 ?_
  intro x st hx hI
  obtain ⟨st', hst', hI'⟩ :=
    foldlM_range_inv (fun st y => body (x : Int) (y : Int) st) (fun y st => I x y st) h st hI
      (fun y s hy hs => hbody x y s hx hy hs)
  exact ⟨st', hst', hrow x st' hI'⟩

/-! ## Image lemmas -/

theorem STImage.WF.sized {img : STImage} (hwf : img.WF) :
    img.Sized img.mWidth img.mHeight :=
  ⟨rfl, rfl, hwf.2.2.1⟩

theorem index_lt {w h x y : Int} (hx0 : 0 ≤ x) (hxw : x < w) (hy0 : 0 ≤ y) (hyh : y < h) :
    0 ≤ y * w + x ∧ y * w + x < w * h := by
  constructor
  · have : 0 ≤ y * w := mul_nonneg hy0 (by omega)
    omega
  · have h1 : (y + 1) * w ≤ h * w := by
      apply mul_le_mul_of_nonneg_right (by omega) (by omega)
    nlinarith

theorem index_inj {w x y x' y' : Int} (hx0 : 0 ≤ x) (hxw : x < w)
    (hx0' : 0 ≤ x') (hxw' : x' < w) (h : y * w + x = y' * w + x') : x = x' ∧ y = y' := by
  have hy : y = y' := by
    by_contra hne
    rcases lt_or_gt_of_ne hne with hlt | hgt
    · have : (y + 1) * w ≤ y' * w := mul_le_mul_of_nonneg_right (by omega) (by omega)
      nlinarith
    · have : (y' + 1) * w ≤ y * w := mul_le_mul_of_nonneg_right (by omega) (by omega)
      nlinarith
  subst hy
  exact ⟨by omega, rfl⟩

theorem STImage.create_eq {w h : Int} (hw : 0 < w) (hh : 0 < h) (c : STColor4ub) :
    STImage.create w h c = some ⟨h, w, List.replicate (w * h).toNat c⟩ := by
  simp [STImage.create, not_le.mpr hw, not_le.mpr hh]

theorem STImage.create_sized {w h : Int} (hw : 0 < w) (hh : 0 < h) (c : STColor4ub) :
    (STImage.mk h w (List.replicate (w * h).toNat c)).Sized w h := by
  refine ⟨rfl, rfl, ?_⟩
  simp only [List.length_replicate]
  exact Int.toNat_of_nonneg (by positivity)

theorem STImage.GetPixel_replicate {w h x y : Int} (c : STColor4ub)
    (hx0 : 0 ≤ x) (hxw : x < w) (hy0 : 0 ≤ y) (hyh : y < h) :
    (STImage.mk h w (List.replicate (w * h).toNat c)).GetPixel x y = some c := by
  have hi := index_lt hx0 hxw hy0 hyh
  have hlt : (y * w + x).toNat < (w * h).toNat := by omega
  simp [STImage.GetPixel, hx0, hxw, hy0, hyh, List.getElem?_replicate, hlt]

theorem STImage.GetPixel_isSome {img : STImage} {w h x y : Int} (hs : img.Sized w h)
    (hx0 : 0 ≤ x) (hxw : x < w) (hy0 : 0 ≤ y) (hyh : y < h) :
    ∃ c, img.GetPixel x y = some c ∧ c ∈ img.mPixels := by
  obtain ⟨hw, hh, hl⟩ := hs
  have hi := index_lt hx0 hxw hy0 hyh
  have hlt : (y * w + x).toNat < img.mPixels.length := by omega
  refine ⟨img.mPixels[(y * w + x).toNat], ?_, List.getElem_mem _⟩
  simp [STImage.GetPixel, hw, hh, hx0, hxw, hy0, hyh, List.getElem?_eq_getElem hlt]

theorem STImage.SetPixel_eq {img : STImage} {w h x y : Int} (hs : img.Sized w h)
    (hx0 : 0 ≤ x) (hxw : x < w) (hy0 : 0 ≤ y) (hyh : y < h) (v : STColor4ub) :
    img.SetPixel x y v = some ⟨h, w, img.mPixels.set (y * w + x).toNat v⟩ := by
  obtain ⟨hw, hh, _⟩ := hs
  simp [STImage.SetPixel, hw, hh, hx0, hxw, hy0, hyh]

theorem STImage.SetPixel_sized {img img' : STImage} {w h x y : Int} {v : STColor4ub}
    (hs : img.Sized w h) (hset : img.SetPixel x y v = some img') : img'.Sized w h := by
  obtain ⟨hw, hh, hl⟩ := hs
  unfold STImage.SetPixel at hset
  split at hset
  · cases hset
    exact ⟨hw, hh, by simpa using hl⟩
  · cases hset

theorem STImage.GetPixel_SetPixel_same {img img' : STImage} {w h x y : Int} {v : STColor4ub}
    (hs : img.Sized w h) (hset : img.SetPixel x y v = some img') :
    img'.GetPixel x y = some v := by
  obtain ⟨hw, hh, hl⟩ := hs
  unfold STImage.SetPixel at hset
  split at hset
  · rename_i hr
    cases hset
    have hi := index_lt hr.1 hr.2.1 hr.2.2.1 hr.2.2.2
    have hlt : (y * img.mWidth + x).toNat < img.mPixels.length := by
      rw [hw, hh] at hi; rw [hw]; omega
    simp [STImage.GetPixel, hr, hlt]
  · cases hset

theorem STImage.GetPixel_SetPixel_other {img img' : STImage} {w h x y x' y' : Int}
    {v : STColor4ub} (hs : img.Sized w h) (hset : img.SetPixel x y v = some img')
    (hne : ¬ (x' = x ∧ y' = y)) :
    img'.GetPixel x' y' = img.GetPixel x' y' := by
  obtain ⟨hw, hh, hl⟩ := hs
  unfold STImage.SetPixel at hset
  split at hset
  · rename_i hr
    cases hset
    unfold STImage.GetPixel
    simp only
    split
    · rename_i hr'
      have hidx : (y * img.mWidth + x).toNat ≠ (y' * img.mWidth + x').toNat := by
        intro heq
        have h1 := index_lt hr.1 hr.2.1 hr.2.2.1 hr.2.2.2
        have h2 := index_lt hr'.1 hr'.2.1 hr'.2.2.1 hr'.2.2.2
        have heq' : y * img.mWidth + x = y' * img.mWidth + x' := by omega
        have := index_inj hr.1 hr.2.1 hr'.1 hr'.2.1 heq'
        exact hne ⟨this.1.symm, this.2.symm⟩
      rw [List.getElem?_set_ne hidx]
    · rfl
  · cases hset

/-- A pixel loop whose body, at `(x, y)`, either leaves the image alone
(`val x y = none`) or stores `val x y` at `(x, y)`, succeeds and produces the
image whose pixel at `(x, y)` is `val x y`, or the initial pixel. -/
theorem forXY_pixels {L : Type} (w h : Nat)
    (body : Int → Int → STImage × L → Option (STImage × L))
    (val : Int → Int → Option STColor4ub) (init : Int → Int → STColor4ub)
    (st0 : STImage × L) (hs0 : st0.1.Sized w h)
    (hinit : ∀ x y : Int, 0 ≤ x → x < w → 0 ≤ y → y < h →
      st0.1.GetPixel x y = some (init x y))
    (hbody : ∀ (x y : Nat) (st : STImage × L), x < w → y < h → st.1.Sized w h →
      ∃ st', body x y st = some st' ∧ (val x y = none → st'.1 = st.1) ∧
        (∀ c, val x y = some c → st.1.SetPixel x y c = some st'.1)) :
    ∃ st', forXY (w : Int) (h : Int) body st0 = some st' ∧ st'.1.Sized w h ∧
      ∀ x y : Int, 0 ≤ x → x < w → 0 ≤ y → y < h →
        st'.1.GetPixel x y = some ((val x y).getD (init x y)) := by
  obtain ⟨st', hrun, hsz, hpix⟩ := forXY_inv w h body
    (fun (x y : Nat) (st : STImage × L) => st.1.Sized w h ∧
      ∀ x' y' : Int, 0 ≤ x' → x' < w → 0 ≤ y' → y' < h →
        st.1.GetPixel x' y' = some
          (if x' < x ∨ (x' = x ∧ y' < y) then (val x' y').getD (init x' y') else init x' y'))
    st0
    (by
      refine ⟨hs0, ?_⟩
      intro x' y' hx0 hxw hy0 hyh
      rw [hinit x' y' hx0 hxw hy0 hyh, if_neg (by omega)])
    (by
      rintro x st ⟨hs, hp⟩
      refine ⟨hs, ?_⟩
      intro x' y' hx0 hxw hy0 hyh
      rw [hp x' y' hx0 hxw hy0 hyh]
      congr 1
      apply if_congr _ rfl rfl
      constructor <;> intro hc <;> omega)
    (by
      rintro x y st hx hy ⟨hs, hp⟩
      obtain ⟨st', hb, hnone, hsome⟩ := hbody x y st hx hy hs
      refine ⟨st', hb, ?_⟩
      cases hv : val x y with
      | none =>
        rw [hnone hv]
        refine ⟨hs, ?_⟩
        intro x' y' hx0 hxw hy0 hyh
        rw [hp x' y' hx0 hxw hy0 hyh]
        congr 1
        by_cases hxy : x' = x ∧ y' = y
        · obtain ⟨rfl, rfl⟩ := hxy
          rw [if_neg (by omega), if_pos (by omega), hv]
          rfl
        · apply if_congr _ rfl rfl
          constructor <;> intro hc <;> omega
      | some c =>
        have hset := hsome c hv
        refine ⟨STImage.SetPixel_sized hs hset, ?_⟩
        intro x' y' hx0 hxw hy0 hyh
        by_cases hxy : x' = x ∧ y' = y
        · obtain ⟨rfl, rfl⟩ := hxy
          rw [STImage.GetPixel_SetPixel_same hs hset, if_pos (by omega), hv]
          rfl
        · rw [STImage.GetPixel_SetPixel_other hs hset hxy, hp x' y' hx0 hxw hy0 hyh]
          congr 1
          apply if_congr _ rfl rfl
          constructor <;> intro hc <;> omega)
  refine ⟨st', hrun, hsz, ?_⟩
  intro x y hx0 hxw hy0 hyh
  rw [hpix x y hx0 hxw hy0 hyh, if_pos (by omega)]

/-! ## Conversions, `Lerp` and `biLerp` -/

section MorphLemmas

variable {F : Type} [LinearOrderedField F] [FloorRing F]

theorem truncf_intCast (n : Int) : truncf ((n : Int) : F) = n := by
  unfold truncf
  split <;> simp

theorem toComponent_natCast {n : Nat} (hn : n < 256) : toComponent ((n : Nat) : F) = n := by
  unfold toComponent
  have h : ((n : Nat) : F) = (((n : Nat) : Int) : F) := by simp
  rw [h, truncf_intCast]
  omega

theorem toComponent_lt (z : F) : toComponent z < 256 := by
  unfold toComponent
  omega

omit [FloorRing F] in
theorem Lerp_self (c t : F) : Lerp c c t = c := by
  simp [Lerp]

omit [FloorRing F] in
theorem Lerp_zero (c1 c2 : F) : Lerp c1 c2 0 = c1 := by
  simp [Lerp]

theorem colorLerp_self {c : STColor4ub} (hr : c.r < 256) (hg : c.g < 256) (hb : c.b < 256)
    (t : F) : colorLerp c c t = ⟨c.r, c.g, c.b, 255⟩ := by
  simp [colorLerp, Lerp_self, toComponent_natCast, hr, hg, hb]

/-- The corner at integer coordinates `(n, m)`, `n, m >= 0`: either it is
replaced by the sentinel and nothing is read, or the pixel `(n, m)` is read. -/
theorem biLerp.corner_int {image : STImage} {w h : Int} (hs : image.Sized w h)
    (n m : Int) (hn : 0 ≤ n) (hm : 0 ≤ m) :
    ((w ≤ n ∨ h ≤ m) ∧
        biLerp.corner (⟨(n : F), (m : F)⟩ : STPoint2 F) image = some (⟨0, 0, 0, 255⟩, [])) ∨
      (n < w ∧ m < h ∧ ∃ c, c ∈ image.mPixels ∧ image.GetPixel n m = some c ∧
        biLerp.corner (⟨(n : F), (m : F)⟩ : STPoint2 F) image = some (c, [(n, m)])) := by
  by_cases hout : w ≤ n ∨ h ≤ m
  · left
    refine ⟨hout, ?_⟩
    unfold biLerp.corner
    rw [if_pos]
    simpa [hs.1, hs.2.1] using hout
  · right
    push_neg at hout
    obtain ⟨c, hc, hmem⟩ := STImage.GetPixel_isSome hs hn hout.1 hm hout.2
    refine ⟨hout.1, hout.2, c, hmem, hc, ?_⟩
    unfold biLerp.corner
    rw [if_neg]
    · simp only [truncf_intCast, hc]
    · simp only [hs.1, hs.2.1, ge_iff_le, Int.cast_le]
      omega

theorem ReadLog.Within.append {l1 l2 : ReadLog} {w h : Int}
    (h1 : ReadLog.Within l1 w h) (h2 : ReadLog.Within l2 w h) :
    ReadLog.Within (l1 ++ l2) w h := by
  intro p hp
  rcases List.mem_append.mp hp with hp | hp
  · exact h1 p hp
  · exact h2 p hp

theorem ReadLog.Within.nil (w h : Int) : ReadLog.Within [] w h := by
  intro p hp
  cases hp

/-- A corner at non-negative integer coordinates always has a colour, and a
read it makes is inside the image. -/
theorem biLerp.corner_isSome {image : STImage} {w h : Int} (hs : image.Sized w h)
    (n m : Int) (hn : 0 ≤ n) (hm : 0 ≤ m) :
    ∃ c l, biLerp.corner (⟨(n : F), (m : F)⟩ : STPoint2 F) image = some (c, l) ∧
      ReadLog.Within l w h := by
  rcases biLerp.corner_int (F := F) hs n m hn hm with ⟨_, hc⟩ | ⟨hnw, hmh, c, _, _, hc⟩
  · exact ⟨_, _, hc, ReadLog.Within.nil w h⟩
  · refine ⟨c, _, hc, ?_⟩
    intro p hp
    simp only [List.mem_singleton] at hp
    subst hp
    exact ⟨hn, hnw, hm, hmh⟩

/-- At a sample point with non-negative coordinates `biLerp` returns a colour:
the two-stage `colorLerp` of its four corner colours, with the reads of the
corners, all inside the image. -/
theorem biLerp_eq {image : STImage} {w h : Int} (hs : image.Sized w h)
    (X : STPoint2 F) (hx : 0 ≤ X.x) (hy : 0 ≤ X.y) :
    ∃ c0 c1 c2 c3 l0 l1 l2 l3,
      biLerp.corner (⟨floorf X.x, floorf X.y⟩ : STPoint2 F) image = some (c0, l0) ∧
      biLerp.corner (⟨ceilf X.x, floorf X.y⟩ : STPoint2 F) image = some (c1, l1) ∧
      biLerp.corner (⟨floorf X.x, ceilf X.y⟩ : STPoint2 F) image = some (c2, l2) ∧
      biLerp.corner (⟨ceilf X.x, ceilf X.y⟩ : STPoint2 F) image = some (c3, l3) ∧
      biLerp X image = some
        (colorLerp (colorLerp c0 c1 (X.x - floorf X.x)) (colorLerp c2 c3 (X.x - floorf X.x))
          (X.y - floorf X.y), l0 ++ l1 ++ l2 ++ l3) ∧
      ReadLog.Within (l0 ++ l1 ++ l2 ++ l3) w h := by
  have hfx : 0 ≤ ⌊X.x⌋ := Int.floor_nonneg.mpr hx
  have hfy : 0 ≤ ⌊X.y⌋ := Int.floor_nonneg.mpr hy
  have hcx : 0 ≤ ⌈X.x⌉ := Int.ceil_nonneg hx
  have hcy : 0 ≤ ⌈X.y⌉ := Int.ceil_nonneg hy
  obtain ⟨c0, l0, h0, w0⟩ := biLerp.corner_isSome (F := F) hs _ _ hfx hfy
  obtain ⟨c1, l1, h1, w1⟩ := biLerp.corner_isSome (F := F) hs _ _ hcx hfy
  obtain ⟨c2, l2, h2, w2⟩ := biLerp.corner_isSome (F := F) hs _ _ hfx hcy
  obtain ⟨c3, l3, h3, w3⟩ := biLerp.corner_isSome (F := F) hs _ _ hcx hcy
  refine ⟨c0, c1, c2, c3, l0, l1, l2, l3, h0, h1, h2, h3, ?_, ((w0.append w1).append w2).append w3⟩
  unfold biLerp
  simp only [floorf, ceilf] at h0 h1 h2 h3 ⊢
  rw [h0, h1, h2, h3]

theorem floorf_intCast (n : Int) : floorf ((n : Int) : F) = (n : F) := by
  simp [floorf]

theorem ceilf_intCast (n : Int) : ceilf ((n : Int) : F) = (n : F) := by
  simp [ceilf]

/-- At an in-range point with integer coordinates `biLerp` reads the pixel
`(x, y)` four times and returns its red, green and blue with alpha 255. -/
theorem biLerp_int (image : STImage) (hwf : image.WF) (x y : Int)
    (hx0 : 0 ≤ x) (hxw : x < image.mWidth) (hy0 : 0 ≤ y) (hyh : y < image.mHeight) :
    ∃ c, image.GetPixel x y = some c ∧
      biLerp (⟨(x : F), (y : F)⟩ : STPoint2 F) image =
        some (⟨c.r, c.g, c.b, 255⟩, [(x, y), (x, y), (x, y), (x, y)]) := by
  rcases biLerp.corner_int (F := F) hwf.sized x y hx0 hy0 with ⟨hout, _⟩ | ⟨_, _, c, hmem, hget, hc⟩
  · omega
  · refine ⟨c, hget, ?_⟩
    obtain ⟨hr, hg, hb, _⟩ := hwf.2.2.2 c hmem
    unfold biLerp
    simp only [floorf_intCast, ceilf_intCast, hc, sub_self]
    rw [colorLerp_self hr hg hb, colorLerp_self (c := ⟨c.r, c.g, c.b, 255⟩) hr hg hb]
    rfl

/-! ## `BlendImages` -/

theorem STImage.GetPixel_some_range {img : STImage} {x y : Int} {c : STColor4ub}
    (hget : img.GetPixel x y = some c) :
    0 ≤ x ∧ x < img.mWidth ∧ 0 ≤ y ∧ y < img.mHeight := by
  unfold STImage.GetPixel at hget
  split at hget
  · assumption
  · cases hget

/-- A successful run of the body of `BlendImages` appends `(x, y)` to both
read logs, and `(x, y)` is inside both inputs. -/
theorem BlendImages.body_reads {image1 image2 : STImage} {t : F} {x y : Int}
    {st st' : STImage × ReadLog × ReadLog}
    (hb : BlendImages.body image1 image2 t x y st = some st') :
    st'.2.1 = st.2.1 ++ [(x, y)] ∧ st'.2.2 = st.2.2 ++ [(x, y)] ∧
      (0 ≤ x ∧ x < image1.mWidth ∧ 0 ≤ y ∧ y < image1.mHeight) ∧
      (0 ≤ x ∧ x < image2.mWidth ∧ 0 ≤ y ∧ y < image2.mHeight) := by
  unfold BlendImages.body at hb
  cases h1 : image1.GetPixel x y with
  | none => simp [h1] at hb
  | some p1 =>
    cases h2 : image2.GetPixel x y with
    | none => simp [h1, h2] at hb
    | some p2 =>
      simp only [h1, h2] at hb
      cases h3 : st.1.SetPixel x y (colorLerp p1 p2 t) with
      | none => simp [h3] at hb
      | some r =>
        simp only [h3, Option.some.injEq] at hb
        subst hb
        exact ⟨rfl, rfl, STImage.GetPixel_some_range h1, STImage.GetPixel_some_range h2⟩

/-- What `BlendImages` does on well-formed inputs: it returns an image of the
minimum dimensions whose pixel at `(x, y)` is the `colorLerp` of the two input
pixels at `(x, y)`, and reads both inputs only inside those dimensions. -/
theorem BlendImages.blend_spec {image1 image2 : STImage} (hwf1 : image1.WF)
    (hwf2 : image2.WF) (t : F) :
    ∃ r l1 l2, BlendImages.traced image1 image2 t = some (r, l1, l2) ∧
      r.Sized (min image1.mWidth image2.mWidth) (min image1.mHeight image2.mHeight) ∧
      (∀ x y : Int, 0 ≤ x → x < min image1.mWidth image2.mWidth →
        0 ≤ y → y < min image1.mHeight image2.mHeight →
        ∃ p1 p2, image1.GetPixel x y = some p1 ∧ image2.GetPixel x y = some p2 ∧
          r.GetPixel x y = some (colorLerp p1 p2 t)) ∧
      ReadLog.Within l1 (min image1.mWidth image2.mWidth) (min image1.mHeight image2.mHeight) ∧
      ReadLog.Within l2 (min image1.mWidth image2.mWidth) (min image1.mHeight image2.mHeight) := by
  have hw : 0 < min image1.mWidth image2.mWidth := lt_min hwf1.1 hwf2.1
  have hh : 0 < min image1.mHeight image2.mHeight := lt_min hwf1.2.1 hwf2.2.1
  obtain ⟨W, hW⟩ := Int.eq_ofNat_of_zero_le hw.le
  obtain ⟨H, hH⟩ := Int.eq_ofNat_of_zero_le hh.le
  have hin : ∀ x y : Int, 0 ≤ x → x < (W : Int) → 0 ≤ y → y < (H : Int) →
      ∃ p1 p2, image1.GetPixel x y = some p1 ∧ image2.GetPixel x y = some p2 := by
    intro x y hx0 hxw hy0 hyh
    rw [← hW] at hxw
    rw [← hH] at hyh
    obtain ⟨p1, h1, _⟩ := STImage.GetPixel_isSome hwf1.sized hx0
      (lt_of_lt_of_le hxw (min_le_left _ _)) hy0 (lt_of_lt_of_le hyh (min_le_left _ _))
    obtain ⟨p2, h2, _⟩ := STImage.GetPixel_isSome hwf2.sized hx0
      (lt_of_lt_of_le hxw (min_le_right _ _)) hy0 (lt_of_lt_of_le hyh (min_le_right _ _))
    exact ⟨p1, p2, h1, h2⟩
  unfold BlendImages.traced
  simp only [STImage.create_eq hw hh]
  have hs0 := STImage.create_sized hw hh STImage.defaultColor
  rw [hW, hH] at hs0 ⊢
  obtain ⟨st', hrun, hsz, hpix⟩ := forXY_pixels W H (BlendImages.body image1 image2 t)
    (fun x y => match image1.GetPixel x y, image2.GetPixel x y with
      | some p1, some p2 => some (colorLerp p1 p2 t)
      | _, _ => none)
    (fun _ _ => STImage.defaultColor)
    (⟨H, W, List.replicate ((W : Int) * (H : Int)).toNat STImage.defaultColor⟩, [], []) hs0
    (fun x y hx0 hxw hy0 hyh => STImage.GetPixel_replicate _ hx0 hxw hy0 hyh)
    (by
      intro x y st hx hy hs
      obtain ⟨p1, p2, h1, h2⟩ := hin x y (by omega) (by omega) (by omega) (by omega)
      have hset := STImage.SetPixel_eq hs (x := (x : Int)) (y := (y : Int))
        (by omega) (by omega) (by omega) (by omega) (colorLerp p1 p2 t)
      refine ⟨(⟨H, W, st.1.mPixels.set ((y : Int) * (W : Int) + (x : Int)).toNat
          (colorLerp p1 p2 t)⟩, st.2.1 ++ [((x : Int), (y : Int))],
          st.2.2 ++ [((x : Int), (y : Int))]), ?_, ?_, ?_⟩
      · unfold BlendImages.body
        simp only [h1, h2, hset]
      · simp [h1, h2]
      · intro c hc
        simp only [h1, h2, Option.some.injEq] at hc
        rw [← hc, hset])
  have hlog : ReadLog.Within st'.2.1 W H ∧ ReadLog.Within st'.2.2 W H := by
    refine forXY_some_inv (W : Int) (H : Int) (BlendImages.body image1 image2 t)
      (fun st => ReadLog.Within st.2.1 W H ∧ ReadLog.Within st.2.2 W H) ?_ _ st'
      ⟨ReadLog.Within.nil _ _, ReadLog.Within.nil _ _⟩ hrun
    intro x y st st1 hI hb
    obtain ⟨e1, e2, r1, r2⟩ := BlendImages.body_reads hb
    have hin : ReadLog.Within [(x, y)] W H := by
      intro q hq
      simp only [List.mem_singleton] at hq
      subst hq
      simp only
      rw [← hW, ← hH]
      exact ⟨r1.1, lt_min r1.2.1 r2.2.1, r1.2.2.1, lt_min r1.2.2.2 r2.2.2.2⟩
    rw [e1, e2]
    exact ⟨hI.1.append hin, hI.2.append hin⟩
  refine ⟨st'.1, st'.2.1, st'.2.2, hrun, hsz, ?_, hlog.1, hlog.2⟩
  intro x y hx0 hxw hy0 hyh
  obtain ⟨p1, p2, h1, h2⟩ := hin x y hx0 hxw hy0 hyh
  refine ⟨p1, p2, h1, h2, ?_⟩
  rw [hpix x y hx0 hxw hy0 hyh]
  simp [h1, h2]

/-! ## `FieldMorph` -/

/-- A successful run of the body of `FieldMorph` keeps the size of the result
and the read log inside the image, whenever the input image is sized. -/
theorem FieldMorph.body_some {sqrtf : F → F} {powf : F → F → F} {image : STImage}
    {sourceFeatures targetFeatures : List (Feature F)} {t a b p : F} {x y w h : Int}
    {st st' : STImage × ReadLog} (his : image.Sized image.mWidth image.mHeight)
    (hb : FieldMorph.body sqrtf powf image sourceFeatures targetFeatures t a b p x y st
      = some st')
    (hI : st.1.Sized w h ∧ ReadLog.Within st.2 image.mWidth image.mHeight) :
    st'.1.Sized w h ∧ ReadLog.Within st'.2 image.mWidth image.mHeight := by
  unfold FieldMorph.body at hb
  cases hsp : FieldMorph.samplePoint sqrtf powf sourceFeatures targetFeatures t a b p x y with
  | none => simp [hsp] at hb
  | some X' =>
    simp only [hsp] at hb
    split at hb
    · cases hb
      exact hI
    · rename_i hin
      have hx : 0 ≤ X'.x := by
        unfold FieldMorph.outside at hin
        push_neg at hin
        exact hin.1
      have hy : 0 ≤ X'.y := by
        unfold FieldMorph.outside at hin
        push_neg at hin
        exact hin.2.2.1
      obtain ⟨c0, c1, c2, c3, l0, l1, l2, l3, _, _, _, _, hbl, hwithin⟩ :=
        biLerp_eq his X' hx hy
      simp only [hbl] at hb
      split at hb
      · rename_i r hset
        cases hb
        exact ⟨STImage.SetPixel_sized hI.1 hset, hI.2.append hwithin⟩
      · cases hb

/-- Whatever the arguments, an image returned by `FieldMorph` has the size of
the input image. -/
theorem FieldMorph.traced_sized {sqrtf : F → F} {powf : F → F → F} {image : STImage}
    {sourceFeatures targetFeatures : List (Feature F)} {t a b p : F}
    {st : STImage × ReadLog}
    (hrun : FieldMorph.traced sqrtf powf image sourceFeatures targetFeatures t a b p
      = some st) :
    st.1.Sized image.mWidth image.mHeight := by
  unfold FieldMorph.traced at hrun
  by_cases hw : 0 < image.mWidth
  · by_cases hh : 0 < image.mHeight
    · simp only [STImage.create_eq hw hh] at hrun
      have hs0 := STImage.create_sized hw hh STImage.defaultColor
      exact forXY_some_inv _ _ _ (fun st => st.1.Sized image.mWidth image.mHeight)
        (by
          intro x y st st1 hI hb
          unfold FieldMorph.body at hb
          split at hb
          · split at hb
            · cases hb
              exact hI
            · split at hb
              · split at hb
                · rename_i hset
                  cases hb
                  exact STImage.SetPixel_sized hI hset
                · cases hb
              · cases hb
          · cases hb)
        _ st hs0 hrun
    · simp [STImage.create, not_lt.mp hh] at hrun
  · simp [STImage.create, not_lt.mp hw] at hrun

omit [FloorRing F] in
theorem FieldMorph.not_outside {image : STImage} {X : STPoint2 F}
    (hin : ¬ FieldMorph.outside image X) :
    0 ≤ X.x ∧ X.x < (image.mWidth : F) ∧ 0 ≤ X.y ∧ X.y < (image.mHeight : F) := by
  unfold FieldMorph.outside at hin
  push_neg at hin
  exact hin

/-- What `FieldMorph` does on a well-formed image when the sample point of
every output pixel is defined: it returns an image of the same size, reads the
input only inside its bounds, leaves a pixel whose sample point is outside the
image at the default colour and stores `biLerp` of the sample point otherwise. -/
theorem FieldMorph.morph_spec (sqrtf : F → F) (powf : F → F → F) {image : STImage}
    (hwf : image.WF) (sourceFeatures targetFeatures : List (Feature F)) (t a b p : F)
    (hsp : ∀ x y : Int, 0 ≤ x → x < image.mWidth → 0 ≤ y → y < image.mHeight →
      ∃ X', FieldMorph.samplePoint sqrtf powf sourceFeatures targetFeatures t a b p x y
        = some X') :
    ∃ r log, FieldMorph.traced sqrtf powf image sourceFeatures targetFeatures t a b p
        = some (r, log) ∧
      r.Sized image.mWidth image.mHeight ∧
      ReadLog.Within log image.mWidth image.mHeight ∧
      ∀ x y : Int, 0 ≤ x → x < image.mWidth → 0 ≤ y → y < image.mHeight →
        ∀ X', FieldMorph.samplePoint sqrtf powf sourceFeatures targetFeatures t a b p x y
            = some X' →
          (FieldMorph.outside image X' → r.GetPixel x y = some STImage.defaultColor) ∧
          (¬ FieldMorph.outside image X' →
            ∃ c reads, biLerp X' image = some (c, reads) ∧ r.GetPixel x y = some c) := by
  have hw := hwf.1
  have hh := hwf.2.1
  obtain ⟨W, hW⟩ := Int.eq_ofNat_of_zero_le hw.le
  obtain ⟨H, hH⟩ := Int.eq_ofNat_of_zero_le hh.le
  unfold FieldMorph.traced
  simp only [STImage.create_eq hw hh]
  have hs0 := STImage.create_sized hw hh STImage.defaultColor
  obtain ⟨st', hrun, hsz, hpix⟩ := forXY_pixels W H
    (FieldMorph.body sqrtf powf image sourceFeatures targetFeatures t a b p)
    (fun x y =>
      match FieldMorph.samplePoint sqrtf powf sourceFeatures targetFeatures t a b p x y with
      | some X' => if FieldMorph.outside image X' then none
                   else (biLerp X' image).map (fun r => r.1)
      | none => none)
    (fun _ _ => STImage.defaultColor)
    (⟨image.mHeight, image.mWidth,
      List.replicate (image.mWidth * image.mHeight).toNat STImage.defaultColor⟩, [])
    (by rw [← hW, ← hH]; exact hs0)
    (fun x y hx0 hxw hy0 hyh =>
      STImage.GetPixel_replicate _ hx0 (by omega) hy0 (by omega))
    (by
      intro x y st hx hy hs
      obtain ⟨X', hX'⟩ := hsp x y (by omega) (by omega) (by omega) (by omega)
      by_cases hout : FieldMorph.outside image X'
      · refine ⟨st, ?_, fun _ => rfl, ?_⟩
        · unfold FieldMorph.body
          simp only [hX', if_pos hout]
        · intro c hc
          simp [hX', hout] at hc
      · obtain ⟨hx0, _, hy0, _⟩ := FieldMorph.not_outside hout
        obtain ⟨c0, c1, c2, c3, l0, l1, l2, l3, _, _, _, _, hbl, _⟩ :=
          biLerp_eq hwf.sized X' hx0 hy0
        have hset := STImage.SetPixel_eq hs (x := (x : Int)) (y := (y : Int))
          (by omega) (by omega) (by omega) (by omega)
          (colorLerp (colorLerp c0 c1 (X'.x - floorf X'.x))
            (colorLerp c2 c3 (X'.x - floorf X'.x)) (X'.y - floorf X'.y))
        refine ⟨(⟨H, W, st.1.mPixels.set ((y : Int) * (W : Int) + (x : Int)).toNat
          (colorLerp (colorLerp c0 c1 (X'.x - floorf X'.x))
            (colorLerp c2 c3 (X'.x - floorf X'.x)) (X'.y - floorf X'.y))⟩,
          st.2 ++ (l0 ++ l1 ++ l2 ++ l3)), ?_, ?_, ?_⟩
        · unfold FieldMorph.body
          simp only [hX', if_neg hout, hbl, hset]
        · intro hnone
          simp [hX', hout, hbl] at hnone
        · intro c hc
          simp only [hX', if_neg hout, hbl, Option.map_some', Option.some.injEq] at hc
          rw [← hc, hset])
  have hrun' : forXY image.mWidth image.mHeight
      (FieldMorph.body sqrtf powf image sourceFeatures targetFeatures t a b p)
      (⟨image.mHeight, image.mWidth,
        List.replicate (image.mWidth * image.mHeight).toNat STImage.defaultColor⟩, [])
      = some st' := by
    rw [hW, hH]
    rw [hW, hH] at hrun
    exact hrun
  have hlog : st'.1.Sized image.mWidth image.mHeight ∧
      ReadLog.Within st'.2 image.mWidth image.mHeight :=
    forXY_some_inv _ _ _
      (fun st => st.1.Sized image.mWidth image.mHeight ∧
        ReadLog.Within st.2 image.mWidth image.mHeight)
      (fun x y st st1 hI hb => FieldMorph.body_some hwf.sized hb hI) _ st'
      ⟨hs0, ReadLog.Within.nil _ _⟩ hrun'
  refine ⟨st'.1, st'.2, hrun', hlog.1, hlog.2, ?_⟩
  intro x y hx0 hxw hy0 hyh X' hX'
  have hp := hpix x y hx0 (by omega) hy0 (by omega)
  simp only [hX'] at hp
  constructor
  · intro hout
    rw [hp, if_pos hout]
    rfl
  · intro hout
    obtain ⟨hx0', _, hy0', _⟩ := FieldMorph.not_outside hout
    obtain ⟨c0, c1, c2, c3, l0, l1, l2, l3, _, _, _, _, hbl, _⟩ :=
      biLerp_eq hwf.sized X' hx0' hy0'
    refine ⟨_, _, hbl, ?_⟩
    rw [hp, if_neg hout, hbl]
    rfl

/-! ## The sample point -/

omit [FloorRing F] in
/-- The loop body of `FieldMorph` computes, for one feature pair, the
displacement and the weight of the specification. -/
theorem FieldMorph.feature_eq_term (sqrtf : F → F) (powf : F → F → F) (X : STPoint2 F)
    (sf tf : Feature F) (t a b p : F) :
    FieldMorph.feature sqrtf powf X sf tf t a b p = Spec.term sqrtf powf X sf tf t a b p := by
  have hn : ∀ w : STVector2 F, Spec.normSq w = w.LengthSq := by
    intro w
    simp [Spec.normSq, STVector2.LengthSq, sq]
  unfold FieldMorph.feature Spec.term
  simp only [Spec.weight, Spec.dist, Spec.rebuild, Spec.u, Spec.v, Spec.norm, Spec.diff,
    Spec.lerpPoint, hn, STPoint2.sub, Spec.dot, STVector2.Dot, Spec.perp, STVector2.Length,
    STPoint2.Dist, FieldMorph.dist]
  generalize Lerp sf.P.x tf.P.x t = px
  generalize Lerp sf.P.y tf.P.y t = py
  generalize Lerp sf.Q.x tf.Q.x t = qx
  generalize Lerp sf.Q.y tf.Q.y t = qy
  generalize STVector2.LengthSq (⟨qx - px, qy - py⟩ : STVector2 F) = L2
  generalize STVector2.LengthSq (⟨sf.Q.x - sf.P.x, sf.Q.y - sf.P.y⟩ : STVector2 F) = L2'
  generalize (X.x - px) * (qx - px) + (X.y - py) * (qy - py) = nu
  generalize (X.x - px) * -(qy - py) + (X.y - py) * (qx - px) = nv
  generalize sqrtf (STVector2.LengthSq (⟨X.x - px, X.y - py⟩ : STVector2 F)) = dP
  generalize sqrtf (STVector2.LengthSq (⟨X.x - qx, X.y - qy⟩ : STVector2 F)) = dQ
  by_cases h1 : L2 = 0
  · simp [fdiv, h1]
  by_cases h2 : sqrtf L2 = 0
  · simp [fdiv, h1, h2]
  by_cases h3 : sqrtf L2' = 0
  · simp [fdiv, h1, h2, h3, STVector2.divS]
  simp only [fdiv, h1, h2, h3, if_false, STVector2.divS, STVector2.smul, false_or,
    FieldMorph.weight, STPoint2.addV, or_self]
  generalize (if nu / L2 < 0 then dP else if nu / L2 > 1 then dQ else |nv / sqrtf L2|) = dist
  by_cases h4 : a + dist = 0
  · simp [h4]
  · simp only [h4, if_false]
    congr 3 <;> ring

omit [FloorRing F] in
/-- The loop over feature indices is a fold over the pairs of corresponding
features when the two lists have the same length. -/
theorem FieldMorph.accum_fold_zip (sqrtf : F → F) (powf : F → F → F) (X : STPoint2 F)
    (t a b p : F) :
    ∀ (sourceFeatures targetFeatures : List (Feature F)) (acc : STVector2 F × F),
      sourceFeatures.length = targetFeatures.length →
      (List.range targetFeatures.length).foldlM
          (FieldMorph.accum sqrtf powf X sourceFeatures targetFeatures t a b p) acc =
        (List.zip sourceFeatures targetFeatures).foldlM
          (fun (acc : STVector2 F × F) (q : Feature F × Feature F) =>
            match Spec.term sqrtf powf X q.1 q.2 t a b p with
            | some (Di, weight) => some (acc.1.add (Di.mulS weight), acc.2 + weight)
            | none => none) acc := by
  intro sourceFeatures
  induction sourceFeatures with
  | nil =>
    intro targetFeatures acc hlen
    have : targetFeatures = [] := List.length_eq_zero.mp hlen.symm
    subst this
    simp
  | cons sf s ih =>
    intro targetFeatures acc hlen
    cases targetFeatures with
    | nil => simp at hlen
    | cons tf tl =>
      simp only [List.length_cons, Nat.add_right_cancel_iff] at hlen
      rw [List.length_cons, List.range_succ_eq_map, List.zip_cons_cons, List.foldlM_cons,
        List.foldlM_cons]
      have h0 : FieldMorph.accum sqrtf powf X (sf :: s) (tf :: tl) t a b p acc 0 =
          (match Spec.term sqrtf powf X sf tf t a b p with
            | some (Di, weight) => some (acc.1.add (Di.mulS weight), acc.2 + weight)
            | none => none) := by
        simp [FieldMorph.accum, FieldMorph.feature_eq_term]
      have hs : ∀ (acc' : STVector2 F × F) (i : Nat),
          FieldMorph.accum sqrtf powf X (sf :: s) (tf :: tl) t a b p acc' (i + 1) =
            FieldMorph.accum sqrtf powf X s tl t a b p acc' i := by
        intro acc' i
        simp [FieldMorph.accum]
      rw [h0]
      simp only [List.foldlM_map, Nat.succ_eq_add_one, hs]
      congr 1
      funext acc'
      exact ih tl acc' hlen

omit [FloorRing F] in
/-- The fold over the feature pairs adds up the weighted displacements and the
weights of the specification. -/
theorem FieldMorph.fold_zip_sum (sqrtf : F → F) (powf : F → F → F) (X : STPoint2 F)
    (t a b p : F) :
    ∀ (l : List (Feature F × Feature F)) (acc : STVector2 F × F),
      l.foldlM
          (fun (acc : STVector2 F × F) (q : Feature F × Feature F) =>
            match Spec.term sqrtf powf X q.1 q.2 t a b p with
            | some (Di, weight) => some (acc.1.add (Di.mulS weight), acc.2 + weight)
            | none => none) acc =
        match Spec.collect (l.map (fun q => Spec.term sqrtf powf X q.1 q.2 t a b p)) with
        | some terms =>
          some (⟨acc.1.x + (terms.map (fun q => q.2 * q.1.x)).sum,
                 acc.1.y + (terms.map (fun q => q.2 * q.1.y)).sum⟩,
                acc.2 + (terms.map (fun q => q.2)).sum)
        | none => none := by
  intro l
  induction l with
  | nil =>
    intro acc
    simp [Spec.collect]
  | cons q l ih =>
    intro acc
    rw [List.foldlM_cons, List.map_cons]
    cases hq : Spec.term sqrtf powf X q.1 q.2 t a b p with
    | none => simp [Spec.collect]
    | some dw =>
      obtain ⟨d, w⟩ := dw
      simp only [Spec.collect, Option.some_bind, Option.bind_eq_bind]
      rw [ih]
      cases hc : Spec.collect (l.map (fun q => Spec.term sqrtf powf X q.1 q.2 t a b p)) with
      | none => simp
      | some ts =>
        simp only [Option.map_some', List.map_cons, List.sum_cons, STVector2.add,
          STVector2.mulS, Option.some.injEq, Prod.mk.injEq, STVector2.mk.injEq]
        refine ⟨⟨by ring, by ring⟩, by ring⟩

omit [FloorRing F] in
/-- The sample point computed by the loop of `FieldMorph` is the sample point
of the specification. -/
theorem FieldMorph.samplePoint_eq_spec (sqrtf : F → F) (powf : F → F → F)
    (sourceFeatures targetFeatures : List (Feature F)) (t a b p : F) (x y : Int)
    (hlen : sourceFeatures.length = targetFeatures.length) :
    FieldMorph.samplePoint sqrtf powf sourceFeatures targetFeatures t a b p x y =
      Spec.samplePoint sqrtf powf sourceFeatures targetFeatures t a b p ⟨(x : F), (y : F)⟩ := by
  unfold FieldMorph.samplePoint Spec.samplePoint
  simp only [FieldMorph.accum_fold_zip sqrtf powf _ t a b p _ _ _ hlen,
    FieldMorph.fold_zip_sum]
  cases Spec.collect ((List.zip sourceFeatures targetFeatures).map
      (fun q => Spec.term sqrtf powf ⟨(x : F), (y : F)⟩ q.1 q.2 t a b p)) with
  | none => rfl
  | some ts =>
    simp only [zero_add, STVector2.divS, fdiv]
    split_ifs with h0
    · rfl
    · simp [STPoint2.addV]

end MorphLemmas

/-! ## Exact real arithmetic: `sqrtf` is the square root, `powf` the real power -/

section RealLemmas

theorem Spec.collect_forall {α : Type} (P : α → Prop) :
    ∀ l : List (Option α), (∀ o ∈ l, ∃ a, o = some a ∧ P a) →
      ∃ ts, Spec.collect l = some ts ∧ ts.length = l.length ∧ ∀ a ∈ ts, P a := by
  intro l
  induction l with
  | nil =>
    intro _
    exact ⟨[], rfl, rfl, by simp⟩
  | cons o l ih =>
    intro h
    obtain ⟨a, rfl, ha⟩ := h o (List.mem_cons_self _ _)
    obtain ⟨ts, hts, hlen, hall⟩ := ih (fun o' ho' => h o' (List.mem_cons_of_mem _ ho'))
    refine ⟨a :: ts, by simp [Spec.collect, hts], by simp [hlen], ?_⟩
    intro a' ha'
    rcases List.mem_cons.mp ha' with rfl | h'
    · exact ha
    · exact hall a' h'

theorem Spec.normSq_diff_pos {P Q : STPoint2 ℝ} (hne : P ≠ Q) :
    0 < Spec.normSq (Spec.diff Q P) := by
  unfold Spec.normSq Spec.diff
  simp only
  by_contra hle
  have hx : Q.x - P.x = 0 := by nlinarith [sq_nonneg (Q.x - P.x), sq_nonneg (Q.y - P.y)]
  have hy : Q.y - P.y = 0 := by nlinarith [sq_nonneg (Q.x - P.x), sq_nonneg (Q.y - P.y)]
  apply hne
  cases P
  cases Q
  simp only [STPoint2.mk.injEq]
  constructor <;> linarith

theorem Spec.norm_diff_pos {P Q : STPoint2 ℝ} (hne : P ≠ Q) :
    0 < Spec.norm Real.sqrt (Spec.diff Q P) :=
  Real.sqrt_pos.mpr (Spec.normSq_diff_pos hne)

theorem Spec.norm_mul_self (w : STVector2 ℝ) :
    Spec.norm Real.sqrt w * Spec.norm Real.sqrt w = Spec.normSq w := by
  unfold Spec.norm
  exact Real.mul_self_sqrt (by unfold Spec.normSq; positivity)

/-- The weighting distance is not negative. -/
theorem Spec.dist_nonneg (X Pi Qi : STPoint2 ℝ) : 0 ≤ Spec.dist Real.sqrt X Pi Qi := by
  unfold Spec.dist Spec.norm
  split_ifs
  · exact Real.sqrt_nonneg _
  · exact Real.sqrt_nonneg _
  · exact abs_nonneg _

/-- With `a > 0` the weight of a non-degenerate interpolated segment is
positive. -/
theorem Spec.weight_pos (X Pi Qi : STPoint2 ℝ) (a b p : ℝ) (ha : 0 < a) (hne : Pi ≠ Qi) :
    0 < Spec.weight Real.sqrt (fun x y => x ^ y) X Pi Qi a b p := by
  unfold Spec.weight
  apply Real.rpow_pos_of_pos
  exact div_pos (Real.rpow_pos_of_pos (Spec.norm_diff_pos hne) _)
    (add_pos_of_pos_of_nonneg ha (Spec.dist_nonneg X Pi Qi))

/-- With `a > 0` the term of a feature pair whose source segment and
interpolated segment are non-degenerate is defined. -/
theorem Spec.term_eq (X : STPoint2 ℝ) (sf tf : Feature ℝ) (t a b p : ℝ) (ha : 0 < a)
    (hsrc : sf.P ≠ sf.Q)
    (hint : Spec.lerpPoint sf.P tf.P t ≠ Spec.lerpPoint sf.Q tf.Q t) :
    Spec.term Real.sqrt (fun x y => x ^ y) X sf tf t a b p =
      some (Spec.diff (Spec.rebuild Real.sqrt
              (Spec.u X (Spec.lerpPoint sf.P tf.P t) (Spec.lerpPoint sf.Q tf.Q t))
              (Spec.v Real.sqrt X (Spec.lerpPoint sf.P tf.P t) (Spec.lerpPoint sf.Q tf.Q t))
              sf.P sf.Q) X,
            Spec.weight Real.sqrt (fun x y => x ^ y) X (Spec.lerpPoint sf.P tf.P t)
              (Spec.lerpPoint sf.Q tf.Q t) a b p) := by
  unfold Spec.term
  simp only
  rw [if_neg]
  push_neg
  exact ⟨(Spec.normSq_diff_pos hint).ne', (Spec.norm_diff_pos hint).ne',
    (Spec.norm_diff_pos hsrc).ne',
    (add_pos_of_pos_of_nonneg ha (Spec.dist_nonneg X _ _)).ne'⟩

/-- Rebuilding a point from its coordinates `(u, v)` against the segment they
were computed from gives the point back. -/
theorem Spec.rebuild_same (X P Q : STPoint2 ℝ) (hne : P ≠ Q) :
    Spec.rebuild Real.sqrt (Spec.u X P Q) (Spec.v Real.sqrt X P Q) P Q = X := by
  have h2 := Spec.normSq_diff_pos hne
  have h1 := Spec.norm_diff_pos hne
  have hmul := Spec.norm_mul_self (Spec.diff Q P)
  unfold Spec.rebuild Spec.u Spec.v
  generalize Spec.norm Real.sqrt (Spec.diff Q P) = L at h1 hmul ⊢
  have hL2 : Spec.normSq (Spec.diff Q P) = L * L := hmul.symm
  rw [hL2]
  simp only [Spec.normSq, Spec.diff] at hL2
  simp only [Spec.dot, Spec.perp, Spec.diff]
  have hLne : L ≠ 0 := h1.ne'
  cases X with
  | mk Xx Xy =>
    simp only [STPoint2.mk.injEq]
    constructor
    · field_simp
      rw [← hL2]
      ring
    · field_simp
      rw [← hL2]
      ring

theorem mem_zip_self {α : Type} : ∀ (l : List α) (q : α × α), q ∈ List.zip l l →
    q.1 ∈ l ∧ q.2 = q.1 := by
  intro l
  induction l with
  | nil =>
    intro q hq
    simp at hq
  | cons a l ih =>
    intro q hq
    rw [List.zip_cons_cons] at hq
    rcases List.mem_cons.mp hq with rfl | h
    · exact ⟨List.mem_cons_self _ _, rfl⟩
    · exact ⟨List.mem_cons_of_mem _ (ih q h).1, (ih q h).2⟩

/-- The sample point is defined when `a > 0`, there is at least one feature
pair and every pair has a non-degenerate source segment and a non-degenerate
interpolated segment. -/
theorem Spec.samplePoint_isSome (sourceFeatures targetFeatures : List (Feature ℝ))
    (t a b p : ℝ) (X : STPoint2 ℝ) (ha : 0 < a)
    (hlen : sourceFeatures.length = targetFeatures.length) (hne : sourceFeatures ≠ [])
    (hnd : ∀ q ∈ List.zip sourceFeatures targetFeatures,
      q.1.P ≠ q.1.Q ∧ Spec.lerpPoint q.1.P q.2.P t ≠ Spec.lerpPoint q.1.Q q.2.Q t) :
    ∃ X', Spec.samplePoint Real.sqrt (fun x y => x ^ y) sourceFeatures targetFeatures
      t a b p X = some X' := by
  obtain ⟨ts, hts, hl, hpos⟩ := Spec.collect_forall (fun q : STVector2 ℝ × ℝ => 0 < q.2)
    ((List.zip sourceFeatures targetFeatures).map
      (fun q => Spec.term Real.sqrt (fun x y => x ^ y) X q.1 q.2 t a b p))
    (by
      intro o ho
      obtain ⟨q, hq, rfl⟩ := List.mem_map.mp ho
      obtain ⟨h1, h2⟩ := hnd q hq
      exact ⟨_, Spec.term_eq X q.1 q.2 t a b p ha h1 h2, Spec.weight_pos X _ _ a b p ha h2⟩)
  have hts_ne : ts ≠ [] := by
    intro h0
    rw [h0] at hl
    simp only [List.length_nil, List.length_map, List.length_zip] at hl
    have : sourceFeatures.length ≠ 0 := fun h => hne (List.length_eq_zero.mp h)
    omega
  have hsum : 0 < (ts.map (fun q => q.2)).sum := by
    apply List.sum_pos
    · intro x hx
      obtain ⟨q, hq, rfl⟩ := List.mem_map.mp hx
      exact hpos q hq
    · simpa using hts_ne
  unfold Spec.samplePoint
  rw [hts]
  simp only [if_neg hsum.ne']
  exact ⟨_, rfl⟩

/-- With identical source and destination features every sample point is the
output pixel itself. -/
theorem Spec.samplePoint_identity (features : List (Feature ℝ)) (t a b p : ℝ)
    (X : STPoint2 ℝ) (ha : 0 < a) (hne : features ≠ [])
    (hnd : ∀ f ∈ features, f.P ≠ f.Q) :
    Spec.samplePoint Real.sqrt (fun x y => x ^ y) features features t a b p X = some X := by
  have hlp : ∀ A : STPoint2 ℝ, Spec.lerpPoint A A t = A := by
    intro A
    simp [Spec.lerpPoint, Lerp_self]
  obtain ⟨ts, hts, hl, hprop⟩ := Spec.collect_forall
    (fun q : STVector2 ℝ × ℝ => q.1 = ⟨0, 0⟩ ∧ 0 < q.2)
    ((List.zip features features).map
      (fun q => Spec.term Real.sqrt (fun x y => x ^ y) X q.1 q.2 t a b p))
    (by
      intro o ho
      obtain ⟨q, hq, rfl⟩ := List.mem_map.mp ho
      obtain ⟨hmem, h2⟩ := mem_zip_self features q hq
      have hq1 := hnd q.1 hmem
      refine ⟨_, Spec.term_eq X q.1 q.2 t a b p ha hq1 ?_, ?_, ?_⟩
      · rw [h2, hlp, hlp]
        exact hq1
      · simp only [h2, hlp, Spec.rebuild_same X _ _ hq1, Spec.diff, sub_self]
      · apply Spec.weight_pos _ _ _ _ _ _ ha
        rw [h2, hlp, hlp]
        exact hq1)
  have hts_ne : ts ≠ [] := by
    intro h0
    rw [h0] at hl
    simp only [List.length_nil, List.length_map, List.length_zip] at hl
    have : features.length ≠ 0 := fun h => hne (List.length_eq_zero.mp h)
    omega
  have hsum : 0 < (ts.map (fun q => q.2)).sum := by
    apply List.sum_pos
    · intro x hx
      obtain ⟨q, hq, rfl⟩ := List.mem_map.mp hx
      exact (hprop q hq).2
    · simpa using hts_ne
  have hx0 : (ts.map (fun q => q.2 * q.1.x)).sum = 0 := by
    apply List.sum_eq_zero
    intro x hx
    obtain ⟨q, hq, rfl⟩ := List.mem_map.mp hx
    simp [(hprop q hq).1]
  have hy0 : (ts.map (fun q => q.2 * q.1.y)).sum = 0 := by
    apply List.sum_eq_zero
    intro x hx
    obtain ⟨q, hq, rfl⟩ := List.mem_map.mp hx
    simp [(hprop q hq).1]
  unfold Spec.samplePoint
  rw [hts]
  simp only [if_neg hsum.ne', hx0, hy0, zero_div, add_zero]

theorem FieldMorph.not_outside_int (image : STImage) {x y : Int}
    (hx0 : 0 ≤ x) (hxw : x < image.mWidth) (hy0 : 0 ≤ y) (hyh : y < image.mHeight) :
    ¬ FieldMorph.outside image (⟨(x : ℝ), (y : ℝ)⟩ : STPoint2 ℝ) := by
  unfold FieldMorph.outside
  push_neg
  simp only [Int.cast_nonneg, Int.cast_lt]
  exact ⟨hx0, hxw, hy0, hyh⟩

/-- The identity warp: with identical source and destination features, at
least one feature, non-degenerate segments and `a > 0`, `FieldMorph` returns an
image of the same size whose pixel at `(x, y)` has the red, green and blue of
the input pixel at `(x, y)` and alpha 255. -/
theorem FieldMorph.identity (image : STImage) (hwf : image.WF)
    (features : List (Feature ℝ)) (t a b p : ℝ) (ha : 0 < a) (hne : features ≠ [])
    (hnd : ∀ f ∈ features, f.P ≠ f.Q) :
    ∃ r log, FieldMorph.traced Real.sqrt (fun x y => x ^ y) image features features t a b p
        = some (r, log) ∧
      r.Sized image.mWidth image.mHeight ∧
      ∀ x y : Int, 0 ≤ x → x < image.mWidth → 0 ≤ y → y < image.mHeight →
        ∃ c, image.GetPixel x y = some c ∧ r.GetPixel x y = some ⟨c.r, c.g, c.b, 255⟩ := by
  have hsp : ∀ x y : Int,
      FieldMorph.samplePoint Real.sqrt (fun x y => x ^ y) features features t a b p x y
        = some ⟨(x : ℝ), (y : ℝ)⟩ := by
    intro x y
    rw [FieldMorph.samplePoint_eq_spec _ _ _ _ _ _ _ _ _ _ rfl]
    exact Spec.samplePoint_identity features t a b p _ ha hne hnd
  obtain ⟨r, log, hrun, hsz, _, hpix⟩ := FieldMorph.morph_spec
    Real.sqrt (fun x y => x ^ y) hwf features features t a b p
    (fun x y _ _ _ _ => ⟨_, hsp x y⟩)
  refine ⟨r, log, hrun, hsz, ?_⟩
  intro x y hx0 hxw hy0 hyh
  obtain ⟨c, hget, hbl⟩ := biLerp_int (F := ℝ) image hwf x y hx0 hxw hy0 hyh
  obtain ⟨c', reads, hbl', hr⟩ :=
    (hpix x y hx0 hxw hy0 hyh _ (hsp x y)).2 (FieldMorph.not_outside_int image hx0 hxw hy0 hyh)
  rw [hbl] at hbl'
  simp only [Option.some.injEq, Prod.mk.injEq] at hbl'
  exact ⟨c, hget, by rw [hr, ← hbl'.1]⟩

/-! ### The distance from a point to a segment -/

theorem seg_aux_before (ex ey dx dy s : ℝ) (hs0 : 0 ≤ s) (hm : ex * dx + ey * dy ≤ 0) :
    ex * ex + ey * ey ≤ (s * dx - ex) * (s * dx - ex) + (s * dy - ey) * (s * dy - ey) := by
  nlinarith [mul_nonneg hs0 (neg_nonneg.mpr hm), mul_self_nonneg (s * dx),
    mul_self_nonneg (s * dy)]

theorem seg_aux_after (ex ey dx dy s : ℝ) (hs1 : s ≤ 1)
    (hm : dx * dx + dy * dy ≤ ex * dx + ey * dy) :
    (ex - dx) * (ex - dx) + (ey - dy) * (ey - dy) ≤
      (s * dx - ex) * (s * dx - ex) + (s * dy - ey) * (s * dy - ey) := by
  nlinarith [mul_nonneg (sub_nonneg.mpr hs1) (sub_nonneg.mpr hm),
    mul_nonneg (mul_self_nonneg (1 - s)) (add_nonneg (mul_self_nonneg dx) (mul_self_nonneg dy))]

theorem seg_aux_mid (ex ey dx dy s : ℝ) (hL : 0 < dx * dx + dy * dy) :
    (ex * -dy + ey * dx) ^ 2 / (dx * dx + dy * dy) ≤
      (s * dx - ex) * (s * dx - ex) + (s * dy - ey) * (s * dy - ey) := by
  rw [div_le_iff₀ hL]
  nlinarith [sq_nonneg (s * (dx * dx + dy * dy) - (ex * dx + ey * dy))]

theorem seg_aux_foot (ex ey dx dy : ℝ) (hL : 0 < dx * dx + dy * dy) :
    ((ex * dx + ey * dy) / (dx * dx + dy * dy) * dx - ex) *
        ((ex * dx + ey * dy) / (dx * dx + dy * dy) * dx - ex) +
      ((ex * dx + ey * dy) / (dx * dx + dy * dy) * dy - ey) *
        ((ex * dx + ey * dy) / (dx * dx + dy * dy) * dy - ey) =
      (ex * -dy + ey * dx) ^ 2 / (dx * dx + dy * dy) := by
  field_simp
  ring

end RealLemmas

/-! ## Further lemmas on reads -/

section ReadLemmas

variable {F : Type} [LinearOrderedField F] [FloorRing F]

/-- A read made by a corner is inside the image. -/
theorem biLerp.corner_reads {image : STImage} {v : STPoint2 F} {c : STColor4ub}
    {l : ReadLog} (hc : biLerp.corner v image = some (c, l)) :
    ReadLog.Within l image.mWidth image.mHeight := by
  unfold biLerp.corner at hc
  split at hc
  · cases hc
    exact ReadLog.Within.nil _ _
  · split at hc
    · rename_i c' hget
      cases hc
      intro q hq
      simp only [List.mem_singleton] at hq
      subst hq
      exact STImage.GetPixel_some_range hget
    · cases hc

/-- Every read made by `biLerp` is inside the image. -/
theorem biLerp_reads {image : STImage} {X : STPoint2 F} {c : STColor4ub} {reads : ReadLog}
    (hb : biLerp X image = some (c, reads)) :
    ReadLog.Within reads image.mWidth image.mHeight := by
  unfold biLerp at hb
  simp only at hb
  split at hb
  · rename_i v0C l0 v1C l1 v2C l2 v3C l3 h0 h1 h2 h3
    cases hb
    exact ((((biLerp.corner_reads h0).append (biLerp.corner_reads h1)).append
      (biLerp.corner_reads h2)).append (biLerp.corner_reads h3))
  · cases hb

end ReadLemmas

/-! ## The claims -/

/-- C1, counterexample.  On binary32 floats the identity warp of the 2 by 1
image with pixels `(10, 20, 30, 0)` and `(40, 50, 60, 255)`, with the single
feature `(0,0) -> (3,4)` on both sides and `t = 0`, `a = 0.5`, `b = 1`, `p = 0`,
samples the pixel `(1, 0)` at `(1, -2^-25)`: the rounded products do not cancel,
the point is below the image and the pixel is left `(0, 0, 0, 0)`.  The pixel
`(0, 0)` is sampled at `(0, 0)` and becomes `(10, 20, 30, 255)`: the alpha
channel is not the input's. -/
theorem FieldMorph_identity_counterexample :
    Example.pair.GetPixel 0 0 = some ⟨10, 20, 30, 0⟩ ∧
    Example.pair.GetPixel 1 0 = some ⟨40, 50, 60, 255⟩ ∧
    Machine.FieldMorph.samplePoint Example.ieee
        [Example.feature32 0 0 3 4] [Example.feature32 0 0 3 4]
        (F32.ofInt 0) (F32.ofRat (1 / 2)) (F32.ofInt 1) (F32.ofInt 0) 1 0 =
      some ⟨F32.fin 1, F32.fin (-1 / 33554432)⟩ ∧
    Machine.FieldMorph Example.ieee Example.pair
        [Example.feature32 0 0 3 4] [Example.feature32 0 0 3 4]
        (F32.ofInt 0) (F32.ofRat (1 / 2)) (F32.ofInt 1) (F32.ofInt 0) =
      some ⟨1, 2, [⟨10, 20, 30, 255⟩, ⟨0, 0, 0, 0⟩]⟩ := by
  decide!

/-- C1, amended.  Identity warp in exact arithmetic (over the reals, with the
real square root and power): for every well-formed image, every non-empty
list of features with `P != Q`, every `t`, `b`, `p` and every `a > 0`,
`FieldMorph(image, F, F, t, a, b, p)` returns an image of the same size whose
pixel at every `(x, y)` has the red, green and blue of the input pixel at
`(x, y)` and alpha 255. -/
theorem FieldMorph_identity_warp (image : STImage) (hwf : image.WF)
    (features : List (Feature ℝ)) (hne : features ≠ [])
    (hnd : ∀ f ∈ features, f.P ≠ f.Q) (t a b p : ℝ) (ha : 0 < a) :
    ∃ r, FieldMorph Real.sqrt (fun x y => x ^ y) image features features t a b p = some r ∧
      r.mWidth = image.mWidth ∧ r.mHeight = image.mHeight ∧
      ∀ x y : Int, 0 ≤ x → x < image.mWidth → 0 ≤ y → y < image.mHeight →
        ∃ c, image.GetPixel x y = some c ∧
          r.GetPixel x y = some ⟨c.r, c.g, c.b, 255⟩ := by
  obtain ⟨r, log, hrun, hsz, hpix⟩ := FieldMorph.identity image hwf features t a b p ha hne hnd
  exact ⟨r, by simp [FieldMorph, hrun], hsz.1, hsz.2.1, hpix⟩

/-- C1, witness: the identity warp of a 2 by 2 image with two features. -/
theorem FieldMorph_identity_warp_witness :
    Example.opaque2.WF ∧ (0 : ℝ) < 1 / 2 ∧
    ∃ r, FieldMorph Real.sqrt (fun x y => x ^ y) Example.opaque2
        [Example.seg ℝ, Example.seg2 ℝ] [Example.seg ℝ, Example.seg2 ℝ]
        (1 / 3) (1 / 2) 1 (1 / 5) = some r ∧
      r.mWidth = Example.opaque2.mWidth ∧ r.mHeight = Example.opaque2.mHeight ∧
      ∀ x y : Int, 0 ≤ x → x < Example.opaque2.mWidth → 0 ≤ y → y < Example.opaque2.mHeight →
        ∃ c, Example.opaque2.GetPixel x y = some c ∧
          r.GetPixel x y = some ⟨c.r, c.g, c.b, 255⟩ :=
  ⟨by decide, by norm_num,
    FieldMorph_identity_warp Example.opaque2 (by decide)
      [Example.seg ℝ, Example.seg2 ℝ] (by simp)
      (by simp [Example.seg, Example.seg2]) (1 / 3) (1 / 2) 1 (1 / 5) (by norm_num)⟩

/-- C2.  Sample-point formula: for equal-length feature lists the point at
which `FieldMorph` samples the input image for the output pixel `X = (x, y)`
is `X + (sum_i weight_i * Di) / (sum_i weight_i)`, with `u`, `v`, `Xi'`, `Di`
and `weight_i` as in `Spec.term`; it is undefined exactly when the formula
divides by zero. -/
theorem FieldMorph_samplePoint_formula {F : Type} [LinearOrderedField F]
    (sqrtf : F → F) (powf : F → F → F)
    (sourceFeatures targetFeatures : List (Feature F)) (t a b p : F) (x y : Int)
    (hlen : sourceFeatures.length = targetFeatures.length) :
    FieldMorph.samplePoint sqrtf powf sourceFeatures targetFeatures t a b p x y =
      Spec.samplePoint sqrtf powf sourceFeatures targetFeatures t a b p
        ⟨(x : F), (y : F)⟩ :=
  FieldMorph.samplePoint_eq_spec sqrtf powf sourceFeatures targetFeatures t a b p x y hlen

/-- C2, witness: two feature pairs over the rationals. -/
theorem FieldMorph_samplePoint_formula_witness :
    [Example.seg ℚ, Example.seg2 ℚ].length = [Example.seg2 ℚ, Example.seg ℚ].length ∧
    FieldMorph.samplePoint (fun z : ℚ => z) (fun z _ => z)
        [Example.seg ℚ, Example.seg2 ℚ] [Example.seg2 ℚ, Example.seg ℚ] (1 / 4) (1 / 2) 1 2 1 1 =
      Spec.samplePoint (fun z : ℚ => z) (fun z _ => z)
        [Example.seg ℚ, Example.seg2 ℚ] [Example.seg2 ℚ, Example.seg ℚ] (1 / 4) (1 / 2) 1 2
        ⟨((1 : Int) : ℚ), ((1 : Int) : ℚ)⟩ :=
  ⟨rfl, FieldMorph_samplePoint_formula (fun z : ℚ => z) (fun z _ => z)
    [Example.seg ℚ, Example.seg2 ℚ] [Example.seg2 ℚ, Example.seg ℚ] (1 / 4) (1 / 2) 1 2 1 1 rfl⟩

/-- C5.  For every point `X` and every segment `(Pi, Qi)` with `Pi != Qi`, the
coordinates `u` and `v` of `FieldMorph` are defined and the weighting distance
chosen by its three cases (distance to `Pi` when `u < 0`, distance to `Qi` when
`u > 1`, `|v|` otherwise) is the least of the distances from `X` to the points
`Pi + s*(Qi - Pi)`, `0 <= s <= 1`, of the closed segment. -/
theorem FieldMorph_dist_is_distance_to_segment (X Pi Qi : STPoint2 ℝ) (hne : Pi ≠ Qi) :
    ∃ u v,
      fdiv (STVector2.Dot (X.sub Pi) (Qi.sub Pi)) (Qi.sub Pi).LengthSq = some u ∧
      fdiv (STVector2.Dot (X.sub Pi) ⟨-(Qi.sub Pi).y, (Qi.sub Pi).x⟩)
        ((Qi.sub Pi).Length Real.sqrt) = some v ∧
      IsLeast
        {d | ∃ s : ℝ, 0 ≤ s ∧ s ≤ 1 ∧
          d = STPoint2.Dist Real.sqrt X
            ⟨Pi.x + s * (Qi.x - Pi.x), Pi.y + s * (Qi.y - Pi.y)⟩}
        (FieldMorph.dist Real.sqrt u v Pi Qi X) := by
  have hL2 : 0 < (Qi.x - Pi.x) * (Qi.x - Pi.x) + (Qi.y - Pi.y) * (Qi.y - Pi.y) := by
    have := Spec.normSq_diff_pos hne
    simpa [Spec.normSq, Spec.diff, sq] using this
  have hL : 0 < Real.sqrt ((Qi.x - Pi.x) * (Qi.x - Pi.x) + (Qi.y - Pi.y) * (Qi.y - Pi.y)) :=
    Real.sqrt_pos.mpr hL2
  have hLL := Real.mul_self_sqrt hL2.le
  have hseg : ∀ s : ℝ, STPoint2.Dist Real.sqrt X
      ⟨Pi.x + s * (Qi.x - Pi.x), Pi.y + s * (Qi.y - Pi.y)⟩ =
      Real.sqrt ((s * (Qi.x - Pi.x) - (X.x - Pi.x)) * (s * (Qi.x - Pi.x) - (X.x - Pi.x)) +
        (s * (Qi.y - Pi.y) - (X.y - Pi.y)) * (s * (Qi.y - Pi.y) - (X.y - Pi.y))) := by
    intro s
    simp only [STPoint2.Dist, STVector2.Length, STVector2.LengthSq, STPoint2.sub]
    congr 1
    ring
  have hP : STPoint2.Dist Real.sqrt Pi X =
      Real.sqrt ((X.x - Pi.x) * (X.x - Pi.x) + (X.y - Pi.y) * (X.y - Pi.y)) := by
    simp only [STPoint2.Dist, STVector2.Length, STVector2.LengthSq, STPoint2.sub]
  have hQ : STPoint2.Dist Real.sqrt Qi X =
      Real.sqrt (((X.x - Pi.x) - (Qi.x - Pi.x)) * ((X.x - Pi.x) - (Qi.x - Pi.x)) +
        ((X.y - Pi.y) - (Qi.y - Pi.y)) * ((X.y - Pi.y) - (Qi.y - Pi.y))) := by
    simp only [STPoint2.Dist, STVector2.Length, STVector2.LengthSq, STPoint2.sub]
    congr 1
    ring
  simp only [hseg, hP, hQ, FieldMorph.dist]
  simp only [STPoint2.sub, STVector2.Dot, STVector2.LengthSq, STVector2.Length, fdiv,
    if_neg hL2.ne', if_neg hL.ne']
  refine ⟨_, _, rfl, rfl, ?_⟩
  clear hseg hP hQ
  generalize X.x - Pi.x = ex
  generalize X.y - Pi.y = ey
  generalize Qi.x - Pi.x = dx at *
  generalize Qi.y - Pi.y = dy at *
  have hv : |(ex * -dy + ey * dx) / Real.sqrt (dx * dx + dy * dy)| =
      Real.sqrt ((ex * -dy + ey * dx) ^ 2 / (dx * dx + dy * dy)) := by
    rw [← Real.sqrt_sq_eq_abs, div_pow, Real.sq_sqrt hL2.le]
  rw [hv]
  split_ifs with hu0 hu1
  · have hm : ex * dx + ey * dy ≤ 0 := by
      have := (div_neg_iff.mp hu0)
      rcases this with ⟨_, h2⟩ | ⟨h1, _⟩
      · linarith
      · exact h1.le
    constructor
    · refine ⟨0, le_refl _, zero_le_one, ?_⟩
      congr 1
      ring
    · rintro d ⟨s, hs0, _, rfl⟩
      exact Real.sqrt_le_sqrt (seg_aux_before ex ey dx dy s hs0 hm)
  · have hm : dx * dx + dy * dy ≤ ex * dx + ey * dy := by
      have := (one_lt_div hL2).mp hu1
      exact this.le
    constructor
    · refine ⟨1, zero_le_one, le_refl _, ?_⟩
      congr 1
      ring
    · rintro d ⟨s, _, hs1, rfl⟩
      exact Real.sqrt_le_sqrt (seg_aux_after ex ey dx dy s hs1 hm)
  · constructor
    · refine ⟨(ex * dx + ey * dy) / (dx * dx + dy * dy), not_lt.mp hu0, not_lt.mp hu1, ?_⟩
      rw [seg_aux_foot ex ey dx dy hL2]
    · rintro d ⟨s, _, _, rfl⟩
      exact Real.sqrt_le_sqrt (seg_aux_mid ex ey dx dy s hL2)

/-- C5, witness: the point `(0, 1)` and the segment `(0,0) -> (1,0)`. -/
theorem FieldMorph_dist_is_distance_to_segment_witness :
    ((⟨0, 0⟩ : STPoint2 ℝ) ≠ ⟨1, 0⟩) ∧
    ∃ u v,
      fdiv (STVector2.Dot ((⟨0, 1⟩ : STPoint2 ℝ).sub ⟨0, 0⟩)
        ((⟨1, 0⟩ : STPoint2 ℝ).sub ⟨0, 0⟩)) ((⟨1, 0⟩ : STPoint2 ℝ).sub ⟨0, 0⟩).LengthSq
        = some u ∧
      fdiv (STVector2.Dot ((⟨0, 1⟩ : STPoint2 ℝ).sub ⟨0, 0⟩)
        ⟨-((⟨1, 0⟩ : STPoint2 ℝ).sub ⟨0, 0⟩).y, ((⟨1, 0⟩ : STPoint2 ℝ).sub ⟨0, 0⟩).x⟩)
        (((⟨1, 0⟩ : STPoint2 ℝ).sub ⟨0, 0⟩).Length Real.sqrt) = some v ∧
      IsLeast
        {d | ∃ s : ℝ, 0 ≤ s ∧ s ≤ 1 ∧
          d = STPoint2.Dist Real.sqrt (⟨0, 1⟩ : STPoint2 ℝ)
            ⟨(⟨0, 0⟩ : STPoint2 ℝ).x + s * ((⟨1, 0⟩ : STPoint2 ℝ).x - (⟨0, 0⟩ : STPoint2 ℝ).x),
             (⟨0, 0⟩ : STPoint2 ℝ).y + s * ((⟨1, 0⟩ : STPoint2 ℝ).y - (⟨0, 0⟩ : STPoint2 ℝ).y)⟩}
        (FieldMorph.dist Real.sqrt u v ⟨0, 0⟩ ⟨1, 0⟩ ⟨0, 1⟩) :=
  ⟨by simp, FieldMorph_dist_is_distance_to_segment ⟨0, 1⟩ ⟨0, 0⟩ ⟨1, 0⟩ (by simp)⟩

/-- C6.  Weight sanity: for a segment length `L > 0`, `a > 0`, `b > 0` and any
`p`, the weight computed by `FieldMorph` at a distance `dist >= 0` is
`(L^p / (a + dist))^b`; it is strictly decreasing in `dist` on `dist >= 0`,
is largest at `dist = 0`, where it is `(L^p / a)^b`, and for every `eps > 0` it
is below `eps` for all sufficiently large `dist`. -/
theorem FieldMorph_weight_sanity (L a b p : ℝ) (hL : 0 < L) (ha : 0 < a) (hb : 0 < b) :
    (∀ d : ℝ, 0 ≤ d →
      FieldMorph.weight (fun x y => x ^ y) L p a d b = some ((L ^ p / (a + d)) ^ b)) ∧
    (∀ d1 d2 : ℝ, 0 ≤ d1 → d1 < d2 → (L ^ p / (a + d2)) ^ b < (L ^ p / (a + d1)) ^ b) ∧
    (∀ d : ℝ, 0 ≤ d → (L ^ p / (a + d)) ^ b ≤ (L ^ p / (a + 0)) ^ b) ∧
    (L ^ p / (a + 0)) ^ b = (L ^ p / a) ^ b ∧
    (∀ eps : ℝ, 0 < eps → ∃ D : ℝ, ∀ d : ℝ, 0 ≤ d → D ≤ d → (L ^ p / (a + d)) ^ b < eps) := by
  have hc : 0 < L ^ p := Real.rpow_pos_of_pos hL p
  have hanti : ∀ d1 d2 : ℝ, 0 ≤ d1 → d1 < d2 →
      (L ^ p / (a + d2)) ^ b < (L ^ p / (a + d1)) ^ b := by
    intro d1 d2 h1 h12
    have hp1 : 0 < a + d1 := by linarith
    have hp2 : 0 < a + d2 := by linarith
    apply Real.rpow_lt_rpow (div_pos hc hp2).le _ hb
    exact div_lt_div_of_pos_left hc hp1 (by linarith)
  refine ⟨?_, hanti, ?_, by rw [add_zero], ?_⟩
  · intro d hd
    have hne : a + d ≠ 0 := by
      have : 0 < a + d := by linarith
      exact this.ne'
    simp [FieldMorph.weight, fdiv, hne]
  · intro d hd
    rcases eq_or_lt_of_le hd with h0 | hpos
    · rw [← h0]
    · exact (hanti 0 d (le_refl _) hpos).le
  · intro eps heps
    have hr : 0 < eps ^ (1 / b) := Real.rpow_pos_of_pos heps _
    refine ⟨L ^ p / eps ^ (1 / b), ?_⟩
    intro d hd hD
    have hDpos : 0 < L ^ p / eps ^ (1 / b) := div_pos hc hr
    have hdpos : 0 < d := lt_of_lt_of_le hDpos hD
    have hlt : L ^ p / (a + d) < eps ^ (1 / b) := by
      rw [div_lt_iff₀ (by linarith)]
      have h1 : L ^ p ≤ eps ^ (1 / b) * d := by
        have := (div_le_iff₀ hr).mp hD
        linarith
      nlinarith [mul_pos hr ha]
    have hpow := Real.rpow_lt_rpow (div_pos hc (by linarith : (0 : ℝ) < a + d)).le hlt hb
    have hfin : (eps ^ (1 / b)) ^ b = eps := by
      rw [← Real.rpow_mul heps.le, one_div, inv_mul_cancel₀ hb.ne', Real.rpow_one]
    rw [hfin] at hpow
    exact hpow

/-- C6, witness: `L = 2`, `a = 1/2`, `b = 1`, `p = 1/5`. -/
theorem FieldMorph_weight_sanity_witness :
    (∀ d : ℝ, 0 ≤ d →
      FieldMorph.weight (fun x y => x ^ y) 2 (1 / 5) (1 / 2) d 1 =
        some (((2 : ℝ) ^ (1 / 5 : ℝ) / (1 / 2 + d)) ^ (1 : ℝ))) ∧
    (∀ d1 d2 : ℝ, 0 ≤ d1 → d1 < d2 →
      ((2 : ℝ) ^ (1 / 5 : ℝ) / (1 / 2 + d2)) ^ (1 : ℝ) <
        ((2 : ℝ) ^ (1 / 5 : ℝ) / (1 / 2 + d1)) ^ (1 : ℝ)) :=
  have h := FieldMorph_weight_sanity 2 (1 / 2) 1 (1 / 5) (by norm_num) (by norm_num)
    (by norm_num)
  ⟨h.1, h.2.1⟩

/-- C7, counterexample.  On the 1 by 1 image whose pixel is `(10, 20, 30, 0)`,
`biLerp` at the integer point `(0, 0)` returns `(10, 20, 30, 255)`, which is
not the image's pixel: the alpha channel differs. -/
theorem biLerp_integer_alpha_counterexample :
    Example.transparent.GetPixel 0 0 = some ⟨10, 20, 30, 0⟩ ∧
    biLerp (⟨0, 0⟩ : STPoint2 ℚ) Example.transparent =
      some (⟨10, 20, 30, 255⟩, [(0, 0), (0, 0), (0, 0), (0, 0)]) := by
  decide!

/-- C7, amended.  For every well-formed image and every point `(x, y)` with
integer coordinates `0 <= x < width`, `0 <= y < height`, `biLerp` returns the
red, green and blue of the image's pixel at `(x, y)`, with alpha 255. -/
theorem biLerp_integer_point {F : Type} [LinearOrderedField F] [FloorRing F]
    (image : STImage) (hwf : image.WF) (x y : Int)
    (hx0 : 0 ≤ x) (hxw : x < image.mWidth) (hy0 : 0 ≤ y) (hyh : y < image.mHeight) :
    ∃ c reads, image.GetPixel x y = some c ∧
      biLerp (⟨(x : F), (y : F)⟩ : STPoint2 F) image =
        some (⟨c.r, c.g, c.b, 255⟩, reads) := by
  obtain ⟨c, hget, hbl⟩ := biLerp_int (F := F) image hwf x y hx0 hxw hy0 hyh
  exact ⟨c, _, hget, hbl⟩

/-- C7, witness: the pixel `(1, 0)` of a 2 by 2 image. -/
theorem biLerp_integer_point_witness :
    Example.opaque2.WF ∧
    ∃ c reads, Example.opaque2.GetPixel 1 0 = some c ∧
      biLerp (⟨((1 : Int) : ℚ), ((0 : Int) : ℚ)⟩ : STPoint2 ℚ) Example.opaque2 =
        some (⟨c.r, c.g, c.b, 255⟩, reads) :=
  ⟨by decide, biLerp_integer_point Example.opaque2 (by decide) 1 0
    (by decide) (by decide) (by decide) (by decide)⟩

/-- C8, counterexample.  On a 1 by 1 image the corner `(1, 0)`, whose `x` is
not below the width, is replaced by `(0, 0, 0, 255)`: the sentinel is opaque
black, not black with zero alpha. -/
theorem biLerp_sentinel_alpha_counterexample :
    biLerp.corner (⟨1, 0⟩ : STPoint2 ℚ) Example.transparent = some (⟨0, 0, 0, 255⟩, []) ∧
    (⟨0, 0, 0, 255⟩ : STColor4ub) ≠ ⟨0, 0, 0, 0⟩ := by
  decide!

/-- C8, amended.  For every image, a corner with integer coordinates `(n, m)`
whose `n` is `>= width` or whose `m` is `>= height` is replaced in `biLerp` by
the fixed sentinel colour `(0, 0, 0, 255)` (black, alpha 255) without a read,
and no call of `biLerp` on the image reads it at `(n, m)`. -/
theorem biLerp_corner_sentinel {F : Type} [LinearOrderedField F] [FloorRing F]
    (image : STImage) (n m : Int) (hout : n ≥ image.mWidth ∨ m ≥ image.mHeight) :
    biLerp.corner (⟨(n : F), (m : F)⟩ : STPoint2 F) image = some (⟨0, 0, 0, 255⟩, []) ∧
    ∀ (X : STPoint2 F) (c : STColor4ub) (reads : ReadLog),
      biLerp X image = some (c, reads) → (n, m) ∉ reads := by
  constructor
  · unfold biLerp.corner
    rw [if_pos]
    simpa using hout
  · intro X c reads hb hmem
    have := biLerp_reads hb (n, m) hmem
    simp only at this
    omega

/-- C8, witness: the corner `(2, 1)` of a 2 by 2 image. -/
theorem biLerp_corner_sentinel_witness :
    ((2 : Int) ≥ Example.opaque2.mWidth ∨ (1 : Int) ≥ Example.opaque2.mHeight) ∧
    biLerp.corner (⟨((2 : Int) : ℚ), ((1 : Int) : ℚ)⟩ : STPoint2 ℚ) Example.opaque2 =
      some (⟨0, 0, 0, 255⟩, []) :=
  ⟨by decide, (biLerp_corner_sentinel Example.opaque2 2 1 (by decide)).1⟩

/-- C10.  For every pair of well-formed images and every `t`, `BlendImages`
returns an image whose width is `min(width1, width2)` and whose height is
`min(height1, height2)`, and every pixel it reads from either input has
coordinates inside that range. -/
theorem BlendImages_dimensions {F : Type} [LinearOrderedField F] [FloorRing F]
    (image1 image2 : STImage) (hwf1 : image1.WF) (hwf2 : image2.WF) (t : F) :
    ∃ r l1 l2, BlendImages.traced image1 image2 t = some (r, l1, l2) ∧
      BlendImages image1 image2 t = some r ∧
      r.mWidth = min image1.mWidth image2.mWidth ∧
      r.mHeight = min image1.mHeight image2.mHeight ∧
      ReadLog.Within l1 (min image1.mWidth image2.mWidth)
        (min image1.mHeight image2.mHeight) ∧
      ReadLog.Within l2 (min image1.mWidth image2.mWidth)
        (min image1.mHeight image2.mHeight) := by
  obtain ⟨r, l1, l2, hrun, hsz, _, hl1, hl2⟩ := BlendImages.blend_spec hwf1 hwf2 t
  exact ⟨r, l1, l2, hrun, by simp [BlendImages, hrun], hsz.1, hsz.2.1, hl1, hl2⟩

/-- C10, witness: a 2 by 2 image blended with a 3 by 2 image. -/
theorem BlendImages_dimensions_witness :
    Example.opaque2.WF ∧ Example.wide.WF ∧
    ∃ r, BlendImages Example.opaque2 Example.wide (1 / 2 : ℚ) = some r ∧
      r.mWidth = 2 ∧ r.mHeight = 2 := by
  refine ⟨by decide, by decide, ?_⟩
  obtain ⟨r, _, _, _, hr, hw, hh, _, _⟩ :=
    BlendImages_dimensions (F := ℚ) Example.opaque2 Example.wide (by decide) (by decide) (1 / 2)
  exact ⟨r, hr, hw, hh⟩

/-! ## Further lemmas on `colorLerp` and `BlendImages` -/

section BlendLemmas

variable {F : Type} [LinearOrderedField F] [FloorRing F]

omit [FloorRing F] in
theorem Lerp_one (c1 c2 : F) : Lerp c1 c2 1 = c2 := by
  simp [Lerp]

omit [FloorRing F] in
/-- For `0 <= t <= 1` the value `Lerp c1 c2 t` lies between `0` and any bound
of `c1` and `c2`. -/
theorem Lerp_bounds {c1 c2 t M : F} (ht0 : 0 ≤ t) (ht1 : t ≤ 1)
    (h1 : 0 ≤ c1) (h1M : c1 ≤ M) (h2 : 0 ≤ c2) (h2M : c2 ≤ M) :
    0 ≤ Lerp c1 c2 t ∧ Lerp c1 c2 t ≤ M := by
  have e : Lerp c1 c2 t = (1 - t) * c1 + t * c2 := by
    unfold Lerp
    ring
  rw [e]
  have h1t : 0 ≤ 1 - t := by linarith
  constructor
  · exact add_nonneg (mul_nonneg h1t h1) (mul_nonneg ht0 h2)
  · have ha : (1 - t) * c1 ≤ (1 - t) * M := mul_le_mul_of_nonneg_left h1M h1t
    have hb : t * c2 ≤ t * M := mul_le_mul_of_nonneg_left h2M ht0
    have hc : (1 - t) * M + t * M = M := by ring
    linarith

/-- The 8-bit value of a float in `[0, 256)` is its integer part. -/
theorem toComponent_cast_floor {z : F} (h0 : 0 ≤ z) (h1 : z < 256) :
    ((toComponent z : Nat) : Int) = ⌊z⌋ := by
  unfold toComponent truncf
  rw [if_pos h0]
  have hf0 : 0 ≤ ⌊z⌋ := Int.floor_nonneg.mpr h0
  have hf1 : ⌊z⌋ < 256 := by
    rw [Int.floor_lt]
    exact_mod_cast h1
  omega

theorem toComponent_of_floor {z : F} {n : Nat} (h0 : 0 ≤ z) (hf : ⌊z⌋ = (n : Int))
    (hn : n < 256) : toComponent z = n := by
  unfold toComponent truncf
  rw [if_pos h0, hf]
  omega

theorem colorLerp_zero (c1 c2 : STColor4ub) (hr : c1.r < 256) (hg : c1.g < 256)
    (hb : c1.b < 256) : colorLerp c1 c2 (0 : F) = ⟨c1.r, c1.g, c1.b, 255⟩ := by
  simp [colorLerp, Lerp_zero, toComponent_natCast, hr, hg, hb]

theorem colorLerp_one (c1 c2 : STColor4ub) (hr : c2.r < 256) (hg : c2.g < 256)
    (hb : c2.b < 256) : colorLerp c1 c2 (1 : F) = ⟨c2.r, c2.g, c2.b, 255⟩ := by
  simp [colorLerp, Lerp_one, toComponent_natCast, hr, hg, hb]

/-- On well-formed inputs `BlendImages` returns an image of the minimum
dimensions whose pixel at `(x, y)` is the `colorLerp` of the pixels of the two
inputs at `(x, y)`. -/
theorem BlendImages.pixel_spec {image1 image2 : STImage} (hwf1 : image1.WF)
    (hwf2 : image2.WF) (t : F) :
    ∃ r, BlendImages image1 image2 t = some r ∧
      r.Sized (min image1.mWidth image2.mWidth) (min image1.mHeight image2.mHeight) ∧
      ∀ x y : Int, 0 ≤ x → x < min image1.mWidth image2.mWidth →
        0 ≤ y → y < min image1.mHeight image2.mHeight →
        ∃ p1 p2, p1 ∈ image1.mPixels ∧ p2 ∈ image2.mPixels ∧
          image1.GetPixel x y = some p1 ∧ image2.GetPixel x y = some p2 ∧
          r.GetPixel x y = some (colorLerp p1 p2 t) := by
  obtain ⟨r, l1, l2, hrun, hsz, hpix, _, _⟩ := BlendImages.blend_spec hwf1 hwf2 t
  refine ⟨r, by simp [BlendImages, hrun], hsz, ?_⟩
  intro x y hx0 hxw hy0 hyh
  obtain ⟨p1, p2, h1, h2, hr⟩ := hpix x y hx0 hxw hy0 hyh
  obtain ⟨q1, hq1, hm1⟩ := STImage.GetPixel_isSome hwf1.sized hx0
    (lt_of_lt_of_le hxw (min_le_left _ _)) hy0 (lt_of_lt_of_le hyh (min_le_left _ _))
  obtain ⟨q2, hq2, hm2⟩ := STImage.GetPixel_isSome hwf2.sized hx0
    (lt_of_lt_of_le hxw (min_le_right _ _)) hy0 (lt_of_lt_of_le hyh (min_le_right _ _))
  rw [h1] at hq1
  rw [h2] at hq2
  cases hq1
  cases hq2
  exact ⟨p1, p2, hm1, hm2, h1, h2, hr⟩

end BlendLemmas

/-! ## The image returned by `FieldMorph` is well formed -/

section MorphWF

variable {F : Type} [LinearOrderedField F] [FloorRing F]

theorem colorLerp_bounded (c1 c2 : STColor4ub) (t : F) : (colorLerp c1 c2 t).Bounded :=
  ⟨toComponent_lt _, toComponent_lt _, toComponent_lt _, by simp [colorLerp]⟩

theorem biLerp_bounded {image : STImage} {X : STPoint2 F} {c : STColor4ub}
    {reads : ReadLog} (hb : biLerp X image = some (c, reads)) : c.Bounded := by
  unfold biLerp at hb
  simp only at hb
  split at hb
  · cases hb
    exact colorLerp_bounded _ _ _
  · cases hb

theorem STImage.SetPixel_mem {img img' : STImage} {x y : Int} {v : STColor4ub}
    (hset : img.SetPixel x y v = some img') :
    ∀ c ∈ img'.mPixels, c ∈ img.mPixels ∨ c = v := by
  unfold STImage.SetPixel at hset
  split at hset
  · cases hset
    intro c hc
    exact List.mem_or_eq_of_mem_set hc
  · cases hset

/-- An image returned by `FieldMorph` is well formed. -/
theorem FieldMorph.traced_wf {sqrtf : F → F} {powf : F → F → F} {image : STImage}
    {sourceFeatures targetFeatures : List (Feature F)} {t a b p : F}
    {st : STImage × ReadLog}
    (hrun : FieldMorph.traced sqrtf powf image sourceFeatures targetFeatures t a b p
      = some st) : st.1.WF := by
  unfold FieldMorph.traced at hrun
  by_cases hw : 0 < image.mWidth
  · by_cases hh : 0 < image.mHeight
    · simp only [STImage.create_eq hw hh] at hrun
      have hs0 := STImage.create_sized hw hh STImage.defaultColor
      have hI := forXY_some_inv _ _ _
        (fun st : STImage × ReadLog => st.1.Sized image.mWidth image.mHeight ∧
          ∀ c ∈ st.1.mPixels, c.Bounded)
        (by
          intro x y st st1 hI hb
          unfold FieldMorph.body at hb
          split at hb
          · split at hb
            · cases hb
              exact hI
            · split at hb
              · rename_i c reads hbl
                split at hb
                · rename_i r hset
                  cases hb
                  refine ⟨STImage.SetPixel_sized hI.1 hset, ?_⟩
                  intro c' hc'
                  rcases STImage.SetPixel_mem hset c' hc' with h | h
                  · exact hI.2 c' h
                  · rw [h]
                    exact biLerp_bounded hbl
                · cases hb
              · cases hb
          · cases hb)
        _ st
        ⟨hs0, by
          intro c hc
          rw [List.eq_of_mem_replicate hc]
          simp [STColor4ub.Bounded, STImage.defaultColor]⟩ hrun
      exact ⟨by rw [hI.1.1]; exact hw, by rw [hI.1.2.1]; exact hh,
        by rw [hI.1.2.2, hI.1.1, hI.1.2.1], hI.2⟩
    · simp [STImage.create, not_lt.mp hh] at hrun
  · simp [STImage.create, not_lt.mp hw] at hrun

end MorphWF

/-! ## Warps that leave the segments in place, and `MorphImages` -/

section MorphImagesLemmas

/-- When every interpolated segment is the source segment itself, every sample
point is the output pixel itself. -/
theorem Spec.samplePoint_fixed (sourceFeatures targetFeatures : List (Feature ℝ))
    (t a b p : ℝ) (X : STPoint2 ℝ) (ha : 0 < a)
    (hlen : sourceFeatures.length = targetFeatures.length) (hne : sourceFeatures ≠ [])
    (hfix : ∀ q ∈ List.zip sourceFeatures targetFeatures,
      q.1.P ≠ q.1.Q ∧ Spec.lerpPoint q.1.P q.2.P t = q.1.P ∧
        Spec.lerpPoint q.1.Q q.2.Q t = q.1.Q) :
    Spec.samplePoint Real.sqrt (fun x y => x ^ y) sourceFeatures targetFeatures t a b p X
      = some X := by
  obtain ⟨ts, hts, hl, hprop⟩ := Spec.collect_forall
    (fun q : STVector2 ℝ × ℝ => q.1 = ⟨0, 0⟩ ∧ 0 < q.2)
    ((List.zip sourceFeatures targetFeatures).map
      (fun q => Spec.term Real.sqrt (fun x y => x ^ y) X q.1 q.2 t a b p))
    (by
      intro o ho
      obtain ⟨q, hq, rfl⟩ := List.mem_map.mp ho
      obtain ⟨hq1, hP, hQ⟩ := hfix q hq
      refine ⟨_, Spec.term_eq X q.1 q.2 t a b p ha hq1 ?_, ?_, ?_⟩
      · rw [hP, hQ]
        exact hq1
      · simp only [hP, hQ, Spec.rebuild_same X _ _ hq1, Spec.diff, sub_self]
      · apply Spec.weight_pos _ _ _ _ _ _ ha
        rw [hP, hQ]
        exact hq1)
  have hts_ne : ts ≠ [] := by
    intro h0
    rw [h0] at hl
    simp only [List.length_nil, List.length_map, List.length_zip] at hl
    have : sourceFeatures.length ≠ 0 := fun h => hne (List.length_eq_zero.mp h)
    omega
  have hsum : 0 < (ts.map (fun q => q.2)).sum := by
    apply List.sum_pos
    · intro x hx
      obtain ⟨q, hq, rfl⟩ := List.mem_map.mp hx
      exact (hprop q hq).2
    · simpa using hts_ne
  have hx0 : (ts.map (fun q => q.2 * q.1.x)).sum = 0 := by
    apply List.sum_eq_zero
    intro x hx
    obtain ⟨q, hq, rfl⟩ := List.mem_map.mp hx
    simp [(hprop q hq).1]
  have hy0 : (ts.map (fun q => q.2 * q.1.y)).sum = 0 := by
    apply List.sum_eq_zero
    intro x hx
    obtain ⟨q, hq, rfl⟩ := List.mem_map.mp hx
    simp [(hprop q hq).1]
  unfold Spec.samplePoint
  rw [hts]
  simp only [if_neg hsum.ne', hx0, hy0, zero_div, add_zero]

/-- A warp whose interpolated segments are the source segments returns a
well-formed image of the same size with the red, green and blue of the input
at every pixel and alpha 255. -/
theorem FieldMorph.fixed (image : STImage) (hwf : image.WF)
    (sourceFeatures targetFeatures : List (Feature ℝ)) (t a b p : ℝ) (ha : 0 < a)
    (hlen : sourceFeatures.length = targetFeatures.length) (hne : sourceFeatures ≠ [])
    (hfix : ∀ q ∈ List.zip sourceFeatures targetFeatures,
      q.1.P ≠ q.1.Q ∧ Spec.lerpPoint q.1.P q.2.P t = q.1.P ∧
        Spec.lerpPoint q.1.Q q.2.Q t = q.1.Q) :
    ∃ r, FieldMorph Real.sqrt (fun x y => x ^ y) image sourceFeatures targetFeatures
        t a b p = some r ∧ r.WF ∧ r.Sized image.mWidth image.mHeight ∧
      ∀ x y : Int, 0 ≤ x → x < image.mWidth → 0 ≤ y → y < image.mHeight →
        ∃ c, image.GetPixel x y = some c ∧ r.GetPixel x y = some ⟨c.r, c.g, c.b, 255⟩ := by
  have hsp : ∀ x y : Int,
      FieldMorph.samplePoint Real.sqrt (fun x y => x ^ y) sourceFeatures targetFeatures
        t a b p x y = some ⟨(x : ℝ), (y : ℝ)⟩ := by
    intro x y
    rw [FieldMorph.samplePoint_eq_spec _ _ _ _ _ _ _ _ _ _ hlen]
    exact Spec.samplePoint_fixed _ _ t a b p _ ha hlen hne hfix
  obtain ⟨r, log, hrun, hsz, _, hpix⟩ := FieldMorph.morph_spec
    Real.sqrt (fun x y => x ^ y) hwf sourceFeatures targetFeatures t a b p
    (fun x y _ _ _ _ => ⟨_, hsp x y⟩)
  refine ⟨r, by simp [FieldMorph, hrun], FieldMorph.traced_wf hrun, hsz, ?_⟩
  intro x y hx0 hxw hy0 hyh
  obtain ⟨c, hget, hbl⟩ := biLerp_int (F := ℝ) image hwf x y hx0 hxw hy0 hyh
  obtain ⟨c', reads, hbl', hr⟩ :=
    (hpix x y hx0 hxw hy0 hyh _ (hsp x y)).2
      (FieldMorph.not_outside_int image hx0 hxw hy0 hyh)
  rw [hbl] at hbl'
  simp only [Option.some.injEq, Prod.mk.injEq] at hbl'
  exact ⟨c, hget, by rw [hr, ← hbl'.1]⟩

/-- A warp with `a > 0`, at least one feature pair, non-degenerate source
segments and non-degenerate interpolated segments returns a well-formed image
of the same size. -/
theorem FieldMorph.defined (image : STImage) (hwf : image.WF)
    (sourceFeatures targetFeatures : List (Feature ℝ)) (t a b p : ℝ) (ha : 0 < a)
    (hlen : sourceFeatures.length = targetFeatures.length) (hne : sourceFeatures ≠ [])
    (hnd : ∀ q ∈ List.zip sourceFeatures targetFeatures,
      q.1.P ≠ q.1.Q ∧ Spec.lerpPoint q.1.P q.2.P t ≠ Spec.lerpPoint q.1.Q q.2.Q t) :
    ∃ r, FieldMorph Real.sqrt (fun x y => x ^ y) image sourceFeatures targetFeatures
        t a b p = some r ∧ r.WF ∧ r.Sized image.mWidth image.mHeight := by
  obtain ⟨r, log, hrun, hsz, _, _⟩ := FieldMorph.morph_spec
    Real.sqrt (fun x y => x ^ y) hwf sourceFeatures targetFeatures t a b p
    (by
      intro x y _ _ _ _
      rw [FieldMorph.samplePoint_eq_spec _ _ _ _ _ _ _ _ _ _ hlen]
      exact Spec.samplePoint_isSome _ _ _ _ _ _ _ ha hlen hne hnd)
  exact ⟨r, by simp [FieldMorph, hrun], FieldMorph.traced_wf hrun, hsz⟩

/-- When the two warps of `MorphImages` return well-formed images of one
size, `MorphImages` returns an image of that size whose pixel at `(x, y)` is
the `colorLerp` of the pixels of the two warped images at `(x, y)`. -/
theorem MorphImages.warps_blend {F : Type} [LinearOrderedField F] [FloorRing F]
    {sqrtf : F → F} {powf : F → F → F} {sourceImage targetImage r1 r2 : STImage}
    {sourceFeatures targetFeatures : List (Feature F)} {t a b p : F} {w h : Int}
    (h1 : FieldMorph sqrtf powf sourceImage sourceFeatures targetFeatures t a b p = some r1)
    (h2 : FieldMorph sqrtf powf targetImage targetFeatures sourceFeatures (1 - t) a b p
      = some r2)
    (hwf1 : r1.WF) (hwf2 : r2.WF) (hs1 : r1.Sized w h) (hs2 : r2.Sized w h) :
    ∃ r, MorphImages sqrtf powf sourceImage sourceFeatures targetImage targetFeatures
        t a b p = some r ∧ r.Sized w h ∧
      ∀ x y : Int, 0 ≤ x → x < w → 0 ≤ y → y < h →
        ∃ p1 p2, p1 ∈ r1.mPixels ∧ p2 ∈ r2.mPixels ∧
          r1.GetPixel x y = some p1 ∧ r2.GetPixel x y = some p2 ∧
          r.GetPixel x y = some (colorLerp p1 p2 t) := by
  obtain ⟨r, hr, hsz, hpix⟩ := BlendImages.pixel_spec hwf1 hwf2 t
  have hmw : min r1.mWidth r2.mWidth = w := by rw [hs1.1, hs2.1, min_self]
  have hmh : min r1.mHeight r2.mHeight = h := by rw [hs1.2.1, hs2.2.1, min_self]
  rw [hmw, hmh] at hsz hpix
  exact ⟨r, by simp [MorphImages, h1, h2, hr], hsz, hpix⟩

/-- At `t = 0` `MorphImages` returns the red, green and blue of the source
image with alpha 255. -/
theorem MorphImages.at_zero (sourceImage targetImage : STImage)
    (hwfs : sourceImage.WF) (hwft : targetImage.WF)
    (hw : targetImage.mWidth = sourceImage.mWidth)
    (hh : targetImage.mHeight = sourceImage.mHeight)
    (sourceFeatures targetFeatures : List (Feature ℝ))
    (hlen : sourceFeatures.length = targetFeatures.length) (hne : sourceFeatures ≠ [])
    (hsrc : ∀ f ∈ sourceFeatures, f.P ≠ f.Q) (htgt : ∀ f ∈ targetFeatures, f.P ≠ f.Q)
    (a b p : ℝ) (ha : 0 < a) :
    ∃ r, MorphImages Real.sqrt (fun x y => x ^ y) sourceImage sourceFeatures
        targetImage targetFeatures 0 a b p = some r ∧
      r.Sized sourceImage.mWidth sourceImage.mHeight ∧
      ∀ x y : Int, 0 ≤ x → x < sourceImage.mWidth → 0 ≤ y → y < sourceImage.mHeight →
        ∃ c, sourceImage.GetPixel x y = some c ∧
          r.GetPixel x y = some ⟨c.r, c.g, c.b, 255⟩ := by
  have hne' : targetFeatures ≠ [] := by
    intro h0
    rw [h0] at hlen
    exact hne (List.length_eq_zero.mp hlen)
  obtain ⟨r1, h1, hwf1, hs1, hp1⟩ := FieldMorph.fixed sourceImage hwfs sourceFeatures
    targetFeatures 0 a b p ha hlen hne
    (by
      intro q hq
      exact ⟨hsrc q.1 (List.of_mem_zip hq).1, by simp [Spec.lerpPoint, Lerp_zero],
        by simp [Spec.lerpPoint, Lerp_zero]⟩)
  obtain ⟨r2, h2, hwf2, hs2⟩ := FieldMorph.defined targetImage hwft targetFeatures
    sourceFeatures (1 - 0) a b p ha hlen.symm hne'
    (by
      intro q hq
      refine ⟨htgt q.1 (List.of_mem_zip hq).1, ?_⟩
      simp only [Spec.lerpPoint, sub_zero, Lerp_one]
      exact hsrc q.2 (List.of_mem_zip hq).2)
  rw [hw, hh] at hs2
  obtain ⟨r, hr, hsz, hpix⟩ := MorphImages.warps_blend h1 h2 hwf1 hwf2 hs1 hs2
  refine ⟨r, hr, hsz, ?_⟩
  intro x y hx0 hxw hy0 hyh
  obtain ⟨c, hc, hr1⟩ := hp1 x y hx0 hxw hy0 hyh
  obtain ⟨p1, p2, hm1, _, hg1, _, hg⟩ := hpix x y hx0 hxw hy0 hyh
  rw [hr1] at hg1
  cases hg1
  obtain ⟨br, bg, bb, _⟩ := hwf1.2.2.2 _ hm1
  exact ⟨c, hc, by rw [hg, colorLerp_zero _ _ br bg bb]⟩

/-- At `t = 1` `MorphImages` returns the red, green and blue of the target
image with alpha 255. -/
theorem MorphImages.at_one (sourceImage targetImage : STImage)
    (hwfs : sourceImage.WF) (hwft : targetImage.WF)
    (hw : targetImage.mWidth = sourceImage.mWidth)
    (hh : targetImage.mHeight = sourceImage.mHeight)
    (sourceFeatures targetFeatures : List (Feature ℝ))
    (hlen : sourceFeatures.length = targetFeatures.length) (hne : sourceFeatures ≠ [])
    (hsrc : ∀ f ∈ sourceFeatures, f.P ≠ f.Q) (htgt : ∀ f ∈ targetFeatures, f.P ≠ f.Q)
    (a b p : ℝ) (ha : 0 < a) :
    ∃ r, MorphImages Real.sqrt (fun x y => x ^ y) sourceImage sourceFeatures
        targetImage targetFeatures 1 a b p = some r ∧
      r.Sized targetImage.mWidth targetImage.mHeight ∧
      ∀ x y : Int, 0 ≤ x → x < targetImage.mWidth → 0 ≤ y → y < targetImage.mHeight →
        ∃ c, targetImage.GetPixel x y = some c ∧
          r.GetPixel x y = some ⟨c.r, c.g, c.b, 255⟩ := by
  have hne' : targetFeatures ≠ [] := by
    intro h0
    rw [h0] at hlen
    exact hne (List.length_eq_zero.mp hlen)
  obtain ⟨r1, h1, hwf1, hs1⟩ := FieldMorph.defined sourceImage hwfs sourceFeatures
    targetFeatures 1 a b p ha hlen hne
    (by
      intro q hq
      refine ⟨hsrc q.1 (List.of_mem_zip hq).1, ?_⟩
      simp only [Spec.lerpPoint, Lerp_one]
      exact htgt q.2 (List.of_mem_zip hq).2)
  obtain ⟨r2, h2, hwf2, hs2, hp2⟩ := FieldMorph.fixed targetImage hwft targetFeatures
    sourceFeatures (1 - 1) a b p ha hlen.symm hne'
    (by
      intro q hq
      exact ⟨htgt q.1 (List.of_mem_zip hq).1, by simp [Spec.lerpPoint, Lerp_zero],
        by simp [Spec.lerpPoint, Lerp_zero]⟩)
  rw [← hw, ← hh] at hs1
  obtain ⟨r, hr, hsz, hpix⟩ := MorphImages.warps_blend h1 h2 hwf1 hwf2 hs1 hs2
  refine ⟨r, hr, hsz, ?_⟩
  intro x y hx0 hxw hy0 hyh
  obtain ⟨c, hc, hr2⟩ := hp2 x y hx0 hxw hy0 hyh
  obtain ⟨p1, p2, _, hm2, _, hg2, hg⟩ := hpix x y hx0 hxw hy0 hyh
  rw [hr2] at hg2
  cases hg2
  obtain ⟨br, bg, bb, _⟩ := hwf2.2.2.2 _ hm2
  exact ⟨c, hc, by rw [hg, colorLerp_one _ _ br bg bb]⟩

/-- With the same features on both sides, `MorphImages` blends the red, green
and blue of the two images pixel by pixel. -/
theorem MorphImages.same_features (sourceImage targetImage : STImage)
    (hwfs : sourceImage.WF) (hwft : targetImage.WF)
    (hw : targetImage.mWidth = sourceImage.mWidth)
    (hh : targetImage.mHeight = sourceImage.mHeight)
    (features : List (Feature ℝ)) (hne : features ≠ [])
    (hnd : ∀ f ∈ features, f.P ≠ f.Q) (t a b p : ℝ) (ha : 0 < a) :
    ∃ r, MorphImages Real.sqrt (fun x y => x ^ y) sourceImage features
        targetImage features t a b p = some r ∧
      r.Sized sourceImage.mWidth sourceImage.mHeight ∧
      ∀ x y : Int, 0 ≤ x → x < sourceImage.mWidth → 0 ≤ y → y < sourceImage.mHeight →
        ∃ c1 c2, sourceImage.GetPixel x y = some c1 ∧ targetImage.GetPixel x y = some c2 ∧
          r.GetPixel x y = some
            (colorLerp ⟨c1.r, c1.g, c1.b, 255⟩ ⟨c2.r, c2.g, c2.b, 255⟩ t) := by
  have hfix : ∀ s : ℝ, ∀ q ∈ List.zip features features,
      q.1.P ≠ q.1.Q ∧ Spec.lerpPoint q.1.P q.2.P s = q.1.P ∧
        Spec.lerpPoint q.1.Q q.2.Q s = q.1.Q := by
    intro s q hq
    obtain ⟨hmem, h2⟩ := mem_zip_self features q hq
    exact ⟨hnd q.1 hmem, by simp [h2, Spec.lerpPoint, Lerp_self],
      by simp [h2, Spec.lerpPoint, Lerp_self]⟩
  obtain ⟨r1, h1, hwf1, hs1, hp1⟩ := FieldMorph.fixed sourceImage hwfs features
    features t a b p ha rfl hne (hfix t)
  obtain ⟨r2, h2, hwf2, hs2, hp2⟩ := FieldMorph.fixed targetImage hwft features
    features (1 - t) a b p ha rfl hne (hfix (1 - t))
  rw [hw, hh] at hs2 hp2
  obtain ⟨r, hr, hsz, hpix⟩ := MorphImages.warps_blend h1 h2 hwf1 hwf2 hs1 hs2
  refine ⟨r, hr, hsz, ?_⟩
  intro x y hx0 hxw hy0 hyh
  obtain ⟨c1, hc1, hr1⟩ := hp1 x y hx0 hxw hy0 hyh
  obtain ⟨c2, hc2, hr2⟩ := hp2 x y hx0 hxw hy0 hyh
  obtain ⟨p1, p2, _, _, hg1, hg2, hg⟩ := hpix x y hx0 hxw hy0 hyh
  rw [hr1] at hg1
  rw [hr2] at hg2
  cases hg1
  cases hg2
  exact ⟨c1, c2, hc1, hc2, hg⟩

end MorphImagesLemmas

/-! ## `GenerateMorphFrames` -/

section FrameLemmas

variable {F : Type} [LinearOrderedField F] [FloorRing F]

/-- When `MorphImages` returns an image at every parameter the loop passes,
`GenerateMorphFrames` runs through all `kFrames + 1` iterations: frame `i` is
named `frameName i`, its parameter is `ease (i / 30)`, its image is what
`MorphImages` returned and its status what `Save` returned. -/
theorem GenerateMorphFrames.frames_spec (sqrtf : F → F) (powf : F → F → F)
    (Save : STImage → String → Int)
    (sourceImage : STImage) (sourceFeatures : List (Feature F))
    (targetImage : STImage) (targetFeatures : List (Feature F)) (a b p : F)
    (hM : ∀ i : Nat, i ≤ kFrames →
      ∃ r, MorphImages sqrtf powf sourceImage sourceFeatures targetImage targetFeatures
        (GenerateMorphFrames.ease powf ((i : F) / 30)) a b p = some r) :
    ∃ frames, GenerateMorphFrames sqrtf powf Save sourceImage sourceFeatures
        targetImage targetFeatures a b p = some frames ∧
      frames.map (fun fr => fr.name) =
        (List.range (kFrames + 1)).map GenerateMorphFrames.frameName ∧
      frames.map (fun fr => fr.ease_t) =
        (List.range (kFrames + 1)).map
          (fun i : Nat => GenerateMorphFrames.ease powf ((i : F) / 30)) ∧
      ∀ fr ∈ frames,
        MorphImages sqrtf powf sourceImage sourceFeatures targetImage targetFeatures
          fr.ease_t a b p = some fr.image ∧ fr.status = Save fr.image fr.name := by
  obtain ⟨st, hst, ht, hn, he, hall⟩ := foldlM_range_inv
    (GenerateMorphFrames.body sqrtf powf Save sourceImage sourceFeatures
      targetImage targetFeatures a b p)
    (fun (n : Nat) (st : F × List (Frame F)) =>
      st.1 = (n : F) / 30 ∧
      st.2.map (fun fr => fr.name) = (List.range n).map GenerateMorphFrames.frameName ∧
      st.2.map (fun fr => fr.ease_t) =
        (List.range n).map (fun i : Nat => GenerateMorphFrames.ease powf ((i : F) / 30)) ∧
      ∀ fr ∈ st.2,
        MorphImages sqrtf powf sourceImage sourceFeatures targetImage targetFeatures
          fr.ease_t a b p = some fr.image ∧ fr.status = Save fr.image fr.name)
    (kFrames + 1) (0, [])
    (by simp)
    (by
      rintro n st hn ⟨ht, hnames, heases, hall⟩
      obtain ⟨r, hr⟩ := hM n (Nat.lt_succ_iff.mp hn)
      refine ⟨(st.1 + 1 / 30, st.2 ++ [⟨GenerateMorphFrames.frameName n,
        GenerateMorphFrames.ease powf st.1, r,
        Save r (GenerateMorphFrames.frameName n)⟩]), ?_, ?_, ?_, ?_, ?_⟩
      · unfold GenerateMorphFrames.body
        simp only [ht, hr]
      · simp only [ht]
        push_cast
        ring
      · simp only [List.map_append, hnames, List.range_succ, List.map_cons, List.map_nil]
      · simp only [List.map_append, heases, List.range_succ, List.map_cons, List.map_nil, ht]
      · intro fr hfr
        rcases List.mem_append.mp hfr with h | h
        · exact hall fr h
        · simp only [List.mem_singleton] at h
          subst h
          exact ⟨by rw [ht]; exact hr, rfl⟩)
  exact ⟨st.2, by simp [GenerateMorphFrames, hst], hn, he, hall⟩

end FrameLemmas

/-! ## The easing, and loading the features -/

section EaseLoadLemmas

/-- With the real power for `powf`, the expression of `GenerateMorphFrames` is
the easing transform of the specification. -/
theorem GenerateMorphFrames.ease_eq (t : ℝ) :
    GenerateMorphFrames.ease (fun x y : ℝ => x ^ y) t = Spec.ease t := by
  unfold GenerateMorphFrames.ease Spec.ease
  simp only [Real.rpow_two]

theorem Spec.ease_mono {s t : ℝ} (hs : 0 ≤ s) (hst : s ≤ t) (ht : t ≤ 1) :
    Spec.ease s ≤ Spec.ease t := by
  unfold Spec.ease
  have h0 : 0 ≤ t := le_trans hs hst
  have h1 : s ≤ 1 := le_trans hst ht
  nlinarith [mul_nonneg (sub_nonneg.mpr hst) (mul_nonneg h0 (sub_nonneg.mpr ht)),
    mul_nonneg (sub_nonneg.mpr hst) (mul_nonneg hs (sub_nonneg.mpr h1)),
    mul_nonneg (sub_nonneg.mpr hst) (mul_nonneg hs (sub_nonneg.mpr ht)),
    mul_nonneg (sub_nonneg.mpr hst) (mul_nonneg h0 (sub_nonneg.mpr h1))]

theorem colorLerp_red_blue :
    colorLerp ⟨255, 0, 0, 255⟩ ⟨0, 0, 255, 255⟩ (1 / 2 : ℝ) = ⟨127, 0, 127, 255⟩ := by
  have h127 : toComponent ((255 : ℝ) / 2) = 127 := by
    apply toComponent_of_floor (by norm_num) _ (by norm_num)
    rw [Int.floor_eq_iff]
    constructor <;> norm_num
  have h0 : toComponent (0 : ℝ) = 0 := by
    apply toComponent_of_floor (le_refl _) _ (by norm_num)
    simp
  have e1 : Lerp ((255 : Nat) : ℝ) ((0 : Nat) : ℝ) (1 / 2) = 255 / 2 := by
    unfold Lerp
    norm_num
  have e2 : Lerp ((0 : Nat) : ℝ) ((255 : Nat) : ℝ) (1 / 2) = 255 / 2 := by
    unfold Lerp
    norm_num
  have e3 : Lerp ((0 : Nat) : ℝ) ((0 : Nat) : ℝ) (1 / 2) = 0 := by
    unfold Lerp
    norm_num
  simp only [colorLerp, e1, e2, e3, h127, h0]

variable {F : Type}

/-- The callback only appends: a feature in one of the two lists stays. -/
theorem AddFeatureCallback_mem (p q : STPoint2 F) (image : ImageChoice) (g : Globals F)
    (f : Feature F) (hf : f ∈ g.gSourceFeatures ∨ f ∈ g.gTargetFeatures) :
    f ∈ (AddFeatureCallback p q image g).gSourceFeatures ∨
      f ∈ (AddFeatureCallback p q image g).gTargetFeatures := by
  unfold AddFeatureCallback
  cases image <;> simp <;> tauto

/-- The callback adds the feature `(p, q)` to at least one list, whatever `p`
and `q` are. -/
theorem AddFeatureCallback_adds (p q : STPoint2 F) (image : ImageChoice) (g : Globals F) :
    (⟨p, q⟩ : Feature F) ∈ (AddFeatureCallback p q image g).gSourceFeatures ∨
      (⟨p, q⟩ : Feature F) ∈ (AddFeatureCallback p q image g).gTargetFeatures := by
  unfold AddFeatureCallback
  cases image <;> simp

/-- A feature in one of the two lists is still there after any further
records are loaded. -/
theorem loadLineEditorFile.step_mem (loadImage : String → Option STImage)
    (f : Feature F) (r : Record F) (st st' : LoadState (Globals F))
    (hf : f ∈ st.globals.gSourceFeatures ∨ f ∈ st.globals.gTargetFeatures)
    (hstep : loadLineEditorFile.step AddFeatureCallback loadImage st r = some st') :
    f ∈ st'.globals.gSourceFeatures ∨ f ∈ st'.globals.gTargetFeatures := by
  unfold loadLineEditorFile.step at hstep
  cases r with
  | background1 fname =>
    simp only at hstep
    split at hstep
    · cases hstep
      exact hf
    · cases hstep
  | background2 fname =>
    simp only at hstep
    split at hstep
    · cases hstep
      exact hf
    · cases hstep
  | line p1x p1y p2x p2y =>
    simp only [Option.some.injEq] at hstep
    subst hstep
    exact AddFeatureCallback_mem _ _ _ _ f hf
  | other =>
    simp only [Option.some.injEq] at hstep
    subst hstep
    exact hf

/-- Every `line` record of a file that loads puts its feature, degenerate or
not, into `gSourceFeatures` or `gTargetFeatures`. -/
theorem loadLineEditorFile.line_mem (loadImage : String → Option STImage)
    (pre post : List (Record F)) (p1x p1y p2x p2y : F)
    (im1 im2 : Option STImage) (g : Globals F) (st : LoadState (Globals F))
    (hload : loadLineEditorFile AddFeatureCallback loadImage
      (pre ++ Record.line p1x p1y p2x p2y :: post) im1 im2 g = some st) :
    (⟨⟨p1x, p1y⟩, ⟨p2x, p2y⟩⟩ : Feature F) ∈ st.globals.gSourceFeatures ∨
      (⟨⟨p1x, p1y⟩, ⟨p2x, p2y⟩⟩ : Feature F) ∈ st.globals.gTargetFeatures := by
  unfold loadLineEditorFile at hload
  rw [List.foldlM_append] at hload
  cases h1 : List.foldlM (loadLineEditorFile.step AddFeatureCallback loadImage)
      (⟨ImageChoice.BOTH_IMAGES, im1, im2, g⟩ : LoadState (Globals F)) pre with
  | none => simp [h1] at hload
  | some s1 =>
    simp only [h1, Option.some_bind, Option.bind_eq_bind, List.foldlM_cons] at hload
    simp only [loadLineEditorFile.step, Option.some_bind] at hload
    exact foldlM_some_inv _
      (fun s : LoadState (Globals F) =>
        (⟨⟨p1x, p1y⟩, ⟨p2x, p2y⟩⟩ : Feature F) ∈ s.globals.gSourceFeatures ∨
          (⟨⟨p1x, p1y⟩, ⟨p2x, p2y⟩⟩ : Feature F) ∈ s.globals.gTargetFeatures)
      (fun r s s' hs hstep => loadLineEditorFile.step_mem loadImage _ r s s' hs hstep)
      post _ st (AddFeatureCallback_adds _ _ _ _) hload

end EaseLoadLemmas

/-- For `0 <= t <= 1` the 8-bit value `colorLerp` stores for a channel is the
integer part of `c1 + t*(c2 - c1)`. -/
theorem channel_floor {F : Type} [LinearOrderedField F] [FloorRing F] {n1 n2 : Nat}
    (h1 : n1 < 256) (h2 : n2 < 256) {t : F} (ht0 : 0 ≤ t) (ht1 : t ≤ 1) :
    ((toComponent (Lerp (n1 : F) (n2 : F) t) : Nat) : Int) =
      ⌊(n1 : F) + t * ((n2 : F) - (n1 : F))⌋ := by
  have b1 : (n1 : F) ≤ 255 := by
    have : n1 ≤ 255 := by omega
    exact_mod_cast this
  have b2 : (n2 : F) ≤ 255 := by
    have : n2 ≤ 255 := by omega
    exact_mod_cast this
  obtain ⟨hlo, hhi⟩ := Lerp_bounds ht0 ht1 (Nat.cast_nonneg n1) b1 (Nat.cast_nonneg n2) b2
  have := toComponent_cast_floor hlo (lt_of_le_of_lt hhi (by norm_num))
  rw [this]
  rfl

/-! ## The claims, continued -/

/-- C11, counterexample.  On binary32 floats, blending the 1 by 1 image whose
pixel is `(0, 0, 0, 0)` with the one whose pixel is `(10, 100, 200, 0)` at
`t = 0.7f` gives the pixel `(7, 70, 140, 255)`: the alpha is 255, whereas the
8-bit value of `c1 + t*(c2 - c1)` for the alpha channel is 0; and the red is 7,
whereas the exact value of `0 + t*(10 - 0)` at `t = 0.7f` is below 7 and its
integer part is 6. -/
theorem BlendImages_alpha_counterexample :
    Example.dark.GetPixel 0 0 = some ⟨0, 0, 0, 0⟩ ∧
    Example.light.GetPixel 0 0 = some ⟨10, 100, 200, 0⟩ ∧
    F32.ofRat (7 / 10) = F32.fin (11744051 / 16777216) ∧
    Machine.BlendImages Example.ieee Example.dark Example.light (F32.ofRat (7 / 10)) =
      some ⟨1, 1, [⟨7, 70, 140, 255⟩]⟩ ∧
    toComponent (((0 : Nat) : ℚ) + 11744051 / 16777216 *
      (((10 : Nat) : ℚ) - ((0 : Nat) : ℚ))) = 6 ∧
    toComponent (((0 : Nat) : ℚ) + 11744051 / 16777216 *
      (((0 : Nat) : ℚ) - ((0 : Nat) : ℚ))) = 0 := by
  decide!

/-- C12, counterexample.  Blending the 1 by 1 image whose pixel is
`(10, 20, 30, 0)` with itself at `t = 1/3` gives an image whose pixel is
`(10, 20, 30, 255)`, which is not the input image. -/
theorem BlendImages_self_counterexample :
    BlendImages Example.transparent Example.transparent (1 / 3 : ℚ) =
      some ⟨1, 1, [⟨10, 20, 30, 255⟩]⟩ ∧
    (⟨1, 1, [⟨10, 20, 30, 255⟩]⟩ : STImage) ≠ Example.transparent := by
  decide!

/-- C12, amended.  For every well-formed image `img` and every `t`,
`BlendImages(img, img, t)` has the size of `img` and at every pixel the red,
green and blue of `img`, with alpha 255. -/
theorem BlendImages_self {F : Type} [LinearOrderedField F] [FloorRing F]
    (img : STImage) (hwf : img.WF) (t : F) :
    ∃ r, BlendImages img img t = some r ∧
      r.mWidth = img.mWidth ∧ r.mHeight = img.mHeight ∧
      ∀ x y : Int, 0 ≤ x → x < img.mWidth → 0 ≤ y → y < img.mHeight →
        ∃ c, img.GetPixel x y = some c ∧ r.GetPixel x y = some ⟨c.r, c.g, c.b, 255⟩ := by
  obtain ⟨r, hr, hsz, hpix⟩ := BlendImages.pixel_spec hwf hwf t
  rw [min_self, min_self] at hsz hpix
  refine ⟨r, hr, hsz.1, hsz.2.1, ?_⟩
  intro x y hx0 hxw hy0 hyh
  obtain ⟨p1, p2, hm1, _, h1, h2, hg⟩ := hpix x y hx0 hxw hy0 hyh
  rw [h1] at h2
  cases h2
  obtain ⟨br, bg, bb, _⟩ := hwf.2.2.2 p1 hm1
  exact ⟨p1, h1, by rw [hg, colorLerp_self br bg bb]⟩

/-- C12, witness: a 2 by 2 image blended with itself at `t = 2/3`. -/
theorem BlendImages_self_witness :
    Example.opaque2.WF ∧
    ∃ r, BlendImages Example.opaque2 Example.opaque2 (2 / 3 : ℚ) = some r ∧
      r.mWidth = Example.opaque2.mWidth ∧ r.mHeight = Example.opaque2.mHeight ∧
      ∀ x y : Int, 0 ≤ x → x < Example.opaque2.mWidth → 0 ≤ y →
        y < Example.opaque2.mHeight →
        ∃ c, Example.opaque2.GetPixel x y = some c ∧
          r.GetPixel x y = some ⟨c.r, c.g, c.b, 255⟩ :=
  ⟨by decide, BlendImages_self Example.opaque2 (by decide) (2 / 3)⟩

/-- C13, counterexample.  With `imgA` the 1 by 1 image whose pixel is
`(10, 20, 30, 0)` and `imgB` the 1 by 1 image whose pixel is
`(200, 100, 50, 255)`, `BlendImages(imgA, imgB, 0)` and `BlendImages(imgB, imgA, 1)`
both have the pixel `(10, 20, 30, 255)` and so are not `imgA`. -/
theorem BlendImages_endpoints_counterexample :
    BlendImages Example.transparent Example.opaque1 (0 : ℚ) =
      some ⟨1, 1, [⟨10, 20, 30, 255⟩]⟩ ∧
    BlendImages Example.opaque1 Example.transparent (1 : ℚ) =
      some ⟨1, 1, [⟨10, 20, 30, 255⟩]⟩ ∧
    (⟨1, 1, [⟨10, 20, 30, 255⟩]⟩ : STImage) ≠ Example.transparent := by
  decide!

/-- C13, amended.  For every pair of well-formed images `imgA` and `imgB` of
the same size, `BlendImages(imgA, imgB, 0)` has at every pixel the red, green
and blue of `imgA`, `BlendImages(imgA, imgB, 1)` those of `imgB`, and both have
alpha 255 everywhere. -/
theorem BlendImages_endpoints {F : Type} [LinearOrderedField F] [FloorRing F]
    (imgA imgB : STImage) (hwfA : imgA.WF) (hwfB : imgB.WF)
    (hw : imgB.mWidth = imgA.mWidth) (hh : imgB.mHeight = imgA.mHeight) :
    (∃ r, BlendImages imgA imgB (0 : F) = some r ∧
      r.mWidth = imgA.mWidth ∧ r.mHeight = imgA.mHeight ∧
      ∀ x y : Int, 0 ≤ x → x < imgA.mWidth → 0 ≤ y → y < imgA.mHeight →
        ∃ c, imgA.GetPixel x y = some c ∧ r.GetPixel x y = some ⟨c.r, c.g, c.b, 255⟩) ∧
    (∃ r, BlendImages imgA imgB (1 : F) = some r ∧
      r.mWidth = imgA.mWidth ∧ r.mHeight = imgA.mHeight ∧
      ∀ x y : Int, 0 ≤ x → x < imgA.mWidth → 0 ≤ y → y < imgA.mHeight →
        ∃ c, imgB.GetPixel x y = some c ∧ r.GetPixel x y = some ⟨c.r, c.g, c.b, 255⟩) := by
  constructor
  · obtain ⟨r, hr, hsz, hpix⟩ := BlendImages.pixel_spec (F := F) hwfA hwfB 0
    rw [hw, hh, min_self, min_self] at hsz hpix
    refine ⟨r, hr, hsz.1, hsz.2.1, ?_⟩
    intro x y hx0 hxw hy0 hyh
    obtain ⟨p1, p2, hm1, _, h1, _, hg⟩ := hpix x y hx0 hxw hy0 hyh
    obtain ⟨br, bg, bb, _⟩ := hwfA.2.2.2 p1 hm1
    exact ⟨p1, h1, by rw [hg, colorLerp_zero _ _ br bg bb]⟩
  · obtain ⟨r, hr, hsz, hpix⟩ := BlendImages.pixel_spec (F := F) hwfA hwfB 1
    rw [hw, hh, min_self, min_self] at hsz hpix
    refine ⟨r, hr, hsz.1, hsz.2.1, ?_⟩
    intro x y hx0 hxw hy0 hyh
    obtain ⟨p1, p2, _, hm2, _, h2, hg⟩ := hpix x y hx0 hxw hy0 hyh
    obtain ⟨br, bg, bb, _⟩ := hwfB.2.2.2 p2 hm2
    exact ⟨p2, h2, by rw [hg, colorLerp_one _ _ br bg bb]⟩

/-- C13, witness: the 4 by 4 red and blue images. -/
theorem BlendImages_endpoints_witness :
    Example.red4.WF ∧ Example.blue4.WF ∧
    ∃ r, BlendImages Example.red4 Example.blue4 (1 : ℚ) = some r ∧
      r.mWidth = Example.red4.mWidth ∧ r.mHeight = Example.red4.mHeight ∧
      ∀ x y : Int, 0 ≤ x → x < Example.red4.mWidth → 0 ≤ y → y < Example.red4.mHeight →
        ∃ c, Example.blue4.GetPixel x y = some c ∧
          r.GetPixel x y = some ⟨c.r, c.g, c.b, 255⟩ :=
  ⟨by decide, by decide,
    (BlendImages_endpoints (F := ℚ) Example.red4 Example.blue4 (by decide) (by decide)
      rfl rfl).2⟩

/-- C14, counterexample.  On binary32 floats, with the 2 by 1 image with
pixels `(10, 20, 30, 0)` and `(40, 50, 60, 255)` as source and as target, the
feature `(0,0) -> (3,4)` in both lists and `a = 0.5`, `b = 1`, `p = 0`,
`MorphImages` at `t = 0` returns the pixels `(10, 20, 30, 255)` and
`(0, 0, 0, 255)`: the alpha of the first is not the source's, and the second,
whose sample point `(1, -2^-25)` in the warp of the source falls below the
image by a rounding error, has none of the source's colour. -/
theorem MorphImages_endpoint_counterexample :
    Example.pair.GetPixel 0 0 = some ⟨10, 20, 30, 0⟩ ∧
    Example.pair.GetPixel 1 0 = some ⟨40, 50, 60, 255⟩ ∧
    Machine.MorphImages Example.ieee Example.pair [Example.feature32 0 0 3 4]
        Example.pair [Example.feature32 0 0 3 4]
        (F32.ofInt 0) (F32.ofRat (1 / 2)) (F32.ofInt 1) (F32.ofInt 0) =
      some ⟨1, 2, [⟨10, 20, 30, 255⟩, ⟨0, 0, 0, 255⟩]⟩ := by
  decide!

/-- C14, amended.  Morph endpoints in exact arithmetic (over the reals, with
the real square root and power): for well-formed source and target images of
the same size, equal-length lists of `N >= 1` features with `P != Q` and
`a > 0`, `MorphImages` at `t = 0` returns an image whose every pixel has the
red, green and blue of the source image's pixel and alpha 255, and at `t = 1`
an image whose every pixel has the red, green and blue of the target image's
pixel and alpha 255. -/
theorem MorphImages_endpoints (sourceImage targetImage : STImage)
    (hwfs : sourceImage.WF) (hwft : targetImage.WF)
    (hw : targetImage.mWidth = sourceImage.mWidth)
    (hh : targetImage.mHeight = sourceImage.mHeight)
    (sourceFeatures targetFeatures : List (Feature ℝ))
    (hlen : sourceFeatures.length = targetFeatures.length) (hne : sourceFeatures ≠ [])
    (hsrc : ∀ f ∈ sourceFeatures, f.P ≠ f.Q) (htgt : ∀ f ∈ targetFeatures, f.P ≠ f.Q)
    (a b p : ℝ) (ha : 0 < a) :
    (∃ r, MorphImages Real.sqrt (fun x y => x ^ y) sourceImage sourceFeatures
        targetImage targetFeatures 0 a b p = some r ∧
      r.mWidth = sourceImage.mWidth ∧ r.mHeight = sourceImage.mHeight ∧
      ∀ x y : Int, 0 ≤ x → x < sourceImage.mWidth → 0 ≤ y → y < sourceImage.mHeight →
        ∃ c, sourceImage.GetPixel x y = some c ∧
          r.GetPixel x y = some ⟨c.r, c.g, c.b, 255⟩) ∧
    (∃ r, MorphImages Real.sqrt (fun x y => x ^ y) sourceImage sourceFeatures
        targetImage targetFeatures 1 a b p = some r ∧
      r.mWidth = targetImage.mWidth ∧ r.mHeight = targetImage.mHeight ∧
      ∀ x y : Int, 0 ≤ x → x < targetImage.mWidth → 0 ≤ y → y < targetImage.mHeight →
        ∃ c, targetImage.GetPixel x y = some c ∧
          r.GetPixel x y = some ⟨c.r, c.g, c.b, 255⟩) := by
  constructor
  · obtain ⟨r, hr, hsz, hpix⟩ := MorphImages.at_zero sourceImage targetImage hwfs hwft hw hh
      sourceFeatures targetFeatures hlen hne hsrc htgt a b p ha
    exact ⟨r, hr, hsz.1, hsz.2.1, hpix⟩
  · obtain ⟨r, hr, hsz, hpix⟩ := MorphImages.at_one sourceImage targetImage hwfs hwft hw hh
      sourceFeatures targetFeatures hlen hne hsrc htgt a b p ha
    exact ⟨r, hr, hsz.1, hsz.2.1, hpix⟩

/-- C14, witness: the red and blue 4 by 4 images, morphed from the feature
`(0,0) -> (1,0)` to the feature `(0,0) -> (0,2)`, at `t = 1`. -/
theorem MorphImages_endpoints_witness :
    Example.red4.WF ∧ Example.blue4.WF ∧ (0 : ℝ) < 1 / 2 ∧
    ∃ r, MorphImages Real.sqrt (fun x y => x ^ y) Example.red4 [Example.seg ℝ]
        Example.blue4 [Example.seg2 ℝ] 1 (1 / 2) 1 (1 / 5) = some r ∧
      r.mWidth = Example.blue4.mWidth ∧ r.mHeight = Example.blue4.mHeight ∧
      ∀ x y : Int, 0 ≤ x → x < Example.blue4.mWidth → 0 ≤ y → y < Example.blue4.mHeight →
        ∃ c, Example.blue4.GetPixel x y = some c ∧
          r.GetPixel x y = some ⟨c.r, c.g, c.b, 255⟩ :=
  ⟨by decide, by decide, by norm_num,
    (MorphImages_endpoints Example.red4 Example.blue4 (by decide) (by decide) rfl rfl
      [Example.seg ℝ] [Example.seg2 ℝ] rfl (by simp) (by simp [Example.seg])
      (by simp [Example.seg2]) (1 / 2) 1 (1 / 5) (by norm_num)).2⟩

/-- C16.  End-to-end scenario: for the 4 by 4 image filled with red
`(255, 0, 0, 255)`, the 4 by 4 image filled with blue `(0, 0, 255, 255)` and
the single feature `P = (0, 0)`, `Q = (4, 0)` in both feature lists,
`MorphImages` at `t = 1/2` with `a = 1/2`, `b = 1`, `p = 1/5` returns a 4 by 4
image in which every pixel is `(r, 0, b, 255)` with `r` and `b` each 127 or
128; in fact every pixel is `(127, 0, 127, 255)`. -/
theorem MorphImages_red_blue_scenario :
    ∃ r, MorphImages Real.sqrt (fun x y => x ^ y) Example.red4 [Example.seg4 ℝ]
        Example.blue4 [Example.seg4 ℝ] (1 / 2) (1 / 2) 1 (1 / 5) = some r ∧
      r.mWidth = 4 ∧ r.mHeight = 4 ∧
      ∀ x y : Int, 0 ≤ x → x < 4 → 0 ≤ y → y < 4 →
        ∃ c, r.GetPixel x y = some c ∧ (c.r = 127 ∨ c.r = 128) ∧ c.g = 0 ∧
          (c.b = 127 ∨ c.b = 128) ∧ c.a = 255 ∧ c = ⟨127, 0, 127, 255⟩ := by
  obtain ⟨r, hr, hsz, hpix⟩ := MorphImages.same_features Example.red4 Example.blue4
    (by decide) (by decide) rfl rfl [Example.seg4 ℝ] (by simp)
    (by simp [Example.seg4]) (1 / 2) (1 / 2) 1 (1 / 5) (by norm_num)
  refine ⟨r, hr, hsz.1, hsz.2.1, ?_⟩
  intro x y hx0 hxw hy0 hyh
  obtain ⟨c1, c2, h1, h2, hg⟩ := hpix x y hx0 hxw hy0 hyh
  obtain ⟨q1, hq1, hm1⟩ := STImage.GetPixel_isSome
    (show Example.red4.Sized 4 4 from ⟨rfl, rfl, by decide⟩) hx0 hxw hy0 hyh
  obtain ⟨q2, hq2, hm2⟩ := STImage.GetPixel_isSome
    (show Example.blue4.Sized 4 4 from ⟨rfl, rfl, by decide⟩) hx0 hxw hy0 hyh
  rw [h1] at hq1
  rw [h2] at hq2
  cases hq1
  cases hq2
  have e1 : c1 = ⟨255, 0, 0, 255⟩ := List.eq_of_mem_replicate hm1
  have e2 : c2 = ⟨0, 0, 255, 255⟩ := List.eq_of_mem_replicate hm2
  subst e1 e2
  rw [colorLerp_red_blue] at hg
  exact ⟨_, hg, Or.inl rfl, rfl, Or.inl rfl, rfl, rfl⟩

/-- C17.  When `MorphImages` returns an image at every parameter the loop
passes, `GenerateMorphFrames` with `kFrames = 30` hands exactly 31 frames to
`Save`, one for each `i = 0, 1, ..., 30` in increasing order, under the names
`frame000.png` ... `frame030.png`, and it does so for every `Save`, whatever
status each call returns. -/
theorem GenerateMorphFrames_saves_all_frames {F : Type} [LinearOrderedField F]
    [FloorRing F] (sqrtf : F → F) (powf : F → F → F)
    (sourceImage : STImage) (sourceFeatures : List (Feature F))
    (targetImage : STImage) (targetFeatures : List (Feature F)) (a b p : F)
    (hM : ∀ i : Nat, i ≤ kFrames →
      ∃ r, MorphImages sqrtf powf sourceImage sourceFeatures targetImage targetFeatures
        (GenerateMorphFrames.ease powf ((i : F) / 30)) a b p = some r) :
    ∀ Save : STImage → String → Int,
      ∃ frames, GenerateMorphFrames sqrtf powf Save sourceImage sourceFeatures
          targetImage targetFeatures a b p = some frames ∧
        frames.length = 31 ∧
        frames.map (fun fr => fr.name) =
          (List.range 31).map GenerateMorphFrames.frameName ∧
        frames.map (fun fr => fr.name) =
          ["frame000.png", "frame001.png", "frame002.png", "frame003.png", "frame004.png",
           "frame005.png", "frame006.png", "frame007.png", "frame008.png", "frame009.png",
           "frame010.png", "frame011.png", "frame012.png", "frame013.png", "frame014.png",
           "frame015.png", "frame016.png", "frame017.png", "frame018.png", "frame019.png",
           "frame020.png", "frame021.png", "frame022.png", "frame023.png", "frame024.png",
           "frame025.png", "frame026.png", "frame027.png", "frame028.png", "frame029.png",
           "frame030.png"] ∧
        ∀ fr ∈ frames, fr.status = Save fr.image fr.name := by
  intro Save
  obtain ⟨frames, hrun, hnames, _, hall⟩ := GenerateMorphFrames.frames_spec sqrtf powf Save
    sourceImage sourceFeatures targetImage targetFeatures a b p hM
  have hk : kFrames + 1 = 31 := rfl
  rw [hk] at hnames
  refine ⟨frames, hrun, ?_, hnames, ?_, fun fr hfr => (hall fr hfr).2⟩
  · have := congrArg List.length hnames
    simpa using this
  · rw [hnames]
    decide

/-- With the same non-degenerate features on both sides and `a > 0`,
`MorphImages` returns an image at every `t`. -/
theorem MorphImages.same_features_isSome (sourceImage targetImage : STImage)
    (hwfs : sourceImage.WF) (hwft : targetImage.WF)
    (hw : targetImage.mWidth = sourceImage.mWidth)
    (hh : targetImage.mHeight = sourceImage.mHeight)
    (features : List (Feature ℝ)) (hne : features ≠ [])
    (hnd : ∀ f ∈ features, f.P ≠ f.Q) (t a b p : ℝ) (ha : 0 < a) :
    ∃ r, MorphImages Real.sqrt (fun x y => x ^ y) sourceImage features
        targetImage features t a b p = some r := by
  obtain ⟨r, hr, _⟩ := MorphImages.same_features sourceImage targetImage hwfs hwft hw hh
    features hne hnd t a b p ha
  exact ⟨r, hr⟩

/-- C17, witness: the red and blue 4 by 4 images with one feature, and a `Save`
that fails every time. -/
theorem GenerateMorphFrames_saves_all_frames_witness :
    ∃ frames, GenerateMorphFrames Real.sqrt (fun x y => x ^ y) Example.saveFails
        Example.red4 [Example.seg4 ℝ] Example.blue4 [Example.seg4 ℝ] (1 / 2) 1 (1 / 5)
        = some frames ∧
      frames.length = 31 ∧ ∀ fr ∈ frames, fr.status = 1 := by
  obtain ⟨frames, hrun, hlen, _, _, hst⟩ := GenerateMorphFrames_saves_all_frames
    Real.sqrt (fun x y => x ^ y) Example.red4 [Example.seg4 ℝ] Example.blue4
    [Example.seg4 ℝ] (1 / 2) 1 (1 / 5)
    (fun i _ => MorphImages.same_features_isSome Example.red4 Example.blue4 (by decide)
      (by decide) rfl rfl [Example.seg4 ℝ] (by simp) (by simp [Example.seg4]) _
      (1 / 2) 1 (1 / 5) (by norm_num))
    Example.saveFails
  exact ⟨frames, hrun, hlen, fun fr hfr => hst fr hfr⟩

/-- C18.  For every frame index `i` in `[0, K]` with `K = kFrames`, the
parameter `GenerateMorphFrames` passes to `MorphImages` is `ease(i / K)` with
`ease(t) = t^2 * (3 - 2t)`: the running value obtained by adding `1/30` after
each frame is the closed form `i / kFrames` (stated for the runs in which
`MorphImages` returns an image at each of these parameters). -/
theorem GenerateMorphFrames_parameters (Save : STImage → String → Int)
    (sourceImage : STImage) (sourceFeatures : List (Feature ℝ))
    (targetImage : STImage) (targetFeatures : List (Feature ℝ)) (a b p : ℝ)
    (hM : ∀ i : Nat, i ≤ kFrames →
      ∃ r, MorphImages Real.sqrt (fun x y => x ^ y) sourceImage sourceFeatures
        targetImage targetFeatures (Spec.ease ((i : ℝ) / (kFrames : ℝ))) a b p = some r) :
    ∃ frames, GenerateMorphFrames Real.sqrt (fun x y => x ^ y) Save sourceImage
        sourceFeatures targetImage targetFeatures a b p = some frames ∧
      frames.map (fun fr => fr.ease_t) =
        (List.range (kFrames + 1)).map (fun i : Nat => Spec.ease ((i : ℝ) / (kFrames : ℝ))) ∧
      ∀ fr ∈ frames,
        MorphImages Real.sqrt (fun x y => x ^ y) sourceImage sourceFeatures
          targetImage targetFeatures fr.ease_t a b p = some fr.image := by
  have hk : (kFrames : ℝ) = 30 := by
    unfold kFrames
    norm_num
  obtain ⟨frames, hrun, _, heases, hall⟩ := GenerateMorphFrames.frames_spec Real.sqrt
    (fun x y => x ^ y) Save sourceImage sourceFeatures targetImage targetFeatures a b p
    (by
      intro i hi
      rw [GenerateMorphFrames.ease_eq, ← hk]
      exact hM i hi)
  refine ⟨frames, hrun, ?_, fun fr hfr => (hall fr hfr).1⟩
  rw [heases]
  apply List.map_congr_left
  intro i _
  rw [GenerateMorphFrames.ease_eq, hk]

/-- C18, witness: the red and blue 4 by 4 images with one feature. -/
theorem GenerateMorphFrames_parameters_witness :
    ∃ frames, GenerateMorphFrames Real.sqrt (fun x y => x ^ y) Example.saveFails
        Example.red4 [Example.seg4 ℝ] Example.blue4 [Example.seg4 ℝ] (1 / 2) 1 (1 / 5)
        = some frames ∧
      frames.map (fun fr => fr.ease_t) =
        (List.range (kFrames + 1)).map
          (fun i : Nat => Spec.ease ((i : ℝ) / (kFrames : ℝ))) := by
  obtain ⟨frames, hrun, he, _⟩ := GenerateMorphFrames_parameters Example.saveFails
    Example.red4 [Example.seg4 ℝ] Example.blue4 [Example.seg4 ℝ] (1 / 2) 1 (1 / 5)
    (fun i _ => MorphImages.same_features_isSome Example.red4 Example.blue4 (by decide)
      (by decide) rfl rfl [Example.seg4 ℝ] (by simp) (by simp [Example.seg4]) _
      (1 / 2) 1 (1 / 5) (by norm_num))
  exact ⟨frames, hrun, he⟩

/-- C19.  The easing expression of `GenerateMorphFrames`, with the real power
for `powf`, is `ease(t) = t^2 * (3 - 2t)`; it satisfies `ease(0) = 0`,
`ease(1) = 1`, `ease(1/2) = 1/2` and is monotonically non-decreasing on
`[0, 1]`. -/
theorem GenerateMorphFrames_ease_properties :
    (∀ t : ℝ, GenerateMorphFrames.ease (fun x y : ℝ => x ^ y) t = t ^ 2 * (3 - 2 * t)) ∧
    GenerateMorphFrames.ease (fun x y : ℝ => x ^ y) 0 = 0 ∧
    GenerateMorphFrames.ease (fun x y : ℝ => x ^ y) 1 = 1 ∧
    GenerateMorphFrames.ease (fun x y : ℝ => x ^ y) (1 / 2) = 1 / 2 ∧
    ∀ s t : ℝ, 0 ≤ s → s ≤ t → t ≤ 1 →
      GenerateMorphFrames.ease (fun x y : ℝ => x ^ y) s ≤
        GenerateMorphFrames.ease (fun x y : ℝ => x ^ y) t := by
  refine ⟨fun t => GenerateMorphFrames.ease_eq t, ?_, ?_, ?_, ?_⟩
  · rw [GenerateMorphFrames.ease_eq]
    unfold Spec.ease
    norm_num
  · rw [GenerateMorphFrames.ease_eq]
    unfold Spec.ease
    norm_num
  · rw [GenerateMorphFrames.ease_eq]
    unfold Spec.ease
    norm_num
  · intro s t hs hst ht
    rw [GenerateMorphFrames.ease_eq, GenerateMorphFrames.ease_eq]
    exact Spec.ease_mono hs hst ht

/-- C19, witness: the easing at `1/4` and at `3/4`. -/
theorem GenerateMorphFrames_ease_properties_witness :
    GenerateMorphFrames.ease (fun x y : ℝ => x ^ y) (1 / 4) ≤
      GenerateMorphFrames.ease (fun x y : ℝ => x ^ y) (3 / 4) :=
  GenerateMorphFrames_ease_properties.2.2.2.2 (1 / 4) (3 / 4) (by norm_num) (by norm_num)
    (by norm_num)

/-- C20, counterexample.  Loading the file whose only record is the line
`1,1:1,1`, with equal endpoints, puts the degenerate feature `P = Q = (1, 1)`
into both `gSourceFeatures` and `gTargetFeatures`. -/
theorem loadLineEditorFile_degenerate_counterexample :
    (loadLineEditorFile AddFeatureCallback Example.noImage
        [(Record.line 1 1 1 1 : Record ℚ)] none none ⟨[], []⟩).map (fun st => st.globals) =
      some ⟨[⟨⟨1, 1⟩, ⟨1, 1⟩⟩], [⟨⟨1, 1⟩, ⟨1, 1⟩⟩]⟩ := by
  decide!

/-- C20, amended.  A feature whose endpoints coincide is not rejected: for
every line record of a feature file that loads, with equal endpoints or not,
`loadLineEditorFile` with `AddFeatureCallback` leaves its feature in
`gSourceFeatures` or in `gTargetFeatures`; and for a feature with `P = Q` paired
with itself the loop body of `FieldMorph` is undefined (it divides by the
squared length zero). -/
theorem loadLineEditorFile_keeps_every_line {F : Type} [LinearOrderedField F]
    (loadImage : String → Option STImage) (pre post : List (Record F))
    (p1x p1y p2x p2y : F) (im1 im2 : Option STImage) (g : Globals F)
    (st : LoadState (Globals F))
    (hload : loadLineEditorFile AddFeatureCallback loadImage
      (pre ++ Record.line p1x p1y p2x p2y :: post) im1 im2 g = some st) :
    ((⟨⟨p1x, p1y⟩, ⟨p2x, p2y⟩⟩ : Feature F) ∈ st.globals.gSourceFeatures ∨
      (⟨⟨p1x, p1y⟩, ⟨p2x, p2y⟩⟩ : Feature F) ∈ st.globals.gTargetFeatures) ∧
    ∀ (sqrtf : F → F) (powf : F → F → F) (X P : STPoint2 F) (t a b p : F),
      FieldMorph.feature sqrtf powf X ⟨P, P⟩ ⟨P, P⟩ t a b p = none := by
  refine ⟨loadLineEditorFile.line_mem loadImage pre post p1x p1y p2x p2y im1 im2 g st hload,
    ?_⟩
  intro sqrtf powf X P t a b p
  unfold FieldMorph.feature
  simp [fdiv, STPoint2.sub, STVector2.LengthSq]

/-- C20, witness: a file with a degenerate line between two other lines. -/
theorem loadLineEditorFile_keeps_every_line_witness :
    ∃ st, loadLineEditorFile AddFeatureCallback Example.noImage
        ([(Record.line 0 0 1 0 : Record ℚ)] ++ Record.line 1 1 1 1 :: [Record.line 0 0 0 2])
        none none ⟨[], []⟩ = some st ∧
      ((⟨⟨1, 1⟩, ⟨1, 1⟩⟩ : Feature ℚ) ∈ st.globals.gSourceFeatures ∨
        (⟨⟨1, 1⟩, ⟨1, 1⟩⟩ : Feature ℚ) ∈ st.globals.gTargetFeatures) := by
  have hsome : ∃ st, loadLineEditorFile AddFeatureCallback Example.noImage
      ([(Record.line 0 0 1 0 : Record ℚ)] ++ Record.line 1 1 1 1 :: [Record.line 0 0 0 2])
      none none ⟨[], []⟩ = some st := ⟨_, rfl⟩
  obtain ⟨st, hst⟩ := hsome
  exact ⟨st, hst, (loadLineEditorFile_keeps_every_line Example.noImage _ _ 1 1 1 1
    none none ⟨[], []⟩ st hst).1⟩

/-! ## Reversal of the blend and of the morph -/

section ReversalLemmas

variable {F : Type} [LinearOrderedField F] [FloorRing F]

omit [FloorRing F] in
theorem Lerp_swap (c1 c2 t : F) : Lerp c1 c2 t = Lerp c2 c1 (1 - t) := by
  unfold Lerp
  ring

theorem colorLerp_swap (c1 c2 : STColor4ub) (t : F) :
    colorLerp c1 c2 t = colorLerp c2 c1 (1 - t) := by
  unfold colorLerp
  simp only [Lerp_swap (c1.r : F), Lerp_swap (c1.g : F), Lerp_swap (c1.b : F)]

theorem BlendImages.body_swap (image1 image2 : STImage) (t : F) :
    BlendImages.body image1 image2 t = BlendImages.body image2 image1 (1 - t) := by
  funext x y st
  unfold BlendImages.body
  cases h1 : image1.GetPixel x y <;> cases h2 : image2.GetPixel x y <;>
    simp [colorLerp_swap _ _ t]

/-- Blending `A` and `B` at `t` is blending `B` and `A` at `1 - t`, reads
included. -/
theorem BlendImages.traced_swap (image1 image2 : STImage) (t : F) :
    BlendImages.traced image1 image2 t = BlendImages.traced image2 image1 (1 - t) := by
  unfold BlendImages.traced
  simp only [min_comm image2.mWidth, min_comm image2.mHeight, BlendImages.body_swap image1]

theorem BlendImages.swap (image1 image2 : STImage) (t : F) :
    BlendImages image1 image2 t = BlendImages image2 image1 (1 - t) := by
  unfold BlendImages
  rw [BlendImages.traced_swap]

/-- The morph from the source to the target at `t` is the morph from the
target to the source at `1 - t`: the same two warps, blended the other way
round. -/
theorem MorphImages.reversal (sqrtf : F → F) (powf : F → F → F)
    (sourceImage : STImage) (sourceFeatures : List (Feature F))
    (targetImage : STImage) (targetFeatures : List (Feature F)) (t a b p : F) :
    MorphImages sqrtf powf sourceImage sourceFeatures targetImage targetFeatures t a b p =
      MorphImages sqrtf powf targetImage targetFeatures sourceImage sourceFeatures
        (1 - t) a b p := by
  unfold MorphImages
  rw [sub_sub_cancel]
  cases FieldMorph sqrtf powf sourceImage sourceFeatures targetFeatures t a b p <;>
    cases FieldMorph sqrtf powf targetImage targetFeatures sourceFeatures (1 - t) a b p <;>
    simp [BlendImages.swap _ _ t]

end ReversalLemmas

/-! ## Index accesses into the feature lists -/

section IndexLemmas

variable {F : Type} [LinearOrderedField F] [FloorRing F]

/-- A loop over `0 .. N - 1` one of whose iterations fails in every state
fails. -/
theorem foldlM_range_none {σ : Type} (f : σ → Nat → Option σ) (k : Nat)
    (hk : ∀ st, f st k = none) :
    ∀ (N : Nat) (s0 : σ), k < N → (List.range N).foldlM f s0 = none := by
  intro N
  induction N with
  | zero =>
    intro s0 h
    omega
  | succ n ih =>
    intro s0 h
    rw [List.range_succ, List.foldlM_append]
    by_cases hkn : k < n
    · rw [ih s0 hkn]
      rfl
    · have hkn' : k = n := by omega
      subst hkn'
      cases (List.range k).foldlM f s0 with
      | none => rfl
      | some st => simp [hk st]

end IndexLemmas

/-! ## The feature lists a file is loaded into -/

section LoadLemmas

variable {F : Type}

theorem Spec.choiceAfter_snoc (pre : List (Record F)) (r : Record F) :
    Spec.choiceAfter (pre ++ [r]) =
      match r with
      | Record.background1 _ => ImageChoice.IMAGE_1
      | Record.background2 _ => ImageChoice.IMAGE_2
      | _ => Spec.choiceAfter pre := by
  unfold Spec.choiceAfter
  cases r <;> simp [List.find?_cons, Spec.isBackground]

theorem Spec.featureAt_snoc_lt (sel : ImageChoice → Bool) (records : List (Record F))
    (r : Record F) (i : Nat) (hi : i < records.length) :
    Spec.featureAt sel (records ++ [r]) i = Spec.featureAt sel records i := by
  unfold Spec.featureAt
  rw [List.getElem?_append_left hi, List.take_append_of_le_length (le_of_lt hi)]

theorem Spec.featureAt_snoc_last (sel : ImageChoice → Bool) (records : List (Record F))
    (r : Record F) :
    Spec.featureAt sel (records ++ [r]) records.length =
      match r with
      | Record.line x1 y1 x2 y2 =>
        if sel (Spec.choiceAfter records) then some ⟨⟨x1, y1⟩, ⟨x2, y2⟩⟩ else none
      | _ => none := by
  unfold Spec.featureAt
  simp only [List.getElem?_concat_length, List.take_left']
  cases r <;> rfl

/-- The features selected from a file with one more record are those of the
file followed by that of the new record, if it has one. -/
theorem Spec.filterMap_featureAt_snoc (sel : ImageChoice → Bool) (records : List (Record F))
    (r : Record F) :
    (List.range (records ++ [r]).length).filterMap (Spec.featureAt sel (records ++ [r])) =
      (List.range records.length).filterMap (Spec.featureAt sel records) ++
        (match r with
          | Record.line x1 y1 x2 y2 =>
            if sel (Spec.choiceAfter records) then [⟨⟨x1, y1⟩, ⟨x2, y2⟩⟩] else []
          | _ => []) := by
  rw [List.length_append, List.length_singleton, List.range_succ, List.filterMap_append]
  congr 1
  · apply List.filterMap_congr
    intro i hi
    exact Spec.featureAt_snoc_lt sel records r i (List.mem_range.mp hi)
  · simp only [List.filterMap_cons, List.filterMap_nil, Spec.featureAt_snoc_last]
    cases r <;> simp
    split_ifs <;> rfl

theorem loadLineEditorFile.snoc {G : Type}
    (drawLineCallback : STPoint2 F → STPoint2 F → ImageChoice → G → G)
    (loadImage : String → Option STImage) (records : List (Record F)) (r : Record F)
    (im1 im2 : Option STImage) (globals : G) :
    loadLineEditorFile drawLineCallback loadImage (records ++ [r]) im1 im2 globals =
      (loadLineEditorFile drawLineCallback loadImage records im1 im2 globals).bind
        (fun st => loadLineEditorFile.step drawLineCallback loadImage st r) := by
  unfold loadLineEditorFile
  rw [List.foldlM_append]
  cases List.foldlM (loadLineEditorFile.step drawLineCallback loadImage)
      ⟨ImageChoice.BOTH_IMAGES, im1, im2, globals⟩ records with
  | none => rfl
  | some st =>
    simp only [Option.bind_eq_bind, Option.some_bind, List.foldlM_cons, List.foldlM_nil]
    cases loadLineEditorFile.step drawLineCallback loadImage st r <;> rfl

/-- A file that loads leaves in the two globals the two lists the
specification describes, and in `imageChoice` the images of the most recent
background record. -/
theorem loadLineEditorFile.lists_spec (loadImage : String → Option STImage)
    (im1 im2 : Option STImage) :
    ∀ (records : List (Record F)) (st : LoadState (Globals F)),
      loadLineEditorFile AddFeatureCallback loadImage records im1 im2 ⟨[], []⟩ = some st →
      st.imageChoice = Spec.choiceAfter records ∧
        st.globals.gSourceFeatures = Spec.sourceFeatures records ∧
        st.globals.gTargetFeatures = Spec.targetFeatures records := by
  intro records
  induction records using List.reverseRecOn with
  | nil =>
    intro st h
    simp only [loadLineEditorFile, List.foldlM_nil, Option.pure_def, Option.some.injEq] at h
    subst h
    exact ⟨rfl, rfl, rfl⟩
  | append_singleton records r ih =>
    intro st h
    rw [loadLineEditorFile.snoc] at h
    cases hl : loadLineEditorFile AddFeatureCallback loadImage records im1 im2
        (⟨[], []⟩ : Globals F) with
    | none =>
      rw [hl] at h
      simp at h
    | some st0 =>
      rw [hl] at h
      simp only [Option.some_bind] at h
      obtain ⟨hc, hs, ht⟩ := ih st0 hl
      unfold Spec.sourceFeatures Spec.targetFeatures
      rw [Spec.filterMap_featureAt_snoc, Spec.filterMap_featureAt_snoc,
        Spec.choiceAfter_snoc]
      unfold Spec.sourceFeatures at hs
      unfold Spec.targetFeatures at ht
      rw [← hs, ← ht, ← hc]
      cases r with
      | background1 fname =>
        simp only [loadLineEditorFile.step] at h
        cases hi : loadImage fname with
        | none =>
          rw [hi] at h
          simp at h
        | some im =>
          rw [hi] at h
          simp only [Option.some.injEq] at h
          subst h
          simp
      | background2 fname =>
        simp only [loadLineEditorFile.step] at h
        cases hi : loadImage fname with
        | none =>
          rw [hi] at h
          simp at h
        | some im =>
          rw [hi] at h
          simp only [Option.some.injEq] at h
          subst h
          simp
      | line p1x p1y p2x p2y =>
        simp only [loadLineEditorFile.step, Option.some.injEq] at h
        subst h
        simp only [AddFeatureCallback]
        cases st0.imageChoice <;> simp
      | other =>
        simp only [loadLineEditorFile.step, Option.some.injEq] at h
        subst h
        simp

/-- Loading fails only when an image file fails to load: with a loader of
images that always succeeds every file loads, whatever its lines. -/
theorem loadLineEditorFile.loads {G : Type}
    (drawLineCallback : STPoint2 F → STPoint2 F → ImageChoice → G → G)
    (loadImage : String → Option STImage)
    (himg : ∀ fname, ∃ im, loadImage fname = some im) :
    ∀ (records : List (Record F)) (st0 : LoadState G),
      ∃ st, records.foldlM (loadLineEditorFile.step drawLineCallback loadImage) st0
        = some st := by
  intro records
  induction records with
  | nil =>
    intro st0
    exact ⟨st0, rfl⟩
  | cons r records ih =>
    intro st0
    rw [List.foldlM_cons]
    cases r with
    | background1 fname =>
      obtain ⟨im, him⟩ := himg fname
      simp only [loadLineEditorFile.step, him, Option.bind_eq_bind, Option.some_bind]
      exact ih _
    | background2 fname =>
      obtain ⟨im, him⟩ := himg fname
      simp only [loadLineEditorFile.step, him, Option.bind_eq_bind, Option.some_bind]
      exact ih _
    | line p1x p1y p2x p2y =>
      simp only [loadLineEditorFile.step, Option.bind_eq_bind, Option.some_bind]
      exact ih _
    | other =>
      simp only [loadLineEditorFile.step, Option.bind_eq_bind, Option.some_bind]
      exact ih _

end LoadLemmas

/-! ## Degenerate interpolated segments, and the weights -/

section WeightLemmas

theorem STVector2.LengthSq_eq_normSq {F : Type} [LinearOrderedField F] (w : STVector2 F) :
    w.LengthSq = Spec.normSq w := by
  simp [Spec.normSq, STVector2.LengthSq, sq]

/-- The length of the difference of two distinct points is positive. -/
theorem STPoint2.sub_Length_pos {P Q : STPoint2 ℝ} (hne : P ≠ Q) :
    0 < (Q.sub P).LengthSq ∧ 0 < (Q.sub P).Length Real.sqrt := by
  have h := Spec.normSq_diff_pos hne
  have h1 : (Q.sub P).LengthSq = Spec.normSq (Spec.diff Q P) :=
    STVector2.LengthSq_eq_normSq _
  unfold STVector2.Length
  rw [h1]
  exact ⟨h, Real.sqrt_pos.mpr h⟩

/-- Two non-degenerate segments whose directions make a non-negative dot
product interpolate to a non-degenerate segment at every `t` in `[0, 1]`. -/
theorem Spec.lerpPoint_ne (sf tf : Feature ℝ) (t : ℝ) (hs : sf.P ≠ sf.Q) (ht : tf.P ≠ tf.Q)
    (ht0 : 0 ≤ t) (ht1 : t ≤ 1)
    (hdot : 0 ≤ Spec.dot (Spec.diff sf.Q sf.P) (Spec.diff tf.Q tf.P)) :
    Spec.lerpPoint sf.P tf.P t ≠ Spec.lerpPoint sf.Q tf.Q t := by
  intro heq
  have hx : Lerp sf.P.x tf.P.x t = Lerp sf.Q.x tf.Q.x t := congrArg STPoint2.x heq
  have hy : Lerp sf.P.y tf.P.y t = Lerp sf.Q.y tf.Q.y t := congrArg STPoint2.y heq
  unfold Lerp at hx hy
  have hds := Spec.normSq_diff_pos hs
  have hdt := Spec.normSq_diff_pos ht
  simp only [Spec.normSq, Spec.diff, Spec.dot] at hds hdt hdot
  have key : (1 - t) * ((sf.Q.x - sf.P.x) ^ 2 + (sf.Q.y - sf.P.y) ^ 2) +
      t * ((sf.Q.x - sf.P.x) * (tf.Q.x - tf.P.x) + (sf.Q.y - sf.P.y) * (tf.Q.y - tf.P.y))
        = 0 := by
    linear_combination -(sf.Q.x - sf.P.x) * hx - (sf.Q.y - sf.P.y) * hy
  rcases eq_or_lt_of_le ht1 with h1 | h1
  · subst h1
    have ex : tf.Q.x - tf.P.x = 0 := by linarith
    have ey : tf.Q.y - tf.P.y = 0 := by linarith
    rw [ex, ey] at hdt
    norm_num at hdt
  · have hpos : 0 < (1 - t) * ((sf.Q.x - sf.P.x) ^ 2 + (sf.Q.y - sf.P.y) ^ 2) :=
      mul_pos (by linarith) hds
    have hnn := mul_nonneg ht0 hdot
    linarith

/-- The distance chosen by `FieldMorph` is not negative. -/
theorem FieldMorph.chosen_dist_nonneg (u v : ℝ) (Pi Qi X : STPoint2 ℝ) :
    0 ≤ FieldMorph.dist Real.sqrt u v Pi Qi X := by
  unfold FieldMorph.dist STPoint2.Dist STVector2.Length
  split_ifs
  · exact Real.sqrt_nonneg _
  · exact Real.sqrt_nonneg _
  · exact abs_nonneg _

/-- With `a > 0`, a positive length and a non-negative distance the weight is
defined and positive. -/
theorem FieldMorph.weight_defined_pos (len p a dist b : ℝ) (hlen : 0 < len) (ha : 0 < a)
    (hd : 0 ≤ dist) :
    ∃ w, FieldMorph.weight (fun x y => x ^ y) len p a dist b = some w ∧ 0 < w := by
  have hden : 0 < a + dist := add_pos_of_pos_of_nonneg ha hd
  unfold FieldMorph.weight fdiv
  rw [if_neg hden.ne']
  exact ⟨_, rfl, Real.rpow_pos_of_pos (div_pos (Real.rpow_pos_of_pos hlen _) hden) _⟩

/-- A defined term of a non-degenerate interpolated segment has a positive
weight when `a > 0`. -/
theorem Spec.term_weight_pos (X : STPoint2 ℝ) (sf tf : Feature ℝ) (t a b p : ℝ) (ha : 0 < a)
    (hint : Spec.lerpPoint sf.P tf.P t ≠ Spec.lerpPoint sf.Q tf.Q t) (r : STVector2 ℝ × ℝ)
    (hr : Spec.term Real.sqrt (fun x y => x ^ y) X sf tf t a b p = some r) : 0 < r.2 := by
  unfold Spec.term at hr
  simp only at hr
  split_ifs at hr
  simp only [Option.some.injEq] at hr
  rw [← hr]
  exact Spec.weight_pos X _ _ a b p ha hint

theorem Spec.collect_some {α : Type} :
    ∀ (l : List (Option α)) (ts : List α), Spec.collect l = some ts →
      ts.length = l.length ∧ ∀ a ∈ ts, some a ∈ l := by
  intro l
  induction l with
  | nil =>
    intro ts h
    simp only [Spec.collect, Option.some.injEq] at h
    subst h
    simp
  | cons o l ih =>
    intro ts h
    cases o with
    | none => simp [Spec.collect] at h
    | some a =>
      simp only [Spec.collect, Option.map_eq_some'] at h
      obtain ⟨as, has, rfl⟩ := h
      obtain ⟨hl, hmem⟩ := ih as has
      refine ⟨by simp [hl], ?_⟩
      intro a' ha'
      rcases List.mem_cons.mp ha' with rfl | h'
      · exact List.mem_cons_self _ _
      · exact List.mem_cons_of_mem _ (hmem a' h')

/-- With `a > 0`, at least one feature pair and non-degenerate interpolated
segments, the sum of the weights the loop over features ends with is
positive. -/
theorem FieldMorph.weightSum_pos (sourceFeatures targetFeatures : List (Feature ℝ))
    (t a b p : ℝ) (X : STPoint2 ℝ) (ha : 0 < a)
    (hlen : sourceFeatures.length = targetFeatures.length) (hne : sourceFeatures ≠ [])
    (hnd : ∀ q ∈ List.zip sourceFeatures targetFeatures,
      Spec.lerpPoint q.1.P q.2.P t ≠ Spec.lerpPoint q.1.Q q.2.Q t)
    (dSum : STVector2 ℝ) (weightSum : ℝ)
    (hfold : (List.range targetFeatures.length).foldlM
      (FieldMorph.accum Real.sqrt (fun x y => x ^ y) X sourceFeatures targetFeatures t a b p)
      (⟨0, 0⟩, 0) = some (dSum, weightSum)) :
    0 < weightSum := by
  rw [FieldMorph.accum_fold_zip Real.sqrt (fun x y => x ^ y) X t a b p _ _ _ hlen,
    FieldMorph.fold_zip_sum] at hfold
  cases hc : Spec.collect ((List.zip sourceFeatures targetFeatures).map
      (fun q => Spec.term Real.sqrt (fun x y => x ^ y) X q.1 q.2 t a b p)) with
  | none =>
    rw [hc] at hfold
    simp at hfold
  | some ts =>
    rw [hc] at hfold
    simp only [zero_add, Option.some.injEq, Prod.mk.injEq] at hfold
    obtain ⟨hl, hmem⟩ := Spec.collect_some _ ts hc
    rw [← hfold.2]
    apply List.sum_pos
    · intro x hx
      obtain ⟨r, hr, rfl⟩ := List.mem_map.mp hx
      obtain ⟨q, hq, hqr⟩ := List.mem_map.mp (hmem r hr)
      exact Spec.term_weight_pos X q.1 q.2 t a b p ha (hnd q hq) r hqr
    · intro h0
      have h0' : ts = [] := by simpa using h0
      rw [h0'] at hl
      simp only [List.length_nil, List.length_map, List.length_zip] at hl
      have : sourceFeatures.length ≠ 0 := fun h => hne (List.length_eq_zero.mp h)
      omega

end WeightLemmas

/-! ## Translated segments, and a single feature pair -/

section TranslationLemmas

theorem STPoint2.addV_ne {P Q : STPoint2 ℝ} (d : STVector2 ℝ) (hne : P ≠ Q) :
    P.addV d ≠ Q.addV d := by
  intro h
  apply hne
  have hx : (P.addV d).x = (Q.addV d).x := congrArg STPoint2.x h
  have hy : (P.addV d).y = (Q.addV d).y := congrArg STPoint2.y h
  simp only [STPoint2.addV] at hx hy
  cases P
  cases Q
  simp only [STPoint2.mk.injEq]
  constructor <;> linarith

/-- The coordinates `(u, v)` of `X` against a segment translated by `d`
rebuild, against the segment itself, the point `X - d`. -/
theorem Spec.rebuild_translate (X P Q : STPoint2 ℝ) (d : STVector2 ℝ) (hne : P ≠ Q) :
    Spec.rebuild Real.sqrt (Spec.u X (P.addV d) (Q.addV d))
        (Spec.v Real.sqrt X (P.addV d) (Q.addV d)) P Q = ⟨X.x - d.x, X.y - d.y⟩ := by
  have h1 : Spec.diff X (P.addV d) = Spec.diff (⟨X.x - d.x, X.y - d.y⟩ : STPoint2 ℝ) P := by
    simp only [Spec.diff, STPoint2.addV, STVector2.mk.injEq]
    constructor <;> ring
  have h2 : Spec.diff (Q.addV d) (P.addV d) = Spec.diff Q P := by
    simp only [Spec.diff, STPoint2.addV, STVector2.mk.injEq]
    constructor <;> ring
  have hu : Spec.u X (P.addV d) (Q.addV d) = Spec.u ⟨X.x - d.x, X.y - d.y⟩ P Q := by
    unfold Spec.u
    rw [h1, h2]
  have hv : Spec.v Real.sqrt X (P.addV d) (Q.addV d)
      = Spec.v Real.sqrt ⟨X.x - d.x, X.y - d.y⟩ P Q := by
    unfold Spec.v
    rw [h1, h2]
  rw [hu, hv]
  exact Spec.rebuild_same _ P Q hne

/-- When every interpolated segment is the source segment translated by `d`,
every sample point is the output pixel translated by `-d`. -/
theorem Spec.samplePoint_translate (sourceFeatures targetFeatures : List (Feature ℝ))
    (t a b p : ℝ) (d : STVector2 ℝ) (X : STPoint2 ℝ) (ha : 0 < a)
    (hlen : sourceFeatures.length = targetFeatures.length) (hne : sourceFeatures ≠ [])
    (htr : ∀ q ∈ List.zip sourceFeatures targetFeatures,
      q.1.P ≠ q.1.Q ∧ Spec.lerpPoint q.1.P q.2.P t = q.1.P.addV d ∧
        Spec.lerpPoint q.1.Q q.2.Q t = q.1.Q.addV d) :
    Spec.samplePoint Real.sqrt (fun x y => x ^ y) sourceFeatures targetFeatures t a b p X
      = some ⟨X.x - d.x, X.y - d.y⟩ := by
  obtain ⟨ts, hts, hl, hprop⟩ := Spec.collect_forall
    (fun q : STVector2 ℝ × ℝ => q.1 = ⟨-d.x, -d.y⟩ ∧ 0 < q.2)
    ((List.zip sourceFeatures targetFeatures).map
      (fun q => Spec.term Real.sqrt (fun x y => x ^ y) X q.1 q.2 t a b p))
    (by
      intro o ho
      obtain ⟨q, hq, rfl⟩ := List.mem_map.mp ho
      obtain ⟨hq1, hP, hQ⟩ := htr q hq
      have hint : Spec.lerpPoint q.1.P q.2.P t ≠ Spec.lerpPoint q.1.Q q.2.Q t := by
        rw [hP, hQ]
        exact STPoint2.addV_ne d hq1
      refine ⟨_, Spec.term_eq X q.1 q.2 t a b p ha hq1 hint, ?_, ?_⟩
      · simp only [hP, hQ, Spec.rebuild_translate X _ _ d hq1, Spec.diff,
          STVector2.mk.injEq]
        constructor <;> ring
      · exact Spec.weight_pos _ _ _ _ _ _ ha hint)
  have hts_ne : ts ≠ [] := by
    intro h0
    rw [h0] at hl
    simp only [List.length_nil, List.length_map, List.length_zip] at hl
    have : sourceFeatures.length ≠ 0 := fun h => hne (List.length_eq_zero.mp h)
    omega
  have hsum : 0 < (ts.map (fun q => q.2)).sum := by
    apply List.sum_pos
    · intro x hx
      obtain ⟨q, hq, rfl⟩ := List.mem_map.mp hx
      exact (hprop q hq).2
    · simpa using hts_ne
  have hxs : (ts.map (fun q => q.2 * q.1.x)).sum = (ts.map (fun q => q.2)).sum * (-d.x) := by
    rw [← List.sum_map_mul_right]
    congr 1
    apply List.map_congr_left
    intro q hq
    rw [(hprop q hq).1]
  have hys : (ts.map (fun q => q.2 * q.1.y)).sum = (ts.map (fun q => q.2)).sum * (-d.y) := by
    rw [← List.sum_map_mul_right]
    congr 1
    apply List.map_congr_left
    intro q hq
    rw [(hprop q hq).1]
  unfold Spec.samplePoint
  rw [hts]
  simp only [if_neg hsum.ne', hxs, hys, Option.some.injEq, STPoint2.mk.injEq]
  constructor
  · field_simp
    ring
  · field_simp
    ring

/-- With one feature pair the sample point is the point rebuilt against the
source segment. -/
theorem Spec.samplePoint_single (sf tf : Feature ℝ) (t a b p : ℝ) (X : STPoint2 ℝ)
    (ha : 0 < a) (hsrc : sf.P ≠ sf.Q)
    (hint : Spec.lerpPoint sf.P tf.P t ≠ Spec.lerpPoint sf.Q tf.Q t) :
    Spec.samplePoint Real.sqrt (fun x y => x ^ y) [sf] [tf] t a b p X =
      some (Spec.rebuild Real.sqrt
        (Spec.u X (Spec.lerpPoint sf.P tf.P t) (Spec.lerpPoint sf.Q tf.Q t))
        (Spec.v Real.sqrt X (Spec.lerpPoint sf.P tf.P t) (Spec.lerpPoint sf.Q tf.Q t))
        sf.P sf.Q) := by
  have hw := Spec.weight_pos X _ _ a b p ha hint
  unfold Spec.samplePoint
  simp only [List.zip_cons_cons, List.zip_nil_right, List.map_cons, List.map_nil,
    Spec.term_eq X sf tf t a b p ha hsrc hint, Spec.collect, Option.map_some',
    List.sum_cons, List.sum_nil, add_zero, if_neg hw.ne', Spec.diff]
  generalize Spec.weight Real.sqrt (fun x y => x ^ y) X (Spec.lerpPoint sf.P tf.P t)
    (Spec.lerpPoint sf.Q tf.Q t) a b p = w at hw
  generalize Spec.rebuild Real.sqrt
    (Spec.u X (Spec.lerpPoint sf.P tf.P t) (Spec.lerpPoint sf.Q tf.Q t))
    (Spec.v Real.sqrt X (Spec.lerpPoint sf.P tf.P t) (Spec.lerpPoint sf.Q tf.Q t))
    sf.P sf.Q = R
  cases R with
  | mk Rx Ry =>
    simp only [Option.some.injEq, STPoint2.mk.injEq]
    constructor
    · field_simp
    · field_simp

/-- Two warps whose sample points agree at every pixel agree. -/
theorem FieldMorph.congr_samplePoint {F : Type} [LinearOrderedField F] [FloorRing F]
    (sqrtf : F → F) (powf : F → F → F) (image : STImage)
    (sourceFeatures targetFeatures : List (Feature F)) (t a b p a' b' p' : F)
    (h : ∀ x y : Int,
      FieldMorph.samplePoint sqrtf powf sourceFeatures targetFeatures t a b p x y =
        FieldMorph.samplePoint sqrtf powf sourceFeatures targetFeatures t a' b' p' x y) :
    FieldMorph sqrtf powf image sourceFeatures targetFeatures t a b p =
      FieldMorph sqrtf powf image sourceFeatures targetFeatures t a' b' p' := by
  have hbody : FieldMorph.body sqrtf powf image sourceFeatures targetFeatures t a b p =
      FieldMorph.body sqrtf powf image sourceFeatures targetFeatures t a' b' p' := by
    funext x y st
    unfold FieldMorph.body
    rw [h x y]
  unfold FieldMorph FieldMorph.traced
  rw [hbody]

end TranslationLemmas

/-! ## The run of `main` -/

section MainLemmas

variable {F : Type} [LinearOrderedField F] [FloorRing F]

/-- No step of `main` compares the two feature counts: when the image files
of the feature file load, the file loads and `GenerateMorphFrames` is called
with the two lists as loaded. -/
theorem main.no_count_check (sqrtf : F → F) (powf : F → F → F)
    (Save : STImage → String → Int) (loadImage : String → Option STImage)
    (records : List (Record F))
    (himg : ∀ fname, ∃ im, loadImage fname = some im) :
    ∃ st run,
      loadLineEditorFile AddFeatureCallback loadImage records none none
        (⟨[], []⟩ : Globals F) = some st ∧
      main sqrtf powf Save loadImage records = some run ∧
      run.sourceFeatures = st.globals.gSourceFeatures ∧
      run.targetFeatures = st.globals.gTargetFeatures ∧
      run.frames =
        match st.im1out, st.im2out with
        | some sourceImage, some targetImage =>
          GenerateMorphFrames sqrtf powf Save sourceImage st.globals.gSourceFeatures
            targetImage st.globals.gTargetFeatures (1 / 2) 1 (13421773 / 67108864)
        | _, _ => none := by
  obtain ⟨st, hst⟩ := loadLineEditorFile.loads AddFeatureCallback loadImage himg records
    ⟨ImageChoice.BOTH_IMAGES, none, none, (⟨[], []⟩ : Globals F)⟩
  have hst' : loadLineEditorFile AddFeatureCallback loadImage records none none
      (⟨[], []⟩ : Globals F) = some st := hst
  have hmain : main sqrtf powf Save loadImage records =
      some ⟨st.globals.gSourceFeatures, st.globals.gTargetFeatures,
        match st.im1out, st.im2out with
        | some sourceImage, some targetImage =>
          GenerateMorphFrames sqrtf powf Save sourceImage st.globals.gSourceFeatures
            targetImage st.globals.gTargetFeatures (1 / 2) 1 (13421773 / 67108864)
        | _, _ => none⟩ := by
    simp only [main, hst']
  exact ⟨st, _, hst', hmain, rfl, rfl, rfl⟩

end MainLemmas

/-! ## The claims, concluded -/

/-- C21, counterexample.  The feature file with one line under `background1`
and none under `background2` yields one source feature and no target feature;
the run does not end at load time: `main` goes on to call
`GenerateMorphFrames` with these two lists. -/
theorem main_feature_count_counterexample :
    (main (fun z : ℚ => z) (fun z _ => z) Example.saveFails Example.anyImage
        (Example.oneSided ℚ)).map
      (fun run => (run.sourceFeatures.length, run.targetFeatures.length)) = some (1, 0) := by
  rfl

/-- C21, amended.  A feature file that yields different numbers of source and
target features is not caught at load time: whenever the image files it names
load, `loadLineEditorFile` succeeds and `main` calls `GenerateMorphFrames` with
the two lists as loaded, whatever their lengths. -/
theorem main_no_feature_count_check {F : Type} [LinearOrderedField F] [FloorRing F]
    (sqrtf : F → F) (powf : F → F → F) (Save : STImage → String → Int)
    (loadImage : String → Option STImage) (records : List (Record F))
    (himg : ∀ fname, ∃ im, loadImage fname = some im) :
    ∃ st run,
      loadLineEditorFile AddFeatureCallback loadImage records none none
        (⟨[], []⟩ : Globals F) = some st ∧
      main sqrtf powf Save loadImage records = some run ∧
      run.sourceFeatures = st.globals.gSourceFeatures ∧
      run.targetFeatures = st.globals.gTargetFeatures ∧
      run.frames =
        match st.im1out, st.im2out with
        | some sourceImage, some targetImage =>
          GenerateMorphFrames sqrtf powf Save sourceImage st.globals.gSourceFeatures
            targetImage st.globals.gTargetFeatures (1 / 2) 1 (13421773 / 67108864)
        | _, _ => none :=
  main.no_count_check sqrtf powf Save loadImage records himg

/-- C21, witness: the file with one line for the first image only. -/
theorem main_no_feature_count_check_witness :
    (∀ fname, ∃ im, Example.anyImage fname = some im) ∧
    ∃ st run,
      loadLineEditorFile AddFeatureCallback Example.anyImage (Example.oneSided ℚ) none none
        (⟨[], []⟩ : Globals ℚ) = some st ∧
      main (fun z : ℚ => z) (fun z _ => z) Example.saveFails Example.anyImage
        (Example.oneSided ℚ) = some run ∧
      run.sourceFeatures = st.globals.gSourceFeatures ∧
      run.targetFeatures = st.globals.gTargetFeatures ∧
      run.frames =
        match st.im1out, st.im2out with
        | some sourceImage, some targetImage =>
          GenerateMorphFrames (fun z : ℚ => z) (fun z _ => z) Example.saveFails sourceImage
            st.globals.gSourceFeatures targetImage st.globals.gTargetFeatures
            (1 / 2) 1 (13421773 / 67108864)
        | _, _ => none :=
  have himg : ∀ fname, ∃ im, Example.anyImage fname = some im := fun _ => ⟨_, rfl⟩
  ⟨himg, main_no_feature_count_check (fun z : ℚ => z) (fun z _ => z) Example.saveFails
    Example.anyImage (Example.oneSided ℚ) himg⟩

/-- C22.  For every sequence of records that loads (no image file fails),
`loadLineEditorFile` with `AddFeatureCallback`, entered with empty lists,
leaves in `gSourceFeatures` exactly the features `P = (x1, y1)`, `Q = (x2, y2)`
of the line records whose most recent background record is `background1` or
that follow no background record, and in `gTargetFeatures` those whose most
recent background record is `background2` or that follow none, each list in
file order. -/
theorem loadLineEditorFile_feature_lists {F : Type} (loadImage : String → Option STImage)
    (records : List (Record F)) (im1 im2 : Option STImage) (st : LoadState (Globals F))
    (hload : loadLineEditorFile AddFeatureCallback loadImage records im1 im2 ⟨[], []⟩
      = some st) :
    st.globals.gSourceFeatures = Spec.sourceFeatures records ∧
      st.globals.gTargetFeatures = Spec.targetFeatures records :=
  (loadLineEditorFile.lists_spec loadImage im1 im2 records st hload).2

/-- C22, witness: a file with a line before any background record, two lines
under `background1` and one under `background2`. -/
theorem loadLineEditorFile_feature_lists_witness :
    ∃ st, loadLineEditorFile AddFeatureCallback Example.anyImage (Example.sections ℚ)
        none none ⟨[], []⟩ = some st ∧
      (st.globals.gSourceFeatures = Spec.sourceFeatures (Example.sections ℚ) ∧
        st.globals.gTargetFeatures = Spec.targetFeatures (Example.sections ℚ)) ∧
      Spec.sourceFeatures (Example.sections ℚ) =
        [⟨⟨0, 0⟩, ⟨1, 0⟩⟩, ⟨⟨0, 0⟩, ⟨0, 2⟩⟩, ⟨⟨1, 1⟩, ⟨2, 2⟩⟩] ∧
      Spec.targetFeatures (Example.sections ℚ) = [⟨⟨0, 0⟩, ⟨1, 0⟩⟩, ⟨⟨0, 0⟩, ⟨4, 0⟩⟩] := by
  have hsome : ∃ st, loadLineEditorFile AddFeatureCallback Example.anyImage
      (Example.sections ℚ) none none ⟨[], []⟩ = some st := ⟨_, rfl⟩
  obtain ⟨st, hst⟩ := hsome
  exact ⟨st, hst, loadLineEditorFile_feature_lists Example.anyImage _ none none st hst,
    by decide!, by decide!⟩

/-- C23.  For an image with `w * h` pixels and in-range `(x, y)` (so `w > 0`
and `h > 0`), `SetPixel(x, y, v)` succeeds; afterwards `GetPixel(x, y)` returns
`v`, `GetPixel(x', y')` is unchanged at every other in-range `(x', y')`, the
width and the height are unchanged; and the row-major index `y * w + x` is
injective on the in-range coordinates. -/
theorem STImage_get_set_frame (img : STImage) (w h : Int) (hs : img.Sized w h)
    (x y : Int) (hx0 : 0 ≤ x) (hxw : x < w) (hy0 : 0 ≤ y) (hyh : y < h) (v : STColor4ub) :
    ∃ img', img.SetPixel x y v = some img' ∧ img'.GetPixel x y = some v ∧
      (∀ x' y' : Int, 0 ≤ x' → x' < w → 0 ≤ y' → y' < h → ¬ (x' = x ∧ y' = y) →
        img'.GetPixel x' y' = img.GetPixel x' y') ∧
      img'.mWidth = w ∧ img'.mHeight = h ∧
      (∀ x' y' : Int, 0 ≤ x' → x' < w → y' * w + x' = y * w + x → x' = x ∧ y' = y) := by
  have hset := STImage.SetPixel_eq hs hx0 hxw hy0 hyh v
  have hsz := STImage.SetPixel_sized hs hset
  refine ⟨_, hset, STImage.GetPixel_SetPixel_same hs hset, ?_, hsz.1, hsz.2.1, ?_⟩
  · intro x' y' _ _ _ _ hne
    exact STImage.GetPixel_SetPixel_other hs hset hne
  · intro x' y' hx0' hxw' hidx
    exact index_inj hx0' hxw' hx0 hxw hidx

/-- C23, witness: setting the pixel `(1, 0)` of a 2 by 2 image. -/
theorem STImage_get_set_frame_witness :
    ∃ img', Example.opaque2.SetPixel 1 0 ⟨9, 8, 7, 6⟩ = some img' ∧
      img'.GetPixel 1 0 = some ⟨9, 8, 7, 6⟩ ∧
      (∀ x' y' : Int, 0 ≤ x' → x' < 2 → 0 ≤ y' → y' < 2 → ¬ (x' = 1 ∧ y' = 0) →
        img'.GetPixel x' y' = Example.opaque2.GetPixel x' y') ∧
      img'.mWidth = 2 ∧ img'.mHeight = 2 ∧
      (∀ x' y' : Int, 0 ≤ x' → x' < 2 → y' * 2 + x' = 0 * 2 + 1 → x' = 1 ∧ y' = 0) :=
  STImage_get_set_frame Example.opaque2 2 2 ⟨rfl, rfl, rfl⟩ 1 0 (by decide) (by decide)
    (by decide) (by decide) ⟨9, 8, 7, 6⟩

/-- C24.  For an image with `w * h` pixels and a sample point with
`0 <= x < w` and `0 <= y < h` (the points at which `FieldMorph` calls
`biLerp`), `biLerp` returns a colour, no range assertion of `GetPixel` fails,
and every `GetPixel` call it makes has integer coordinates `(cx, cy)` with
`0 <= cx < w` and `0 <= cy < h`; the pixel `(floor x, floor y)` is among those
it reads. -/
theorem biLerp_reads_in_range {F : Type} [LinearOrderedField F] [FloorRing F]
    (image : STImage) (w h : Int) (hs : image.Sized w h) (X : STPoint2 F)
    (hx0 : 0 ≤ X.x) (hxw : X.x < (w : F)) (hy0 : 0 ≤ X.y) (hyh : X.y < (h : F)) :
    ∃ c reads, biLerp X image = some (c, reads) ∧
      (∀ q ∈ reads, 0 ≤ q.1 ∧ q.1 < w ∧ 0 ≤ q.2 ∧ q.2 < h) ∧
      (⌊X.x⌋, ⌊X.y⌋) ∈ reads := by
  obtain ⟨c0, c1, c2, c3, l0, l1, l2, l3, h0, _, _, _, hb, hwithin⟩ := biLerp_eq hs X hx0 hy0
  refine ⟨_, _, hb, hwithin, ?_⟩
  have hn : ⌊X.x⌋ < w := Int.floor_lt.mpr hxw
  have hm : ⌊X.y⌋ < h := Int.floor_lt.mpr hyh
  rcases biLerp.corner_int (F := F) hs ⌊X.x⌋ ⌊X.y⌋ (Int.floor_nonneg.mpr hx0)
    (Int.floor_nonneg.mpr hy0) with ⟨hout, _⟩ | ⟨_, _, c, _, _, hc⟩
  · omega
  · unfold floorf at h0
    rw [hc] at h0
    simp only [Option.some.injEq, Prod.mk.injEq] at h0
    rw [← h0.2]
    simp

/-- C24, witness: the sample point `(1/2, 1/2)` of a 2 by 2 image. -/
theorem biLerp_reads_in_range_witness :
    ∃ c reads, biLerp (⟨1 / 2, 1 / 2⟩ : STPoint2 ℚ) Example.opaque2 = some (c, reads) ∧
      (∀ q ∈ reads, 0 ≤ q.1 ∧ q.1 < 2 ∧ 0 ≤ q.2 ∧ q.2 < 2) ∧
      (⌊(1 / 2 : ℚ)⌋, ⌊(1 / 2 : ℚ)⌋) ∈ reads :=
  biLerp_reads_in_range Example.opaque2 2 2 ⟨rfl, rfl, rfl⟩ (⟨1 / 2, 1 / 2⟩ : STPoint2 ℚ)
    (by norm_num) (by norm_num) (by norm_num) (by norm_num)

/-- C27, counterexample.  On binary32 floats, with the feature
`(0,0) -> (1,0)` in both lists (so the interpolated segment has length 1),
`a = 4`, `b = 100`, `p = 0` and the pixel `(0, 0)`, the weight
`powf(1 / (4 + 0), 100) = 2^-200` underflows to `+0`: the weight is not
positive, the weight sum is `+0`, `dSum / weightSum` is `0 / 0`, a NaN, and the
warp of a 1 by 1 image ends in the assertion of `GetPixel`. -/
theorem FieldMorph_weights_underflow_counterexample :
    Machine.FieldMorph.feature Example.ieee ⟨F32.ofInt 0, F32.ofInt 0⟩
        (Example.feature32 0 0 1 0) (Example.feature32 0 0 1 0)
        (F32.ofInt 0) (F32.ofInt 4) (F32.ofInt 100) (F32.ofInt 0) =
      (⟨F32.zero false, F32.zero false⟩, F32.zero false) ∧
    Machine.FieldMorph.features Example.ieee ⟨F32.ofInt 0, F32.ofInt 0⟩
        [Example.feature32 0 0 1 0] [Example.feature32 0 0 1 0]
        (F32.ofInt 0) (F32.ofInt 4) (F32.ofInt 100) (F32.ofInt 0) =
      some (⟨F32.zero false, F32.zero false⟩, F32.zero false) ∧
    Machine.FieldMorph.samplePoint Example.ieee
        [Example.feature32 0 0 1 0] [Example.feature32 0 0 1 0]
        (F32.ofInt 0) (F32.ofInt 4) (F32.ofInt 100) (F32.ofInt 0) 0 0 =
      some ⟨F32.nan, F32.nan⟩ ∧
    Machine.FieldMorph Example.ieee Example.dot1
        [Example.feature32 0 0 1 0] [Example.feature32 0 0 1 0]
        (F32.ofInt 0) (F32.ofInt 4) (F32.ofInt 100) (F32.ofInt 0) = none := by
  decide!

/-- C27, amended.  In exact arithmetic (over the reals, with the real square
root and power): with `a > 0` and a non-degenerate interpolated segment the weight
`FieldMorph` computes is defined and strictly positive, for every pixel, every
`b` and `p` and whichever of the three distances is used; hence with `N >= 1`
feature pairs the loop over features, when it completes, ends with
`weightSum > 0` and the division `dSum / weightSum` is defined, and it does
complete when the source segments are non-degenerate too.  With `N = 0` the
loop ends with weight sum 0, in exact arithmetic and on machine floats. -/
theorem FieldMorph_weights_positive :
    (∀ (X Pi Qi : STPoint2 ℝ) (u v a b p : ℝ), 0 < a → Pi ≠ Qi →
      ∃ w, FieldMorph.weight (fun x y => x ^ y) ((Qi.sub Pi).Length Real.sqrt) p a
          (FieldMorph.dist Real.sqrt u v Pi Qi X) b = some w ∧ 0 < w) ∧
    (∀ (sourceFeatures targetFeatures : List (Feature ℝ)) (t a b p : ℝ) (X : STPoint2 ℝ),
      0 < a → sourceFeatures.length = targetFeatures.length → sourceFeatures ≠ [] →
      (∀ q ∈ List.zip sourceFeatures targetFeatures,
        Spec.lerpPoint q.1.P q.2.P t ≠ Spec.lerpPoint q.1.Q q.2.Q t) →
      (∀ dSum weightSum, (List.range targetFeatures.length).foldlM
          (FieldMorph.accum Real.sqrt (fun x y => x ^ y) X sourceFeatures targetFeatures
            t a b p) (⟨0, 0⟩, 0) = some (dSum, weightSum) →
        0 < weightSum ∧ ∃ d, dSum.divS weightSum = some d) ∧
      ((∀ f ∈ sourceFeatures, f.P ≠ f.Q) →
        ∃ dSum weightSum, (List.range targetFeatures.length).foldlM
          (FieldMorph.accum Real.sqrt (fun x y => x ^ y) X sourceFeatures targetFeatures
            t a b p) (⟨0, 0⟩, 0) = some (dSum, weightSum))) ∧
    (∀ (sourceFeatures : List (Feature ℝ)) (t a b p : ℝ) (X : STPoint2 ℝ),
      (List.range ([] : List (Feature ℝ)).length).foldlM
        (FieldMorph.accum Real.sqrt (fun x y => x ^ y) X sourceFeatures [] t a b p)
        (⟨0, 0⟩, 0) = some (⟨0, 0⟩, 0)) ∧
    (∀ (Fl : Type) (ops : FloatOps Fl) (sourceFeatures : List (Feature Fl)) (t a b p : Fl)
        (X : STPoint2 Fl),
      Machine.FieldMorph.features ops X sourceFeatures [] t a b p =
        some (⟨ops.ofInt 0, ops.ofInt 0⟩, ops.ofInt 0)) := by
  refine ⟨?_, ?_, ?_, fun _ _ _ _ _ _ _ _ => rfl⟩
  · intro X Pi Qi u v a b p ha hne
    exact FieldMorph.weight_defined_pos _ p a _ b (STPoint2.sub_Length_pos hne).2 ha
      (FieldMorph.chosen_dist_nonneg u v Pi Qi X)
  · intro sourceFeatures targetFeatures t a b p X ha hlen hne hnd
    constructor
    · intro dSum weightSum hfold
      have hpos := FieldMorph.weightSum_pos sourceFeatures targetFeatures t a b p X ha hlen
        hne hnd dSum weightSum hfold
      refine ⟨hpos, ?_⟩
      unfold STVector2.divS fdiv
      simp [hpos.ne']
    · intro hsrc
      rw [FieldMorph.accum_fold_zip Real.sqrt (fun x y => x ^ y) X t a b p _ _ _ hlen,
        FieldMorph.fold_zip_sum]
      obtain ⟨ts, hts, _, _⟩ := Spec.collect_forall (fun _ : STVector2 ℝ × ℝ => True)
        ((List.zip sourceFeatures targetFeatures).map
          (fun q => Spec.term Real.sqrt (fun x y => x ^ y) X q.1 q.2 t a b p))
        (by
          intro o ho
          obtain ⟨q, hq, rfl⟩ := List.mem_map.mp ho
          exact ⟨_, Spec.term_eq X q.1 q.2 t a b p ha
            (hsrc q.1 (List.of_mem_zip hq).1) (hnd q hq), trivial⟩)
      rw [hts]
      exact ⟨_, _, rfl⟩
  · intro sourceFeatures t a b p X
    rfl

/-- C27, witness: the weight of the pixel `(3, 4)` for the segment
`(0, 0) -> (1, 0)` with `a = 1/2` is positive. -/
theorem FieldMorph_weights_positive_witness :
    ∃ w, FieldMorph.weight (fun x y : ℝ => x ^ y)
        (((⟨1, 0⟩ : STPoint2 ℝ).sub ⟨0, 0⟩).Length Real.sqrt) (1 / 5) (1 / 2)
        (FieldMorph.dist Real.sqrt 3 4 ⟨0, 0⟩ ⟨1, 0⟩ ⟨3, 4⟩) 1 = some w ∧ 0 < w :=
  FieldMorph_weights_positive.1 ⟨3, 4⟩ ⟨0, 0⟩ ⟨1, 0⟩ 3 4 (1 / 2) 1 (1 / 5) (by norm_num)
    (by simp)

/-- C28.  If every interpolated segment is the corresponding source segment
translated by a fixed vector `d` (`Pi = Pi' + d` and `Qi = Qi' + d`), with
`N >= 1` feature pairs, non-degenerate segments and `a > 0`, then for every
pixel `X = (x, y)` the sample point computed by `FieldMorph` is exactly
`X - d`, whatever `a > 0`, `b` and `p` are. -/
theorem FieldMorph_translation (sourceFeatures targetFeatures : List (Feature ℝ))
    (t a b p : ℝ) (d : STVector2 ℝ) (x y : Int) (ha : 0 < a)
    (hlen : sourceFeatures.length = targetFeatures.length) (hne : sourceFeatures ≠ [])
    (htr : ∀ q ∈ List.zip sourceFeatures targetFeatures,
      q.1.P ≠ q.1.Q ∧ Spec.lerpPoint q.1.P q.2.P t = q.1.P.addV d ∧
        Spec.lerpPoint q.1.Q q.2.Q t = q.1.Q.addV d) :
    FieldMorph.samplePoint Real.sqrt (fun x y => x ^ y) sourceFeatures targetFeatures
      t a b p x y = some ⟨(x : ℝ) - d.x, (y : ℝ) - d.y⟩ := by
  rw [FieldMorph.samplePoint_eq_spec _ _ _ _ _ _ _ _ _ _ hlen]
  exact Spec.samplePoint_translate sourceFeatures targetFeatures t a b p d _ ha hlen hne htr

/-- C28, witness: the segment `(0, 0) -> (1, 0)` morphing into
`(2, 0) -> (3, 0)`; at `t = 1/2` the interpolated segment is the source segment
moved by `d = (1, 0)`, and the pixel `(5, 7)` samples `(4, 7)`. -/
theorem FieldMorph_translation_witness :
    FieldMorph.samplePoint Real.sqrt (fun x y => x ^ y) [Example.seg ℝ] [Example.segShift ℝ]
      (1 / 2) (1 / 2) 1 (1 / 5) 5 7 =
        some ⟨((5 : Int) : ℝ) - (⟨1, 0⟩ : STVector2 ℝ).x,
          ((7 : Int) : ℝ) - (⟨1, 0⟩ : STVector2 ℝ).y⟩ :=
  FieldMorph_translation [Example.seg ℝ] [Example.segShift ℝ] (1 / 2) (1 / 2) 1 (1 / 5)
    ⟨1, 0⟩ 5 7 (by norm_num) rfl (by simp)
    (by
      intro q hq
      simp only [List.zip_cons_cons, List.zip_nil_right, List.mem_singleton] at hq
      subst hq
      simp only [Example.seg, Example.segShift, Spec.lerpPoint, Lerp, STPoint2.addV,
        STPoint2.mk.injEq]
      norm_num)

/-- C29.  For every pair of images, every two feature lists and every `t`,
in exact arithmetic `MorphImages(source, S, target, T, t)` and
`MorphImages(target, T, source, S, 1 - t)` are the same result (the same image
with the same pixel at every position, or both undefined), because
`BlendImages(A, B, t) = BlendImages(B, A, 1 - t)` for all images `A` and
`B`. -/
theorem MorphImages_reversal_symmetry {F : Type} [LinearOrderedField F] [FloorRing F]
    (sqrtf : F → F) (powf : F → F → F)
    (sourceImage : STImage) (sourceFeatures : List (Feature F))
    (targetImage : STImage) (targetFeatures : List (Feature F)) (t a b p : F) :
    MorphImages sqrtf powf sourceImage sourceFeatures targetImage targetFeatures t a b p =
      MorphImages sqrtf powf targetImage targetFeatures sourceImage sourceFeatures
        (1 - t) a b p ∧
    ∀ A B : STImage, BlendImages A B t = BlendImages B A (1 - t) :=
  ⟨MorphImages.reversal sqrtf powf sourceImage sourceFeatures targetImage targetFeatures
    t a b p, fun A B => BlendImages.swap A B t⟩

/-- C30, counterexample.  On binary32 floats, with the single feature pair
`(1,0) -> (2,0)`, `(0,0) -> (0,2)`, `t = 0.5`, `b = 1` and `p = 0`, the
displacement of the pixel `(0, 0)` is `D = (13421773 / 2^24, 7502999 / 2^24)`,
so that `X1' = X + D` has these coordinates.  With `a = 2` the weight is
`0.4f` and the sample point `X + (D * w) / w` is
`(13421774 / 2^24, 15005999 / 2^25)`, which is not `X1'`; the warp of the 1 by 1
image with pixel `(10, 20, 30, 255)` is `(1, 2, 3, 255)` with `a = 0.5` and
`(0, 1, 2, 255)` with `a = 2`: the output depends on `a`. -/
theorem FieldMorph_single_pair_counterexample :
    (Machine.FieldMorph.feature Example.ieee ⟨F32.ofInt 0, F32.ofInt 0⟩
        (Example.feature32 1 0 2 0) (Example.feature32 0 0 0 2)
        (F32.ofRat (1 / 2)) (F32.ofInt 2) (F32.ofInt 1) (F32.ofInt 0)).1 =
      ⟨F32.fin (13421773 / 16777216), F32.fin (7502999 / 16777216)⟩ ∧
    Machine.FieldMorph.samplePoint Example.ieee
        [Example.feature32 1 0 2 0] [Example.feature32 0 0 0 2]
        (F32.ofRat (1 / 2)) (F32.ofInt 2) (F32.ofInt 1) (F32.ofInt 0) 0 0 =
      some ⟨F32.fin (6710887 / 8388608), F32.fin (15005999 / 33554432)⟩ ∧
    Machine.FieldMorph Example.ieee Example.dot1
        [Example.feature32 1 0 2 0] [Example.feature32 0 0 0 2]
        (F32.ofRat (1 / 2)) (F32.ofRat (1 / 2)) (F32.ofInt 1) (F32.ofInt 0) =
      some ⟨1, 1, [⟨1, 2, 3, 255⟩]⟩ ∧
    Machine.FieldMorph Example.ieee Example.dot1
        [Example.feature32 1 0 2 0] [Example.feature32 0 0 0 2]
        (F32.ofRat (1 / 2)) (F32.ofInt 2) (F32.ofInt 1) (F32.ofInt 0) =
      some ⟨1, 1, [⟨0, 1, 2, 255⟩]⟩ := by
  decide!

/-- C30, amended.  In exact arithmetic (over the reals, with the real square
root and power): with exactly one feature pair, a non-degenerate source segment, a
non-degenerate interpolated segment and `a > 0`, the sample point `FieldMorph`
computes for every pixel `X = (x, y)` is the single reconstructed point
`X1' = P1' + u*(Q1' - P1') + v*perp(Q1' - P1') / |Q1' - P1'|`; the image
`FieldMorph` returns is the same for all weighting parameters `a > 0`, `b`,
`p`, and on a well-formed image it is defined. -/
theorem FieldMorph_single_pair (image : STImage) (sf tf : Feature ℝ)
    (t a b p a' b' p' : ℝ) (ha : 0 < a) (ha' : 0 < a') (hsrc : sf.P ≠ sf.Q)
    (hint : Spec.lerpPoint sf.P tf.P t ≠ Spec.lerpPoint sf.Q tf.Q t) :
    (∀ x y : Int,
      FieldMorph.samplePoint Real.sqrt (fun x y => x ^ y) [sf] [tf] t a b p x y =
        some (Spec.rebuild Real.sqrt
          (Spec.u ⟨(x : ℝ), (y : ℝ)⟩ (Spec.lerpPoint sf.P tf.P t) (Spec.lerpPoint sf.Q tf.Q t))
          (Spec.v Real.sqrt ⟨(x : ℝ), (y : ℝ)⟩ (Spec.lerpPoint sf.P tf.P t)
            (Spec.lerpPoint sf.Q tf.Q t))
          sf.P sf.Q)) ∧
    FieldMorph Real.sqrt (fun x y => x ^ y) image [sf] [tf] t a b p =
      FieldMorph Real.sqrt (fun x y => x ^ y) image [sf] [tf] t a' b' p' ∧
    (image.WF →
      ∃ r, FieldMorph Real.sqrt (fun x y => x ^ y) image [sf] [tf] t a b p = some r) := by
  have hsp : ∀ (a b p : ℝ), 0 < a → ∀ x y : Int,
      FieldMorph.samplePoint Real.sqrt (fun x y => x ^ y) [sf] [tf] t a b p x y =
        some (Spec.rebuild Real.sqrt
          (Spec.u ⟨(x : ℝ), (y : ℝ)⟩ (Spec.lerpPoint sf.P tf.P t) (Spec.lerpPoint sf.Q tf.Q t))
          (Spec.v Real.sqrt ⟨(x : ℝ), (y : ℝ)⟩ (Spec.lerpPoint sf.P tf.P t)
            (Spec.lerpPoint sf.Q tf.Q t))
          sf.P sf.Q) := by
    intro a b p ha x y
    rw [FieldMorph.samplePoint_eq_spec Real.sqrt (fun x y => x ^ y) [sf] [tf] t a b p x y rfl]
    exact Spec.samplePoint_single sf tf t a b p _ ha hsrc hint
  refine ⟨hsp a b p ha, ?_, ?_⟩
  · apply FieldMorph.congr_samplePoint
    intro x y
    rw [hsp a b p ha, hsp a' b' p' ha']
  · intro hwf
    obtain ⟨r, hr, _, _⟩ := FieldMorph.defined image hwf [sf] [tf] t a b p ha rfl (by simp)
      (by
        intro q hq
        simp only [List.zip_cons_cons, List.zip_nil_right, List.mem_singleton] at hq
        subst hq
        exact ⟨hsrc, hint⟩)
    exact ⟨r, hr⟩

/-- C30, witness: the pair `(0, 0) -> (1, 0)`, `(0, 0) -> (4, 0)` at `t = 1/2`
on a 2 by 2 image, with the weighting parameters `(1/2, 1, 1/5)` and
`(2, 3, 4)`. -/
theorem FieldMorph_single_pair_witness :
    FieldMorph Real.sqrt (fun x y => x ^ y) Example.opaque2 [Example.seg ℝ] [Example.seg4 ℝ]
        (1 / 2) (1 / 2) 1 (1 / 5) =
      FieldMorph Real.sqrt (fun x y => x ^ y) Example.opaque2 [Example.seg ℝ]
        [Example.seg4 ℝ] (1 / 2) 2 3 4 :=
  (FieldMorph_single_pair Example.opaque2 (Example.seg ℝ) (Example.seg4 ℝ) (1 / 2)
    (1 / 2) 1 (1 / 5) 2 3 4 (by norm_num) (by norm_num) (by simp [Example.seg])
    (by
      simp only [Example.seg, Example.seg4, Spec.lerpPoint, Lerp, ne_eq, STPoint2.mk.injEq]
      norm_num)).2.1

/-! ## Loops that are known to have completed -/

section RunLemmas

/-- A fold that succeeds still succeeds, with the same result, when its step
is replaced by one that agrees with it wherever it succeeds. -/
theorem foldlM_mono {σ ι : Type} (f g : σ → ι → Option σ)
    (hfg : ∀ i st st', f st i = some st' → g st i = some st') :
    ∀ (l : List ι) (s r : σ), l.foldlM f s = some r → l.foldlM g s = some r := by
  intro l
  induction l with
  | nil =>
    intro s r h
    exact h
  | cons i l ih =>
    intro s r h
    rw [List.foldlM_cons] at h ⊢
    cases hf : f s i with
    | none => simp [hf] at h
    | some s1 =>
      rw [hf] at h
      rw [hfg i s s1 hf]
      exact ih s1 r h

/-- In a fold that succeeds every step succeeded in the state it was run in. -/
theorem foldlM_some_each {σ ι : Type} (f : σ → ι → Option σ) :
    ∀ (l : List ι) (s r : σ), l.foldlM f s = some r →
      ∀ i ∈ l, ∃ st st', f st i = some st' := by
  intro l
  induction l with
  | nil =>
    intro s r _ i hi
    simp at hi
  | cons j l ih =>
    intro s r h i hi
    rw [List.foldlM_cons] at h
    cases hf : f s j with
    | none => simp [hf] at h
    | some s1 =>
      rw [hf] at h
      rcases List.mem_cons.mp hi with rfl | hmem
      · exact ⟨s, s1, hf⟩
      · exact ih s1 r h i hmem

/-- In a run of `forXY` that completes, the body succeeded at every position. -/
theorem forXY_some_each {σ : Type} (w h : Int) (body : Int → Int → σ → Option σ)
    (s r : σ) (hrun : forXY w h body s = some r) (x y : Nat) (hx : x < w.toNat)
    (hy : y < h.toNat) : ∃ st st', body (x : Int) (y : Int) st = some st' := by
  unfold forXY at hrun
  obtain ⟨st, st1, hrow⟩ := foldlM_some_each _ _ s r hrun x (List.mem_range.mpr hx)
  exact foldlM_some_each (fun s (y : Nat) => body (x : Int) (y : Int) s) _ st st1 hrow y
    (List.mem_range.mpr hy)

/-- A run of `forXY` that completes is also a run of the body made total by
leaving the state alone where the body fails. -/
theorem forXY_totalise {σ : Type} (w h : Int) (body : Int → Int → σ → Option σ)
    (s r : σ) (hrun : forXY w h body s = some r) :
    forXY w h (fun x y st => some ((body x y st).getD st)) s = some r := by
  unfold forXY at hrun ⊢
  refine foldlM_mono _ _ ?_ _ s r hrun
  intro x st st1 hrow
  refine foldlM_mono (fun s (y : Nat) => body (x : Int) (y : Int) s) _ ?_ _ st st1 hrow
  intro y s1 s2 hb
  simp [hb]

/-- The pixels after a run of `forXY` that completes, for a body that stores
`val x y` at `(x, y)` when it is defined and leaves the image alone when not. -/
theorem forXY_run_pixels {L : Type} (w h : Nat)
    (body : Int → Int → STImage × L → Option (STImage × L))
    (val : Int → Int → Option STColor4ub) (init : Int → Int → STColor4ub)
    (st0 r : STImage × L) (hs0 : st0.1.Sized w h)
    (hinit : ∀ x y : Int, 0 ≤ x → x < w → 0 ≤ y → y < h →
      st0.1.GetPixel x y = some (init x y))
    (hfail : ∀ (x y : Nat) (st : STImage × L), x < w → y < h → st.1.Sized w h →
      body x y st = none → val x y = none)
    (hbody : ∀ (x y : Nat) (st st' : STImage × L), x < w → y < h → st.1.Sized w h →
      body x y st = some st' → (val x y = none → st'.1 = st.1) ∧
        (∀ c, val x y = some c → st.1.SetPixel x y c = some st'.1))
    (hrun : forXY (w : Int) (h : Int) body st0 = some r) :
    r.1.Sized w h ∧
      ∀ x y : Int, 0 ≤ x → x < w → 0 ≤ y → y < h →
        r.1.GetPixel x y = some ((val x y).getD (init x y)) := by
  obtain ⟨st', hrun', hsz, hpix⟩ := forXY_pixels w h
    (fun x y st => some ((body x y st).getD st)) val init st0 hs0 hinit
    (by
      intro x y st hx hy hs
      refine ⟨(body x y st).getD st, rfl, ?_⟩
      cases hb : body (x : Int) (y : Int) st with
      | none =>
        have hv := hfail x y st hx hy hs hb
        refine ⟨fun _ => rfl, ?_⟩
        intro c hc
        rw [hv] at hc
        cases hc
      | some st1 => exact hbody x y st st1 hx hy hs hb)
  rw [forXY_totalise _ _ _ _ _ hrun] at hrun'
  cases hrun'
  exact ⟨hsz, hpix⟩

end RunLemmas

/-! ## The embedding over machine floats: the loop over features -/

section MachineLemmas

variable {Fl : Type}

/-- An iteration of the loop over features fails exactly when its index is
outside one of the two lists. -/
theorem Machine.FieldMorph.accum_eq_none (ops : FloatOps Fl) (X : STPoint2 Fl)
    (sourceFeatures targetFeatures : List (Feature Fl)) (t a b p : Fl)
    (acc : STVector2 Fl × Fl) (i : Nat) :
    Machine.FieldMorph.accum ops X sourceFeatures targetFeatures t a b p acc i = none ↔
      (sourceFeatures[i]? = none ∨ targetFeatures[i]? = none) := by
  unfold Machine.FieldMorph.accum
  cases sourceFeatures[i]? <;> cases targetFeatures[i]? <;> simp

/-- The loop over features reads both lists inside their ranges at every
index it visits exactly when the list it reads in step with its counter is
not the shorter one. -/
theorem Machine.FieldMorph.features_isSome_iff (ops : FloatOps Fl) (X : STPoint2 Fl)
    (sourceFeatures targetFeatures : List (Feature Fl)) (t a b p : Fl) :
    (∃ r, Machine.FieldMorph.features ops X sourceFeatures targetFeatures t a b p = some r) ↔
      targetFeatures.length ≤ sourceFeatures.length := by
  unfold Machine.FieldMorph.features
  constructor
  · rintro ⟨r, hr⟩
    by_contra hlt
    rw [foldlM_range_none _ sourceFeatures.length _ targetFeatures.length _ (by omega)] at hr
    · cases hr
    · intro st
      rw [Machine.FieldMorph.accum_eq_none]
      left
      simp
  · intro hle
    obtain ⟨r, hr, _⟩ := foldlM_range_inv
      (Machine.FieldMorph.accum ops X sourceFeatures targetFeatures t a b p)
      (fun _ _ => True) targetFeatures.length
      (⟨ops.ofInt 0, ops.ofInt 0⟩, ops.ofInt 0) trivial
      (by
        intro n st hn _
        have h1 : n < sourceFeatures.length := by omega
        have hs : ∃ st', Machine.FieldMorph.accum ops X sourceFeatures targetFeatures
            t a b p st n = some st' := by
          unfold Machine.FieldMorph.accum
          rw [List.getElem?_eq_getElem h1, List.getElem?_eq_getElem hn]
          exact ⟨_, rfl⟩
        obtain ⟨st', hst'⟩ := hs
        exact ⟨st', hst', trivial⟩)
    exact ⟨r, hr⟩

theorem Machine.FieldMorph.samplePoint_isSome_iff (ops : FloatOps Fl)
    (sourceFeatures targetFeatures : List (Feature Fl)) (t a b p : Fl) (x y : Int) :
    (∃ X', Machine.FieldMorph.samplePoint ops sourceFeatures targetFeatures t a b p x y
      = some X') ↔ targetFeatures.length ≤ sourceFeatures.length := by
  rw [← Machine.FieldMorph.features_isSome_iff ops ⟨ops.ofInt x, ops.ofInt y⟩
    sourceFeatures targetFeatures t a b p]
  unfold Machine.FieldMorph.samplePoint
  cases hf : Machine.FieldMorph.features ops ⟨ops.ofInt x, ops.ofInt y⟩
    sourceFeatures targetFeatures t a b p with
  | none => simp [hf]
  | some r =>
    simp only [hf]
    constructor
    · intro _
      exact ⟨r, rfl⟩
    · intro _
      exact ⟨_, rfl⟩

/-- What a successful iteration of the pixel loop of `FieldMorph` did. -/
theorem Machine.FieldMorph.body_cases (ops : FloatOps Fl) (image : STImage)
    (sourceFeatures targetFeatures : List (Feature Fl)) (t a b p : Fl) (x y : Int)
    (st st' : STImage × ReadLog)
    (hb : Machine.FieldMorph.body ops image sourceFeatures targetFeatures t a b p x y st
      = some st') :
    ∃ X', Machine.FieldMorph.samplePoint ops sourceFeatures targetFeatures t a b p x y
        = some X' ∧
      ((Machine.FieldMorph.outside ops image X' = true ∧ st' = st) ∨
        (Machine.FieldMorph.outside ops image X' = false ∧
          ∃ c reads r, Machine.biLerp ops X' image = some (c, reads) ∧
            st.1.SetPixel x y c = some r ∧ st' = (r, st.2 ++ reads))) := by
  unfold Machine.FieldMorph.body at hb
  cases hsp : Machine.FieldMorph.samplePoint ops sourceFeatures targetFeatures t a b p x y with
  | none => simp [hsp] at hb
  | some X' =>
    refine ⟨X', rfl, ?_⟩
    simp only [hsp] at hb
    by_cases hout : Machine.FieldMorph.outside ops image X' = true
    · rw [if_pos hout] at hb
      cases hb
      exact Or.inl ⟨hout, rfl⟩
    · rw [if_neg hout] at hb
      right
      refine ⟨by simpa using hout, ?_⟩
      cases hbl : Machine.biLerp ops X' image with
      | none => simp [hbl] at hb
      | some cr =>
        obtain ⟨c, reads⟩ := cr
        simp only [hbl] at hb
        cases hset : st.1.SetPixel x y c with
        | none => simp [hset] at hb
        | some r =>
          simp only [hset, Option.some.injEq] at hb
          exact ⟨c, reads, r, rfl, hset, hb.symm⟩

/-- Whatever the arithmetic and the arguments, an image returned by
`FieldMorph` has the size of the input image. -/
theorem Machine.FieldMorph.traced_dims (ops : FloatOps Fl) (image : STImage)
    (sourceFeatures targetFeatures : List (Feature Fl)) (t a b p : Fl)
    (st : STImage × ReadLog)
    (hrun : Machine.FieldMorph.traced ops image sourceFeatures targetFeatures t a b p
      = some st) :
    st.1.Sized image.mWidth image.mHeight := by
  unfold Machine.FieldMorph.traced at hrun
  by_cases hw : 0 < image.mWidth
  · by_cases hh : 0 < image.mHeight
    · simp only [STImage.create_eq hw hh] at hrun
      have hs0 := STImage.create_sized hw hh STImage.defaultColor
      refine forXY_some_inv _ _ _ (fun st => st.1.Sized image.mWidth image.mHeight)
        ?_ _ st hs0 hrun
      intro x y s s1 hI hb
      obtain ⟨X', _, hcase⟩ := Machine.FieldMorph.body_cases ops image _ _ t a b p x y s s1 hb
      rcases hcase with ⟨_, rfl⟩ | ⟨_, c, reads, r, _, hset, rfl⟩
      · exact hI
      · exact STImage.SetPixel_sized hI hset
    · simp [STImage.create, not_lt.mp hh] at hrun
  · simp [STImage.create, not_lt.mp hw] at hrun

/-- What a run of `FieldMorph` that returns has done, whatever the
arithmetic: the image returned has the size of the input; at every pixel the
sample point was computed; a pixel whose sample point fails the bounds test is
the default colour, and every other pixel is the colour `biLerp` returned for
its sample point. -/
theorem Machine.FieldMorph.run_spec (ops : FloatOps Fl) {image : STImage} (hwf : image.WF)
    (sourceFeatures targetFeatures : List (Feature Fl)) (t a b p : Fl)
    (r : STImage × ReadLog)
    (hrun : Machine.FieldMorph.traced ops image sourceFeatures targetFeatures t a b p
      = some r) :
    r.1.Sized image.mWidth image.mHeight ∧
    ∀ x y : Int, 0 ≤ x → x < image.mWidth → 0 ≤ y → y < image.mHeight →
      ∃ X', Machine.FieldMorph.samplePoint ops sourceFeatures targetFeatures t a b p x y
          = some X' ∧
        (Machine.FieldMorph.outside ops image X' = true →
          r.1.GetPixel x y = some STImage.defaultColor) ∧
        (Machine.FieldMorph.outside ops image X' = false →
          ∃ c reads, Machine.biLerp ops X' image = some (c, reads) ∧
            r.1.GetPixel x y = some c) := by
  have hw := hwf.1
  have hh := hwf.2.1
  obtain ⟨W, hW⟩ := Int.eq_ofNat_of_zero_le hw.le
  obtain ⟨H, hH⟩ := Int.eq_ofNat_of_zero_le hh.le
  have hdims := Machine.FieldMorph.traced_dims ops image _ _ t a b p r hrun
  refine ⟨hdims, ?_⟩
  unfold Machine.FieldMorph.traced at hrun
  simp only [STImage.create_eq hw hh] at hrun
  have hs0 := STImage.create_sized hw hh STImage.defaultColor
  rw [hW, hH] at hrun hs0
  have hbody_set : ∀ (x y : Nat) (st : STImage × ReadLog), x < W → y < H →
      st.1.Sized W H → ∀ c, ∃ r', st.1.SetPixel x y c = some r' := by
    intro x y st hx hy hs c
    exact ⟨_, STImage.SetPixel_eq hs (x := (x : Int)) (y := (y : Int))
      (by omega) (by omega) (by omega) (by omega) c⟩
  obtain ⟨_, hpix⟩ := forXY_run_pixels W H
    (Machine.FieldMorph.body ops image sourceFeatures targetFeatures t a b p)
    (fun x y =>
      match Machine.FieldMorph.samplePoint ops sourceFeatures targetFeatures t a b p x y with
      | some X' => if Machine.FieldMorph.outside ops image X' = true then none
                   else (Machine.biLerp ops X' image).map (fun q => q.1)
      | none => none)
    (fun _ _ => STImage.defaultColor) _ r hs0
    (fun x y hx0 hxw hy0 hyh => STImage.GetPixel_replicate _ hx0 hxw hy0 hyh)
    (by
      intro x y st hx hy hs hb
      unfold Machine.FieldMorph.body at hb
      cases hsp : Machine.FieldMorph.samplePoint ops sourceFeatures targetFeatures
          t a b p x y with
      | none => simp only [hsp]
      | some X' =>
        simp only [hsp] at hb ⊢
        by_cases hout : Machine.FieldMorph.outside ops image X' = true
        · rw [if_pos hout]
        · rw [if_neg hout] at hb ⊢
          cases hbl : Machine.biLerp ops X' image with
          | none => rfl
          | some cr =>
            obtain ⟨c, reads⟩ := cr
            obtain ⟨r', hr'⟩ := hbody_set x y st hx hy hs c
            simp [hbl, hr'] at hb)
    (by
      intro x y st st' hx hy hs hb
      obtain ⟨X', hX', hcase⟩ :=
        Machine.FieldMorph.body_cases ops image _ _ t a b p x y st st' hb
      simp only [hX']
      rcases hcase with ⟨hout, rfl⟩ | ⟨hout, c, reads, r', hbl, hset, rfl⟩
      · refine ⟨fun _ => rfl, ?_⟩
        intro c hc
        rw [if_pos hout] at hc
        cases hc
      · have hout' : ¬ Machine.FieldMorph.outside ops image X' = true := by simp [hout]
        rw [if_neg hout', hbl]
        refine ⟨fun hn => by simp at hn, ?_⟩
        intro c' hc'
        simp only [Option.map_some', Option.some.injEq] at hc'
        rw [← hc', hset])
    hrun
  intro x y hx0 hxw hy0 hyh
  rw [hW] at hxw
  rw [hH] at hyh
  obtain ⟨xn, rfl⟩ := Int.eq_ofNat_of_zero_le hx0
  obtain ⟨yn, rfl⟩ := Int.eq_ofNat_of_zero_le hy0
  obtain ⟨st, st', hb⟩ := forXY_some_each _ _ _ _ r hrun xn yn
    (by simpa using hxw) (by simpa using hyh)
  obtain ⟨X', hX', hcase⟩ :=
    Machine.FieldMorph.body_cases ops image _ _ t a b p xn yn st st' hb
  have hp := hpix xn yn hx0 hxw hy0 hyh
  simp only [hX'] at hp
  refine ⟨X', hX', ?_, ?_⟩
  · intro hout
    rw [hp, if_pos hout]
    rfl
  · intro hout
    have hout' : ¬ Machine.FieldMorph.outside ops image X' = true := by simp [hout]
    rcases hcase with ⟨ho, _⟩ | ⟨_, c, reads, r', hbl, _, _⟩
    · exact absurd ho hout'
    · refine ⟨c, reads, hbl, ?_⟩
      rw [hp, if_neg hout', hbl]
      rfl

/-- On a well-formed image `FieldMorph` returns an image exactly when, at
every pixel, the sample point is computed without reading a feature list out
of range and either fails the bounds test or is one for which `biLerp`
returns (no assertion of `GetPixel` fails). -/
theorem Machine.FieldMorph.returns_iff (ops : FloatOps Fl) {image : STImage} (hwf : image.WF)
    (sourceFeatures targetFeatures : List (Feature Fl)) (t a b p : Fl) :
    (∃ r, Machine.FieldMorph.traced ops image sourceFeatures targetFeatures t a b p
      = some r) ↔
    ∀ x y : Int, 0 ≤ x → x < image.mWidth → 0 ≤ y → y < image.mHeight →
      ∃ X', Machine.FieldMorph.samplePoint ops sourceFeatures targetFeatures t a b p x y
          = some X' ∧
        (Machine.FieldMorph.outside ops image X' = true ∨
          ∃ c reads, Machine.biLerp ops X' image = some (c, reads)) := by
  constructor
  · rintro ⟨r, hrun⟩ x y hx0 hxw hy0 hyh
    obtain ⟨X', hX', _, hin⟩ :=
      (Machine.FieldMorph.run_spec ops hwf _ _ t a b p r hrun).2 x y hx0 hxw hy0 hyh
    refine ⟨X', hX', ?_⟩
    cases hout : Machine.FieldMorph.outside ops image X' with
    | true => exact Or.inl rfl
    | false =>
      obtain ⟨c, reads, hbl, _⟩ := hin hout
      exact Or.inr ⟨c, reads, hbl⟩
  · intro hall
    have hw := hwf.1
    have hh := hwf.2.1
    obtain ⟨W, hW⟩ := Int.eq_ofNat_of_zero_le hw.le
    obtain ⟨H, hH⟩ := Int.eq_ofNat_of_zero_le hh.le
    unfold Machine.FieldMorph.traced
    simp only [STImage.create_eq hw hh]
    have hs0 := STImage.create_sized hw hh STImage.defaultColor
    rw [hW, hH] at hs0 ⊢
    obtain ⟨st', hrun, _⟩ := forXY_inv W H
      (Machine.FieldMorph.body ops image sourceFeatures targetFeatures t a b p)
      (fun _ _ st => st.1.Sized W H)
      (⟨H, W, List.replicate ((W : Int) * (H : Int)).toNat STImage.defaultColor⟩, [])
      hs0 (fun _ _ hI => hI)
      (by
        intro x y st hx hy hs
        obtain ⟨X', hX', hcase⟩ := hall x y (by omega) (by omega) (by omega) (by omega)
        by_cases hout : Machine.FieldMorph.outside ops image X' = true
        · refine ⟨st, ?_, hs⟩
          unfold Machine.FieldMorph.body
          simp only [hX', if_pos hout]
        · rcases hcase with ho | ⟨c, reads, hbl⟩
          · exact absurd ho hout
          · have hset := STImage.SetPixel_eq hs (x := (x : Int)) (y := (y : Int))
              (by omega) (by omega) (by omega) (by omega) c
            refine ⟨(_, st.2 ++ reads), ?_, STImage.SetPixel_sized hs hset⟩
            unfold Machine.FieldMorph.body
            simp only [hX', if_neg hout, hbl, hset])
    exact ⟨st', hrun⟩

/-- The colour `biLerp` returns: the two horizontal interpolants are colours,
so they are converted to 8 bits before the vertical interpolation. -/
theorem Machine.biLerp_some (ops : FloatOps Fl) (X : STPoint2 Fl) (image : STImage)
    (c : STColor4ub) (reads : ReadLog) (h : Machine.biLerp ops X image = some (c, reads)) :
    ∃ c0 c1 c2 c3 l0 l1 l2 l3,
      Machine.biLerp.corner ops ⟨ops.floorf X.x, ops.floorf X.y⟩ image = some (c0, l0) ∧
      Machine.biLerp.corner ops ⟨ops.ceilf X.x, ops.floorf X.y⟩ image = some (c1, l1) ∧
      Machine.biLerp.corner ops ⟨ops.floorf X.x, ops.ceilf X.y⟩ image = some (c2, l2) ∧
      Machine.biLerp.corner ops ⟨ops.ceilf X.x, ops.ceilf X.y⟩ image = some (c3, l3) ∧
      c = Machine.colorLerp ops
        (Machine.colorLerp ops c0 c1 (ops.sub X.x (ops.floorf X.x)))
        (Machine.colorLerp ops c2 c3 (ops.sub X.x (ops.floorf X.x)))
        (ops.sub X.y (ops.floorf X.y)) ∧
      reads = l0 ++ l1 ++ l2 ++ l3 := by
  unfold Machine.biLerp at h
  simp only at h
  cases h0 : Machine.biLerp.corner ops ⟨ops.floorf X.x, ops.floorf X.y⟩ image with
  | none => simp [h0] at h
  | some q0 =>
    cases h1 : Machine.biLerp.corner ops ⟨ops.ceilf X.x, ops.floorf X.y⟩ image with
    | none => simp [h0, h1] at h
    | some q1 =>
      cases h2 : Machine.biLerp.corner ops ⟨ops.floorf X.x, ops.ceilf X.y⟩ image with
      | none => simp [h0, h1, h2] at h
      | some q2 =>
        cases h3 : Machine.biLerp.corner ops ⟨ops.ceilf X.x, ops.ceilf X.y⟩ image with
        | none => simp [h0, h1, h2, h3] at h
        | some q3 =>
          obtain ⟨c0, l0⟩ := q0
          obtain ⟨c1, l1⟩ := q1
          obtain ⟨c2, l2⟩ := q2
          obtain ⟨c3, l3⟩ := q3
          simp only [h0, h1, h2, h3, Option.some.injEq, Prod.mk.injEq] at h
          exact ⟨c0, c1, c2, c3, l0, l1, l2, l3, rfl, rfl, rfl, rfl, h.1.symm, h.2.symm⟩

/-- A corner of `biLerp` is the sentinel `(0, 0, 0, 255)`, read from nowhere,
when it is at or beyond the width or the height, and otherwise the pixel at its
coordinates converted to `int`. -/
theorem Machine.biLerp.corner_cases (ops : FloatOps Fl) (v : STPoint2 Fl) (image : STImage)
    (c : STColor4ub) (l : ReadLog) (h : Machine.biLerp.corner ops v image = some (c, l)) :
    ((ops.ge v.x (ops.ofInt image.mWidth) = true ∨
        ops.ge v.y (ops.ofInt image.mHeight) = true) ∧ c = ⟨0, 0, 0, 255⟩ ∧ l = []) ∨
    (ops.ge v.x (ops.ofInt image.mWidth) = false ∧
      ops.ge v.y (ops.ofInt image.mHeight) = false ∧
      image.GetPixel (ops.toInt v.x) (ops.toInt v.y) = some c ∧
      l = [(ops.toInt v.x, ops.toInt v.y)]) := by
  unfold Machine.biLerp.corner at h
  by_cases hge : ops.ge v.x (ops.ofInt image.mWidth) = true ∨
      ops.ge v.y (ops.ofInt image.mHeight) = true
  · rw [if_pos hge] at h
    simp only [Option.some.injEq, Prod.mk.injEq] at h
    exact Or.inl ⟨hge, h.1.symm, h.2.symm⟩
  · rw [if_neg hge] at h
    push_neg at hge
    right
    cases hg : image.GetPixel (ops.toInt v.x) (ops.toInt v.y) with
    | none => simp [hg] at h
    | some c' =>
      simp only [hg, Option.some.injEq, Prod.mk.injEq] at h
      exact ⟨by simpa using hge.1, by simpa using hge.2, by rw [h.1], h.2.symm⟩

end MachineLemmas

/-! ## The embedding over machine floats: `BlendImages` -/

section MachineBlend

variable {Fl : Type}

/-- What `BlendImages` does on well-formed inputs, whatever the arithmetic:
it returns an image of the minimum dimensions whose pixel at `(x, y)` is the
`colorLerp` of the two input pixels at `(x, y)`. -/
theorem Machine.BlendImages.channels_spec (ops : FloatOps Fl) {image1 image2 : STImage}
    (hwf1 : image1.WF) (hwf2 : image2.WF) (t : Fl) :
    ∃ r, Machine.BlendImages ops image1 image2 t = some r ∧
      r.Sized (min image1.mWidth image2.mWidth) (min image1.mHeight image2.mHeight) ∧
      ∀ x y : Int, 0 ≤ x → x < min image1.mWidth image2.mWidth →
        0 ≤ y → y < min image1.mHeight image2.mHeight →
        ∃ p1 p2, image1.GetPixel x y = some p1 ∧ image2.GetPixel x y = some p2 ∧
          r.GetPixel x y = some (Machine.colorLerp ops p1 p2 t) := by
  have hw : 0 < min image1.mWidth image2.mWidth := lt_min hwf1.1 hwf2.1
  have hh : 0 < min image1.mHeight image2.mHeight := lt_min hwf1.2.1 hwf2.2.1
  obtain ⟨W, hW⟩ := Int.eq_ofNat_of_zero_le hw.le
  obtain ⟨H, hH⟩ := Int.eq_ofNat_of_zero_le hh.le
  have hin : ∀ x y : Int, 0 ≤ x → x < (W : Int) → 0 ≤ y → y < (H : Int) →
      ∃ p1 p2, image1.GetPixel x y = some p1 ∧ image2.GetPixel x y = some p2 := by
    intro x y hx0 hxw hy0 hyh
    rw [← hW] at hxw
    rw [← hH] at hyh
    obtain ⟨p1, h1, _⟩ := STImage.GetPixel_isSome hwf1.sized hx0
      (lt_of_lt_of_le hxw (min_le_left _ _)) hy0 (lt_of_lt_of_le hyh (min_le_left _ _))
    obtain ⟨p2, h2, _⟩ := STImage.GetPixel_isSome hwf2.sized hx0
      (lt_of_lt_of_le hxw (min_le_right _ _)) hy0 (lt_of_lt_of_le hyh (min_le_right _ _))
    exact ⟨p1, p2, h1, h2⟩
  unfold Machine.BlendImages Machine.BlendImages.traced
  simp only [STImage.create_eq hw hh]
  have hs0 := STImage.create_sized hw hh STImage.defaultColor
  rw [hW, hH] at hs0 ⊢
  obtain ⟨st', hrun, hsz, hpix⟩ := forXY_pixels W H
    (Machine.BlendImages.body ops image1 image2 t)
    (fun x y => match image1.GetPixel x y, image2.GetPixel x y with
      | some p1, some p2 => some (Machine.colorLerp ops p1 p2 t)
      | _, _ => none)
    (fun _ _ => STImage.defaultColor)
    (⟨H, W, List.replicate ((W : Int) * (H : Int)).toNat STImage.defaultColor⟩, [], []) hs0
    (fun x y hx0 hxw hy0 hyh => STImage.GetPixel_replicate _ hx0 hxw hy0 hyh)
    (by
      intro x y st hx hy hs
      obtain ⟨p1, p2, h1, h2⟩ := hin x y (by omega) (by omega) (by omega) (by omega)
      have hset := STImage.SetPixel_eq hs (x := (x : Int)) (y := (y : Int))
        (by omega) (by omega) (by omega) (by omega) (Machine.colorLerp ops p1 p2 t)
      refine ⟨(⟨H, W, st.1.mPixels.set ((y : Int) * (W : Int) + (x : Int)).toNat
          (Machine.colorLerp ops p1 p2 t)⟩, st.2.1 ++ [((x : Int), (y : Int))],
          st.2.2 ++ [((x : Int), (y : Int))]), ?_, ?_, ?_⟩
      · unfold Machine.BlendImages.body
        simp only [h1, h2, hset]
      · simp [h1, h2]
      · intro c hc
        simp only [h1, h2, Option.some.injEq] at hc
        rw [← hc, hset])
  refine ⟨st'.1, by simp [hrun], hsz, ?_⟩
  intro x y hx0 hxw hy0 hyh
  obtain ⟨p1, p2, h1, h2⟩ := hin x y hx0 hxw hy0 hyh
  refine ⟨p1, p2, h1, h2, ?_⟩
  rw [hpix x y hx0 hxw hy0 hyh]
  simp [h1, h2]

end MachineBlend

/-! ## The interpolated segment of the two warps -/

section GeometryLemmas

variable {F : Type} [LinearOrderedField F] [FloorRing F]

omit [FloorRing F] in
/-- The loop body of `FieldMorph` is the interpolation of the segment
followed by the rest of the body. -/
theorem FieldMorph.feature_eq_displace (sqrtf : F → F) (powf : F → F → F) (X : STPoint2 F)
    (sf tf : Feature F) (t a b p : F) :
    FieldMorph.feature sqrtf powf X sf tf t a b p =
      FieldMorph.displace sqrtf powf X (FieldMorph.interpolated sf tf t) sf a b p := rfl

omit [FloorRing F] in
/-- Interpolating from the target to the source at `1 - t` gives the segment
interpolated from the source to the target at `t`. -/
theorem FieldMorph.interpolated_swap (sf tf : Feature F) (t : F) :
    FieldMorph.interpolated tf sf (1 - t) = FieldMorph.interpolated sf tf t := by
  unfold FieldMorph.interpolated
  simp only [Lerp_swap tf.P.x, Lerp_swap tf.P.y, Lerp_swap tf.Q.x, Lerp_swap tf.Q.y,
    sub_sub_cancel]

omit [FloorRing F] in
/-- The iteration `i` of the loop over features, in terms of the interpolated
segment. -/
theorem FieldMorph.accum_eq_displace (sqrtf : F → F) (powf : F → F → F) (X : STPoint2 F)
    (sourceFeatures targetFeatures : List (Feature F)) (t a b p : F)
    (acc : STVector2 F × F) (i : Nat) (sf tf : Feature F)
    (hs : sourceFeatures[i]? = some sf) (ht : targetFeatures[i]? = some tf) :
    FieldMorph.accum sqrtf powf X sourceFeatures targetFeatures t a b p acc i =
      match FieldMorph.displace sqrtf powf X (FieldMorph.interpolated sf tf t) sf a b p with
      | some (Di, weight) => some (acc.1.add (Di.mulS weight), acc.2 + weight)
      | none => none := by
  unfold FieldMorph.accum
  simp only [hs, ht, FieldMorph.feature_eq_displace]

end GeometryLemmas

/-! ## Binary32 runs -/

section BinaryLemmas

theorem F32.mul_nan_left (x : F32) : F32.mul F32.nan x = F32.nan := by cases x <;> rfl

theorem F32.add_nan_right (x : F32) : F32.add x F32.nan = F32.nan := by cases x <;> rfl

theorem F32.div_nan_left (x : F32) : F32.div F32.nan x = F32.nan := by cases x <;> rfl

/-- The sample point of a pixel when there is one feature pair. -/
theorem Machine.FieldMorph.samplePoint_one_pair {Fl : Type} (ops : FloatOps Fl)
    (sf tf : Feature Fl) (t a b p : Fl) (x y : Int) :
    Machine.FieldMorph.samplePoint ops [sf] [tf] t a b p x y =
      some (Machine.addPV ops ⟨ops.ofInt x, ops.ofInt y⟩
        (Machine.divS ops
          (Machine.addVV ops ⟨ops.ofInt 0, ops.ofInt 0⟩
            (Machine.mulS ops
              (Machine.FieldMorph.feature ops ⟨ops.ofInt x, ops.ofInt y⟩ sf tf t a b p).1
              (Machine.FieldMorph.feature ops ⟨ops.ofInt x, ops.ofInt y⟩ sf tf t a b p).2))
          (ops.add (ops.ofInt 0)
            (Machine.FieldMorph.feature ops ⟨ops.ofInt x, ops.ofInt y⟩ sf tf t a b p).2))) :=
  rfl

/-- The pixel loops of a 1 by 1 image run the body once. -/
theorem forXY_one {σ : Type} (body : Int → Int → σ → Option σ) (s : σ) :
    forXY 1 1 body s = body 0 0 s := by
  simp [forXY, List.range_succ, List.foldlM]

/-- With the source feature `(0,0) -> (1,0)`, the target feature
`(1,0) -> (0,0)` and `t = 0.5`, the displacement of the pixel `(0, 0)` is a
pair of NaNs, whatever `powf`, `a`, `b` and `p` are. -/
theorem Machine.FieldMorph.opposite_displacement (pw : F32 → F32 → F32) (a b p : F32) :
    (Machine.FieldMorph.feature (binary32 pw) ⟨F32.ofInt 0, F32.ofInt 0⟩
        (Example.feature32 0 0 1 0) (Example.feature32 1 0 0 0)
        (F32.ofRat (1 / 2)) a b p).1 = ⟨F32.nan, F32.nan⟩ := by
  have h : (Machine.FieldMorph.feature (binary32 pw) ⟨F32.ofInt 0, F32.ofInt 0⟩
        (Example.feature32 0 0 1 0) (Example.feature32 1 0 0 0)
        (F32.ofRat (1 / 2)) a b p).1 =
      (Machine.FieldMorph.feature Example.ieee ⟨F32.ofInt 0, F32.ofInt 0⟩
        (Example.feature32 0 0 1 0) (Example.feature32 1 0 0 0)
        (F32.ofRat (1 / 2)) (F32.ofInt 0) (F32.ofInt 0) (F32.ofInt 0)).1 := rfl
  rw [h]
  decide!

/-- The sample point of the pixel `(0, 0)` for these two features is a pair of
NaNs. -/
theorem Machine.FieldMorph.opposite_samplePoint (pw : F32 → F32 → F32) (a b p : F32) :
    Machine.FieldMorph.samplePoint (binary32 pw)
        [Example.feature32 0 0 1 0] [Example.feature32 1 0 0 0]
        (F32.ofRat (1 / 2)) a b p 0 0 = some ⟨F32.nan, F32.nan⟩ := by
  have hD := Machine.FieldMorph.opposite_displacement pw a b p
  rw [Machine.FieldMorph.samplePoint_one_pair]
  have h0 : (binary32 pw).ofInt 0 = F32.ofInt 0 := rfl
  rw [h0, hD]
  simp only [Machine.addVV, Machine.mulS, Machine.divS, Machine.addPV]
  have hm : ∀ z, (binary32 pw).mul F32.nan z = F32.nan := F32.mul_nan_left
  have ha : ∀ z, (binary32 pw).add z F32.nan = F32.nan := F32.add_nan_right
  have hd : ∀ z, (binary32 pw).div F32.nan z = F32.nan := F32.div_nan_left
  simp only [hm, ha, hd]

/-- The warp of a 1 by 1 image with these two features ends in the assertion
of `GetPixel`. -/
theorem Machine.FieldMorph.opposite_run (pw : F32 → F32 → F32) (a b p : F32) :
    Machine.FieldMorph (binary32 pw) Example.dot1
        [Example.feature32 0 0 1 0] [Example.feature32 1 0 0 0]
        (F32.ofRat (1 / 2)) a b p = none := by
  have hs := Machine.FieldMorph.opposite_samplePoint pw a b p
  have hb : ∀ st, Machine.FieldMorph.body (binary32 pw) Example.dot1
        [Example.feature32 0 0 1 0] [Example.feature32 1 0 0 0]
        (F32.ofRat (1 / 2)) a b p 0 0 st = none := by
    intro st
    have ho : Machine.FieldMorph.outside (binary32 pw) Example.dot1 ⟨F32.nan, F32.nan⟩
        = false := rfl
    have hbl : Machine.biLerp (binary32 pw) ⟨F32.nan, F32.nan⟩ Example.dot1 = none := by
      have h : Machine.biLerp (binary32 pw) ⟨F32.nan, F32.nan⟩ Example.dot1 =
          Machine.biLerp Example.ieee ⟨F32.nan, F32.nan⟩ Example.dot1 := rfl
      rw [h]
      decide!
    simp only [Machine.FieldMorph.body, hs, ho, hbl]
    simp
  have hc : STImage.create Example.dot1.mWidth Example.dot1.mHeight STImage.defaultColor =
      some ⟨1, 1, [STImage.defaultColor]⟩ := by decide!
  simp only [Machine.FieldMorph, Machine.FieldMorph.traced, hc, forXY_one, hb]
  rfl

/-- The warp of the 3 by 1 image by two pixels to the right, on binary32. -/
theorem Machine.FieldMorph.shift_run :
    Machine.FieldMorph Example.ieee Example.row3
        [Example.feature32 0 0 1 0] [Example.feature32 2 0 3 0]
        (F32.ofInt 1) (F32.ofRat (1 / 2)) (F32.ofInt 1) (F32.ofInt 0) =
      some ⟨1, 3, [⟨0, 0, 0, 0⟩, ⟨0, 0, 0, 0⟩, ⟨10, 20, 30, 255⟩]⟩ := by
  decide!

end BinaryLemmas

/-! ## The embedding over machine floats: further lemmas -/

section MachineClaimLemmas

variable {Fl : Type}

/-- The bounds test of `FieldMorph` as a disjunction. -/
theorem Machine.FieldMorph.outside_iff (ops : FloatOps Fl) (image : STImage)
    (X_prime : STPoint2 Fl) :
    Machine.FieldMorph.outside ops image X_prime = true ↔
      (ops.lt X_prime.x (ops.ofInt 0) = true ∨
        ops.ge X_prime.x (ops.ofInt image.mWidth) = true ∨
        ops.lt X_prime.y (ops.ofInt 0) = true ∨
        ops.ge X_prime.y (ops.ofInt image.mHeight) = true) := by
  unfold Machine.FieldMorph.outside
  simp only [Bool.or_eq_true]
  tauto

end MachineClaimLemmas

/-! ## The claims on machine floats -/

/-- C3.  Whatever the float arithmetic does, an image returned by
`FieldMorph` has the width and the height of the input image, for all feature
lists and all `t`, `a`, `b`, `p`; and on a well-formed image with feature lists
of equal length every pixel has a sample point and `FieldMorph` returns an
image exactly when no assertion of `GetPixel` fails, that is when for every
pixel the sample point is outside the image or `biLerp` returns a colour for
it. -/
theorem FieldMorph_preserves_dimensions {Fl : Type} (ops : FloatOps Fl) (image : STImage)
    (sourceFeatures targetFeatures : List (Feature Fl)) (t a b p : Fl) :
    (∀ r, Machine.FieldMorph ops image sourceFeatures targetFeatures t a b p = some r →
      r.mWidth = image.mWidth ∧ r.mHeight = image.mHeight) ∧
    (image.WF → sourceFeatures.length = targetFeatures.length →
      (∀ x y : Int,
        ∃ X', Machine.FieldMorph.samplePoint ops sourceFeatures targetFeatures t a b p x y
          = some X') ∧
      ((∃ r, Machine.FieldMorph ops image sourceFeatures targetFeatures t a b p = some r) ↔
        ∀ x y : Int, 0 ≤ x → x < image.mWidth → 0 ≤ y → y < image.mHeight →
          ∀ X', Machine.FieldMorph.samplePoint ops sourceFeatures targetFeatures t a b p x y
              = some X' →
            (Machine.FieldMorph.outside ops image X' = true ∨
              ∃ c reads, Machine.biLerp ops X' image = some (c, reads)))) := by
  constructor
  · intro r hr
    unfold Machine.FieldMorph at hr
    obtain ⟨st, hst, rfl⟩ := Option.map_eq_some'.mp hr
    have hsz := Machine.FieldMorph.traced_dims ops image _ _ t a b p st hst
    exact ⟨hsz.1, hsz.2.1⟩
  · intro hwf hlen
    have hsp : ∀ x y : Int,
        ∃ X', Machine.FieldMorph.samplePoint ops sourceFeatures targetFeatures t a b p x y
          = some X' :=
      fun x y => (Machine.FieldMorph.samplePoint_isSome_iff ops _ _ t a b p x y).mpr
        (le_of_eq hlen.symm)
    refine ⟨hsp, ?_⟩
    have hret := Machine.FieldMorph.returns_iff ops hwf sourceFeatures targetFeatures t a b p
    constructor
    · rintro ⟨r, hr⟩
      unfold Machine.FieldMorph at hr
      obtain ⟨st, hst, _⟩ := Option.map_eq_some'.mp hr
      intro x y hx0 hxw hy0 hyh X' hX'
      obtain ⟨X'', hX'', h⟩ := hret.mp ⟨st, hst⟩ x y hx0 hxw hy0 hyh
      rw [hX'] at hX''
      cases hX''
      exact h
    · intro h
      obtain ⟨st, hst⟩ := hret.mpr (by
        intro x y hx0 hxw hy0 hyh
        obtain ⟨X', hX'⟩ := hsp x y
        exact ⟨X', hX', h x y hx0 hxw hy0 hyh X' hX'⟩)
      exact ⟨st.1, by simp [Machine.FieldMorph, hst]⟩

/-- C3, witness: on binary32 the warp of the 3 by 1 image by two pixels to the
right returns an image that is 3 by 1. -/
theorem FieldMorph_preserves_dimensions_witness :
    ∃ r, Machine.FieldMorph Example.ieee Example.row3
        [Example.feature32 0 0 1 0] [Example.feature32 2 0 3 0]
        (F32.ofInt 1) (F32.ofRat (1 / 2)) (F32.ofInt 1) (F32.ofInt 0) = some r ∧
      r.mWidth = 3 ∧ r.mHeight = 1 :=
  ⟨_, Machine.FieldMorph.shift_run,
    (FieldMorph_preserves_dimensions Example.ieee Example.row3
      [Example.feature32 0 0 1 0] [Example.feature32 2 0 3 0]
      (F32.ofInt 1) (F32.ofRat (1 / 2)) (F32.ofInt 1) (F32.ofInt 0)).1 _
      Machine.FieldMorph.shift_run⟩

/-- C4.  Out-of-bounds sample, whatever the float arithmetic does: on a
well-formed image, with a target list not longer than the source list, every
output pixel has a sample point `X'`; in the image `FieldMorph` returns, a pixel
`(x, y)` for which one of the tests `X'.x < 0`, `X'.x >= width`, `X'.y < 0`,
`X'.y >= height` holds is the default value `(0, 0, 0, 0)`, and the loop
iteration for it leaves the result and the read log as they were (no pixel of
the input is read); every other pixel is the colour `biLerp(X', image)`.  An
image is returned whenever `biLerp` returns a colour for each sample point
that passes the tests. -/
theorem FieldMorph_out_of_bounds_sample {Fl : Type} (ops : FloatOps Fl) (image : STImage)
    (hwf : image.WF) (sourceFeatures targetFeatures : List (Feature Fl)) (t a b p : Fl)
    (hlen : targetFeatures.length ≤ sourceFeatures.length) :
    (∀ x y : Int,
      ∃ X', Machine.FieldMorph.samplePoint ops sourceFeatures targetFeatures t a b p x y
        = some X') ∧
    ((∀ x y : Int, 0 ≤ x → x < image.mWidth → 0 ≤ y → y < image.mHeight →
        ∀ X', Machine.FieldMorph.samplePoint ops sourceFeatures targetFeatures t a b p x y
            = some X' →
          ¬ (ops.lt X'.x (ops.ofInt 0) = true ∨ ops.ge X'.x (ops.ofInt image.mWidth) = true ∨
            ops.lt X'.y (ops.ofInt 0) = true ∨ ops.ge X'.y (ops.ofInt image.mHeight) = true) →
          ∃ c reads, Machine.biLerp ops X' image = some (c, reads)) →
      ∃ r, Machine.FieldMorph ops image sourceFeatures targetFeatures t a b p = some r) ∧
    (∀ r, Machine.FieldMorph ops image sourceFeatures targetFeatures t a b p = some r →
      ∀ x y : Int, 0 ≤ x → x < image.mWidth → 0 ≤ y → y < image.mHeight →
        ∀ X', Machine.FieldMorph.samplePoint ops sourceFeatures targetFeatures t a b p x y
            = some X' →
          ((ops.lt X'.x (ops.ofInt 0) = true ∨ ops.ge X'.x (ops.ofInt image.mWidth) = true ∨
            ops.lt X'.y (ops.ofInt 0) = true ∨ ops.ge X'.y (ops.ofInt image.mHeight) = true) →
            r.GetPixel x y = some ⟨0, 0, 0, 0⟩ ∧
            ∀ st, Machine.FieldMorph.body ops image sourceFeatures targetFeatures
              t a b p x y st = some st) ∧
          (¬ (ops.lt X'.x (ops.ofInt 0) = true ∨ ops.ge X'.x (ops.ofInt image.mWidth) = true ∨
            ops.lt X'.y (ops.ofInt 0) = true ∨ ops.ge X'.y (ops.ofInt image.mHeight) = true) →
            ∃ c reads, Machine.biLerp ops X' image = some (c, reads) ∧
              r.GetPixel x y = some c)) := by
  have hsp : ∀ x y : Int,
      ∃ X', Machine.FieldMorph.samplePoint ops sourceFeatures targetFeatures t a b p x y
        = some X' :=
    fun x y => (Machine.FieldMorph.samplePoint_isSome_iff ops _ _ t a b p x y).mpr hlen
  refine ⟨hsp, ?_, ?_⟩
  · intro hbl
    have hret := (Machine.FieldMorph.returns_iff ops hwf sourceFeatures targetFeatures
      t a b p).mpr (by
        intro x y hx0 hxw hy0 hyh
        obtain ⟨X', hX'⟩ := hsp x y
        refine ⟨X', hX', ?_⟩
        by_cases ho : Machine.FieldMorph.outside ops image X' = true
        · exact Or.inl ho
        · exact Or.inr (hbl x y hx0 hxw hy0 hyh X' hX'
            (fun h => ho ((Machine.FieldMorph.outside_iff ops image X').mpr h))))
    obtain ⟨st, hst⟩ := hret
    exact ⟨st.1, by simp [Machine.FieldMorph, hst]⟩
  · intro r hr x y hx0 hxw hy0 hyh X' hX'
    unfold Machine.FieldMorph at hr
    obtain ⟨st, hst, rfl⟩ := Option.map_eq_some'.mp hr
    obtain ⟨_, hpix⟩ := Machine.FieldMorph.run_spec ops hwf sourceFeatures targetFeatures
      t a b p st hst
    obtain ⟨X'', hX'', hout, hin⟩ := hpix x y hx0 hxw hy0 hyh
    rw [hX'] at hX''
    cases hX''
    constructor
    · intro ho
      have ho' := (Machine.FieldMorph.outside_iff ops image X').mpr ho
      refine ⟨hout ho', ?_⟩
      intro st0
      unfold Machine.FieldMorph.body
      simp only [hX', ho', if_true]
    · intro hi
      have hi' : Machine.FieldMorph.outside ops image X' = false := by
        cases h : Machine.FieldMorph.outside ops image X' with
        | false => rfl
        | true => exact absurd ((Machine.FieldMorph.outside_iff ops image X').mp h) hi
      exact hin hi'

/-- C4, witness: on binary32 the warp of the 3 by 1 image by two pixels to the
right samples the pixel `(0, 0)` at `(-2, 0)`, outside the image, and leaves it
`(0, 0, 0, 0)`. -/
theorem FieldMorph_out_of_bounds_sample_witness :
    Example.row3.WF ∧
    Machine.FieldMorph.samplePoint Example.ieee
        [Example.feature32 0 0 1 0] [Example.feature32 2 0 3 0]
        (F32.ofInt 1) (F32.ofRat (1 / 2)) (F32.ofInt 1) (F32.ofInt 0) 0 0 =
      some ⟨F32.fin (-2), F32.zero false⟩ ∧
    F32.lt (F32.fin (-2)) (F32.ofInt 0) = true ∧
    ∃ r, Machine.FieldMorph Example.ieee Example.row3
        [Example.feature32 0 0 1 0] [Example.feature32 2 0 3 0]
        (F32.ofInt 1) (F32.ofRat (1 / 2)) (F32.ofInt 1) (F32.ofInt 0) = some r ∧
      r.GetPixel 0 0 = some ⟨0, 0, 0, 0⟩ ∧
      ∀ st, Machine.FieldMorph.body Example.ieee Example.row3
        [Example.feature32 0 0 1 0] [Example.feature32 2 0 3 0]
        (F32.ofInt 1) (F32.ofRat (1 / 2)) (F32.ofInt 1) (F32.ofInt 0) 0 0 st = some st :=
  have hsp : Machine.FieldMorph.samplePoint Example.ieee
        [Example.feature32 0 0 1 0] [Example.feature32 2 0 3 0]
        (F32.ofInt 1) (F32.ofRat (1 / 2)) (F32.ofInt 1) (F32.ofInt 0) 0 0 =
      some ⟨F32.fin (-2), F32.zero false⟩ := by decide!
  have hlt : F32.lt (F32.fin (-2)) (F32.ofInt 0) = true := by decide!
  ⟨by decide, hsp, hlt, _, Machine.FieldMorph.shift_run,
    ((FieldMorph_out_of_bounds_sample Example.ieee Example.row3 (by decide)
      [Example.feature32 0 0 1 0] [Example.feature32 2 0 3 0]
      (F32.ofInt 1) (F32.ofRat (1 / 2)) (F32.ofInt 1) (F32.ofInt 0) (le_refl _)).2.2 _
      Machine.FieldMorph.shift_run 0 0 (le_refl _) (by decide) (le_refl _) (by decide)
      _ hsp).1 (Or.inl hlt)⟩

/-- C11, amended.  Whatever the float arithmetic does: for every pair of
well-formed images, every `t` and every pixel `(x, y)` inside the output, each
of the channels r, g and b of `BlendImages(image1, image2, t)` at `(x, y)` is
the conversion to 8 bits of the `float` value `c1 + t*(c2 - c1)`, each
operation computed in `float`, where `c1` and `c2` are the same channel of
`image1` and `image2` at `(x, y)`; the alpha of the output is 255. -/
theorem BlendImages_channels {Fl : Type} (ops : FloatOps Fl)
    (image1 image2 : STImage) (hwf1 : image1.WF) (hwf2 : image2.WF) (t : Fl) :
    ∃ r, Machine.BlendImages ops image1 image2 t = some r ∧
      ∀ x y : Int, 0 ≤ x → x < min image1.mWidth image2.mWidth →
        0 ≤ y → y < min image1.mHeight image2.mHeight →
        ∃ c1 c2 c, image1.GetPixel x y = some c1 ∧ image2.GetPixel x y = some c2 ∧
          r.GetPixel x y = some c ∧
          c.r = ops.toComponent
            (ops.add (ops.ofInt c1.r) (ops.mul t (ops.sub (ops.ofInt c2.r) (ops.ofInt c1.r)))) ∧
          c.g = ops.toComponent
            (ops.add (ops.ofInt c1.g) (ops.mul t (ops.sub (ops.ofInt c2.g) (ops.ofInt c1.g)))) ∧
          c.b = ops.toComponent
            (ops.add (ops.ofInt c1.b) (ops.mul t (ops.sub (ops.ofInt c2.b) (ops.ofInt c1.b)))) ∧
          c.a = 255 := by
  obtain ⟨r, hr, _, hpix⟩ := Machine.BlendImages.channels_spec ops hwf1 hwf2 t
  refine ⟨r, hr, ?_⟩
  intro x y hx0 hxw hy0 hyh
  obtain ⟨p1, p2, h1, h2, hg⟩ := hpix x y hx0 hxw hy0 hyh
  exact ⟨p1, p2, _, h1, h2, hg, rfl, rfl, rfl, rfl⟩

/-- C11, witness: on binary32, a 2 by 2 image blended with a 3 by 2 image at
`t = 0.7f`. -/
theorem BlendImages_channels_witness :
    Example.opaque2.WF ∧ Example.wide.WF ∧
    ∃ r, Machine.BlendImages Example.ieee Example.opaque2 Example.wide (F32.ofRat (7 / 10))
        = some r ∧
      ∀ x y : Int, 0 ≤ x → x < min Example.opaque2.mWidth Example.wide.mWidth →
        0 ≤ y → y < min Example.opaque2.mHeight Example.wide.mHeight →
        ∃ c1 c2 c, Example.opaque2.GetPixel x y = some c1 ∧
          Example.wide.GetPixel x y = some c2 ∧ r.GetPixel x y = some c ∧
          c.r = F32.toComponent (F32.add (F32.ofInt c1.r)
            (F32.mul (F32.ofRat (7 / 10)) (F32.sub (F32.ofInt c2.r) (F32.ofInt c1.r)))) ∧
          c.g = F32.toComponent (F32.add (F32.ofInt c1.g)
            (F32.mul (F32.ofRat (7 / 10)) (F32.sub (F32.ofInt c2.g) (F32.ofInt c1.g)))) ∧
          c.b = F32.toComponent (F32.add (F32.ofInt c1.b)
            (F32.mul (F32.ofRat (7 / 10)) (F32.sub (F32.ofInt c2.b) (F32.ofInt c1.b)))) ∧
          c.a = 255 :=
  ⟨by decide, by decide,
    BlendImages_channels Example.ieee Example.opaque2 Example.wide (by decide) (by decide)
      (F32.ofRat (7 / 10))⟩

/-- C15.  In `MorphImages` both warps are driven toward the same intermediate
geometry.  The loop body of `FieldMorph` first interpolates the segment
`(Pi, Qi)` of the feature pair and computes the rest from that segment and the
feature it reads from its first list; the call that warps the target image,
with the lists swapped and the parameter `1 - t`, interpolates in exact
arithmetic the segment that the call that warps the source image interpolates,
so iteration `i` of the two loops over features differs only in the feature
the point is rebuilt on (`source` in one, `target` in the other); and the
result of `MorphImages` is `BlendImages` of the two warped images with factor
`t`. -/
theorem MorphImages_same_geometry {F : Type} [LinearOrderedField F] [FloorRing F]
    (sqrtf : F → F) (powf : F → F → F)
    (sourceImage : STImage) (sourceFeatures : List (Feature F))
    (targetImage : STImage) (targetFeatures : List (Feature F)) (t a b p : F) :
    (∀ source target : Feature F,
      FieldMorph.interpolated target source (1 - t) =
          FieldMorph.interpolated source target t ∧
        FieldMorph.interpolated source target t =
          ⟨⟨Lerp source.P.x target.P.x t, Lerp source.P.y target.P.y t⟩,
            ⟨Lerp source.Q.x target.Q.x t, Lerp source.Q.y target.Q.y t⟩⟩) ∧
    (∀ (X : STPoint2 F) (acc : STVector2 F × F) (i : Nat) (source target : Feature F),
      sourceFeatures[i]? = some source → targetFeatures[i]? = some target →
      FieldMorph.accum sqrtf powf X sourceFeatures targetFeatures t a b p acc i =
          (match FieldMorph.displace sqrtf powf X
              (FieldMorph.interpolated source target t) source a b p with
            | some (Di, weight) => some (acc.1.add (Di.mulS weight), acc.2 + weight)
            | none => none) ∧
        FieldMorph.accum sqrtf powf X targetFeatures sourceFeatures (1 - t) a b p acc i =
          (match FieldMorph.displace sqrtf powf X
              (FieldMorph.interpolated source target t) target a b p with
            | some (Di, weight) => some (acc.1.add (Di.mulS weight), acc.2 + weight)
            | none => none)) ∧
    MorphImages sqrtf powf sourceImage sourceFeatures targetImage targetFeatures t a b p =
      (FieldMorph sqrtf powf sourceImage sourceFeatures targetFeatures t a b p).bind
        (fun image1 =>
          (FieldMorph sqrtf powf targetImage targetFeatures sourceFeatures (1 - t) a b p).bind
            (fun image2 => BlendImages image1 image2 t)) := by
  refine ⟨?_, ?_, ?_⟩
  · intro source target
    exact ⟨FieldMorph.interpolated_swap source target t, rfl⟩
  · intro X acc i source target hs ht
    constructor
    · exact FieldMorph.accum_eq_displace sqrtf powf X sourceFeatures targetFeatures t a b p
        acc i source target hs ht
    · rw [FieldMorph.accum_eq_displace sqrtf powf X targetFeatures sourceFeatures (1 - t) a b p
        acc i target source ht hs, FieldMorph.interpolated_swap]
  · unfold MorphImages
    cases FieldMorph sqrtf powf sourceImage sourceFeatures targetFeatures t a b p with
    | none => rfl
    | some image1 =>
      cases FieldMorph sqrtf powf targetImage targetFeatures sourceFeatures (1 - t) a b p with
      | none => rfl
      | some image2 => rfl

/-- C25.  In the loop over features of `FieldMorph` the iteration `i` is
inside both lists exactly when `i` is below both lengths; the loop, which
iterates `i` over the length of its second list and reads both lists at `i`,
makes all its accesses inside the lists exactly when the second list is not
longer than the first; and the two calls made by `MorphImages`, one with
`(sourceFeatures, targetFeatures)` and `t`, the other with the lists swapped
and `1 - t`, make all their accesses inside the lists, at whatever pixels,
exactly when the two lists have the same length.  This holds whatever the
float arithmetic does. -/
theorem MorphImages_index_in_bounds_iff {Fl : Type} (ops : FloatOps Fl)
    (sourceFeatures targetFeatures : List (Feature Fl)) (t a b p : Fl) :
    (∀ (X : STPoint2 Fl) (acc : STVector2 Fl × Fl) (i : Nat),
      (∃ acc', Machine.FieldMorph.accum ops X sourceFeatures targetFeatures t a b p acc i
          = some acc') ↔ (i < sourceFeatures.length ∧ i < targetFeatures.length)) ∧
    (∀ X : STPoint2 Fl,
      (∃ r, Machine.FieldMorph.features ops X sourceFeatures targetFeatures t a b p = some r) ↔
        targetFeatures.length ≤ sourceFeatures.length) ∧
    (∀ X1 X2 : STPoint2 Fl,
      ((∃ r, Machine.FieldMorph.features ops X1 sourceFeatures targetFeatures t a b p
          = some r) ∧
        (∃ r, Machine.FieldMorph.features ops X2 targetFeatures sourceFeatures
          (ops.sub (ops.ofInt 1) t) a b p = some r)) ↔
        sourceFeatures.length = targetFeatures.length) ∧
    (∀ (sourceImage targetImage : STImage),
      Machine.MorphImages ops sourceImage sourceFeatures targetImage targetFeatures t a b p =
        (Machine.FieldMorph ops sourceImage sourceFeatures targetFeatures t a b p).bind
          (fun image1 =>
            (Machine.FieldMorph ops targetImage targetFeatures sourceFeatures
              (ops.sub (ops.ofInt 1) t) a b p).bind
              (fun image2 => Machine.BlendImages ops image1 image2 t))) := by
  refine ⟨?_, ?_, ?_, ?_⟩
  · intro X acc i
    have h := Machine.FieldMorph.accum_eq_none ops X sourceFeatures targetFeatures t a b p acc i
    constructor
    · rintro ⟨acc', hacc⟩
      by_contra hcon
      have : sourceFeatures[i]? = none ∨ targetFeatures[i]? = none := by
        simp only [List.getElem?_eq_none_iff]
        omega
      rw [h.mpr this] at hacc
      cases hacc
    · rintro ⟨h1, h2⟩
      cases hacc : Machine.FieldMorph.accum ops X sourceFeatures targetFeatures t a b p acc i with
      | some acc' => exact ⟨acc', rfl⟩
      | none =>
        have := h.mp hacc
        simp only [List.getElem?_eq_none_iff] at this
        omega
  · intro X
    exact Machine.FieldMorph.features_isSome_iff ops X sourceFeatures targetFeatures t a b p
  · intro X1 X2
    rw [Machine.FieldMorph.features_isSome_iff, Machine.FieldMorph.features_isSome_iff]
    omega
  · intro sourceImage targetImage
    unfold Machine.MorphImages
    cases Machine.FieldMorph ops sourceImage sourceFeatures targetFeatures t a b p with
    | none => rfl
    | some image1 =>
      cases Machine.FieldMorph ops targetImage targetFeatures sourceFeatures
          (ops.sub (ops.ofInt 1) t) a b p with
      | none => rfl
      | some image2 => rfl

/-- C26.  The source feature `(0, 0) -> (1, 0)` and the target feature
`(1, 0) -> (0, 0)` are both non-degenerate, yet at `t = 1/2` the two
interpolated endpoints coincide (in exact arithmetic and on binary32 floats,
where the interpolation is exact), the squared length of the interpolated
segment is zero and the loop body of `FieldMorph` divides by it: on binary32,
for every `powf` and all `a`, `b`, `p`, the displacement and the sample point
of the pixel `(0, 0)` are NaNs, the bounds test lets the NaNs through, and the
warp of a 1 by 1 image ends in the assertion of `GetPixel`. -/
theorem FieldMorph_interpolated_degenerate :
    (Example.seg ℚ).P ≠ (Example.seg ℚ).Q ∧ (Example.segRev ℚ).P ≠ (Example.segRev ℚ).Q ∧
    FieldMorph.interpolated (Example.seg ℚ) (Example.segRev ℚ) (1 / 2) =
      ⟨⟨1 / 2, 0⟩, ⟨1 / 2, 0⟩⟩ ∧
    ((FieldMorph.interpolated (Example.seg ℚ) (Example.segRev ℚ) (1 / 2)).Q.sub
      (FieldMorph.interpolated (Example.seg ℚ) (Example.segRev ℚ) (1 / 2)).P).LengthSq = 0 ∧
    Machine.Lerp Example.ieee (F32.ofInt 0) (F32.ofInt 1) (F32.ofRat (1 / 2)) =
      Machine.Lerp Example.ieee (F32.ofInt 1) (F32.ofInt 0) (F32.ofRat (1 / 2)) ∧
    ∀ (powf : F32 → F32 → F32) (a b p : F32),
      (Machine.FieldMorph.feature (binary32 powf) ⟨F32.ofInt 0, F32.ofInt 0⟩
          (Example.feature32 0 0 1 0) (Example.feature32 1 0 0 0)
          (F32.ofRat (1 / 2)) a b p).1 = ⟨F32.nan, F32.nan⟩ ∧
      Machine.FieldMorph.samplePoint (binary32 powf)
          [Example.feature32 0 0 1 0] [Example.feature32 1 0 0 0]
          (F32.ofRat (1 / 2)) a b p 0 0 = some ⟨F32.nan, F32.nan⟩ ∧
      Machine.FieldMorph.outside (binary32 powf) Example.dot1 ⟨F32.nan, F32.nan⟩ = false ∧
      Machine.FieldMorph (binary32 powf) Example.dot1
          [Example.feature32 0 0 1 0] [Example.feature32 1 0 0 0]
          (F32.ofRat (1 / 2)) a b p = none :=
  ⟨by decide, by decide, by decide!, by decide!, by decide!,
    fun powf a b p =>
      ⟨Machine.FieldMorph.opposite_displacement powf a b p,
        Machine.FieldMorph.opposite_samplePoint powf a b p, rfl,
        Machine.FieldMorph.opposite_run powf a b p⟩⟩

end Metamorphosis
